import Mathlib

/-!
# fakesilence: a verification development

A shallow embedding of `fakesilence.go` (package `main`): the noise synthesizer
`generateInaudibleSilence` and the read / detect / replace / write loop of `main`,
followed by theorems about them.

Conventions of the embedding

* a byte is a natural number (the values written by the program are reduced modulo 256);
* `float64` values that the program can hold in `silentNanoseconds` are non-negative; a
  finite one is stored as its multiple of `2^-1074` (the spacing of the subnormals, so
  every finite non-negative `float64` is such a multiple), and `+Inf` is a separate value;
* rounding is IEEE-754 round-to-nearest, ties-to-even, computed exactly on naturals;
* a conversion of a `float64` of `2^63` or more to `int64` has the result the platform
  gives it, a parameter of the configuration (Go leaves it to the implementation);
* `rand.Intn(2)` is a stream of draws `rng : Nat → Nat`, the `i`-th call returning
  `rng i % 2`;
* the input is the list of what the successive reads of standard input deliver, and the
  output is the list of the buffers handed to `wbuf.Write`, which is taken to succeed;
* a `panic` and the exhaustion of the recursion fuel are explicit results.
-/

set_option exponentiation.threshold 4096

namespace Fakesilence

/-! ## Exact binary rounding -/

/-- Binary search for the position of the leading bit: for `0 < n < 2^(2^k)` the result is
`⌊log₂ n⌋`. -/
def log2Search : Nat → Nat → Nat
  | 0, _ => 0
  | k + 1, n =>
    if n < 2 ^ (2 ^ k) then log2Search k n
    else 2 ^ k + log2Search k (n / 2 ^ (2 ^ k))

/-- Position of the leading bit, `⌊log₂ n⌋` (and `0` for `n = 0`): a binary search below
`2^4096`, which covers every value a `float64` computation produces, and the library
function beyond. -/
def ilog2 (n : Nat) : Nat :=
  if n < 2 ^ (2 ^ 12) then log2Search 12 n else Nat.log2 n

/-- Quotient `a / b` rounded to the nearest integer, a tie going to the even one. -/
def rne (a b : Nat) : Nat :=
  let q := a / b
  let r := a % b
  if b < 2 * r ∨ (2 * r = b ∧ q % 2 = 1) then q + 1 else q

/-- The rational `a / b` (counted in units of the format's smallest subnormal) rounded to
the nearest value with a significand of `p` bits, ties to even. While the integer part
has at most `p` bits the grid is the integers (subnormals and small normals); above that
the grid step is `2^s`, `s` the number of excess bits. -/
def roundTo (p a b : Nat) : Nat :=
  let s := (ilog2 (a / b) + 1) - p
  rne a (b * 2 ^ s) * 2 ^ s

/-! ## float64, as far as the accumulator needs it -/

/-- Number of `2^-1074` units in `1.0`. -/
def f64One : Nat := 2 ^ 1074

/-- A non-negative `float64`: a finite value `m * 2^-1074`, or `+Inf`. -/
inductive F64 where
  | fin (m : Nat)
  | inf
  deriving DecidableEq

namespace F64

/-- The float `0.0`, as in `float64(0)` and `silentNanoseconds = 0`. -/
def zero : F64 := fin 0

/-- Rounding of the exact non-negative rational `a / b` units to `float64`; a rounded
value of `2^1024` or more overflows to `+Inf`. -/
def round (a b : Nat) : F64 :=
  let r := roundTo 53 a b
  if r < 2 ^ 2098 then fin r else inf

/-- Conversion `float64(n)` of a non-negative integer. -/
def ofNat (n : Nat) : F64 := round (n * f64One) 1

/-- Float addition `x + y` of non-negative values. -/
def add : F64 → F64 → F64
  | fin x, fin y => round (x + y) 1
  | _, _ => inf

/-- Float division `x / y` for a positive finite `x` (the program only divides
`float64(time.Second)`): a zero divisor gives `+Inf`, an infinite one `0`. -/
def div : F64 → F64 → F64
  | fin x, fin y => if y = 0 then inf else round (x * f64One) y
  | fin _, inf => fin 0
  | inf, _ => inf

/-- The comparison `t ≤ x` of an integer number `t` with the exact value of `x`; `+Inf`
is above every integer. -/
def IntLe (t : Int) (x : F64) : Prop := ∀ m, x = fin m → t * (f64One : Int) ≤ (m : Int)

/-- The value is finite and, once truncated, in the range of `int64`. -/
def InInt64 (x : F64) : Prop := ∃ m, x = fin m ∧ m / f64One < 2 ^ 63

end F64

/-- The conversion `time.Duration(x)` of a non-negative `float64` to `int64`: the
fraction is discarded; for a value that `int64` cannot hold (`2^63` or more, or `+Inf`)
Go leaves the result to the implementation, and `ovf` is that result (`-2^63` on amd64,
`2^63 - 1` on arm64). -/
def toDuration (ovf : Int) : F64 → Int
  | F64.fin m => if m / f64One < 2 ^ 63 then ((m / f64One : Nat) : Int) else ovf
  | F64.inf => ovf

/-! ## Results of a computation -/

/-- How a modelled piece of the program ends: normally with a value, in a `panic` (with
the state reached), or with the recursion fuel of the model used up. -/
inductive Outcome (σ : Type) where
  | done (s : σ)
  | panic (s : σ)
  | outOfFuel
  deriving DecidableEq

/-- The result mapped through `f`, whichever way the computation ended. -/
def Outcome.map {σ τ : Type} (f : σ → τ) : Outcome σ → Outcome τ
  | .done s => .done (f s)
  | .panic s => .panic (f s)
  | .outOfFuel => .outOfFuel

/-! ## encoding/binary and math.FloatNNbits -/

/-- The method `binary.LittleEndian.PutUintN` for `n` bytes: byte `i` is `v >> (8*i)`. -/
def putLittleEndian (n v : Nat) : List Nat :=
  (List.range n).map (fun i => v / 2 ^ (8 * i) % 256)

/-- The method `binary.BigEndian.PutUintN` for `n` bytes: byte `i` is
`v >> (8*(n-1-i))`. -/
def putBigEndian (n v : Nat) : List Nat :=
  (List.range n).map (fun i => v / 2 ^ (8 * (n - 1 - i)) % 256)

/-- The byte order chosen at the top of `generateInaudibleSilence`. -/
def putUint (bigEndian : Bool) (n v : Nat) : List Nat :=
  if bigEndian then putBigEndian n v else putLittleEndian n v

/-- The conversions `intN(r)` followed by `uintN(...)` that `binary.Write` performs: the
two's complement of `r` in `width` bits. -/
def toUint (width : Nat) (r : Int) : Nat := (r % (2 : Int) ^ width).toNat

/-- The functions `math.Float32bits` (`p = 24`, `w = 32`) and `math.Float64bits`
(`p = 53`, `w = 64`) of the value with sign `neg` and magnitude `m` units of the smallest
subnormal, `m` being representable. -/
def floatBits (p w : Nat) (neg : Bool) (m : Nat) : Nat :=
  let e := (ilog2 m + 1) - p
  let biased := if m < 2 ^ (p - 1) then 0 else e + 1
  let frac := if m < 2 ^ (p - 1) then m else m / 2 ^ e - 2 ^ (p - 1)
  (if neg then 2 ^ (w - 1) else 0) + biased * 2 ^ (p - 1) + frac

/-- The constant `tiniestPositiveFloat32 = 1.175494e-38` once converted to `float32`, in
units of `2^-149`. -/
def tiniestPositiveFloat32 : Nat := roundTo 24 (1175494 * 2 ^ 149) (10 ^ 44)

/-- The constant `tiniestPositiveFloat64 = 2.2250738585072009e-308` once converted to
`float64`, in units of `2^-1074`. -/
def tiniestPositiveFloat64 : Nat := roundTo 53 (22250738585072009 * 2 ^ 1074) (10 ^ 324)

/-- The float product `floatNN(r) * c` for `r` one of `-1`, `0` (all that
`rand.Intn(2)-1` yields), which is exact: sign and magnitude. `0 * c` is `+0`. -/
def mulDraw (r : Int) (c : Nat) : Bool × Nat := (decide (r < 0), r.natAbs * c)

/-- One pass through the `switch` of `generateInaudibleSilence` for the drawn value
`r = rand.Intn(2)-1`: the bytes `binary.Write` appends, or `none` for the `default`
branch, which panics. -/
def encodeSample (float bigEndian : Bool) (bytesPerSample : Nat) (r : Int) :
    Option (List Nat) :=
  match float, bytesPerSample with
  | false, 1 => some (putUint bigEndian 1 (toUint 8 r))
  | false, 2 => some (putUint bigEndian 2 (toUint 16 r))
  | false, 4 => some (putUint bigEndian 4 (toUint 32 r))
  | true, 4 =>
    some (putUint bigEndian 4
      (floatBits 24 32 (mulDraw r tiniestPositiveFloat32).1 (mulDraw r tiniestPositiveFloat32).2))
  | true, 8 =>
    some (putUint bigEndian 8
      (floatBits 53 64 (mulDraw r tiniestPositiveFloat64).1 (mulDraw r tiniestPositiveFloat64).2))
  | _, _ => none

/-- The value `rand.Intn(2)-1` of the draw number `draws`. -/
def drawValue (rng : Nat → Nat) (draws : Nat) : Int := ((rng draws % 2 : Nat) : Int) - 1

/-- The loop `for i := 0; i < len(b); i += bytesPerSample` of `generateInaudibleSilence`,
from position `i` with `buf` written and `draws` calls of `rand.Intn` made so far. -/
def synthLoop (float bigEndian : Bool) (bytesPerSample len : Nat) (rng : Nat → Nat) :
    Nat → Nat → List Nat → Nat → Outcome (List Nat × Nat)
  | 0, i, buf, draws => if i < len then .outOfFuel else .done (buf, draws)
  | fuel + 1, i, buf, draws =>
    if i < len then
      match encodeSample float bigEndian bytesPerSample (drawValue rng draws) with
      | none => .panic (buf, draws)
      | some bs =>
        synthLoop float bigEndian bytesPerSample len rng fuel (i + bytesPerSample) (buf ++ bs)
          (draws + 1)
    else .done (buf, draws)

/-- The function `generateInaudibleSilence(float, bigEndian, bytesPerSample, b)`: the new
contents of `b` and the number of draws made so far. The last line is
`copy(b, buf.Bytes())`, which overwrites the first `min(len(b), len(buf))` bytes. -/
def generateInaudibleSilence (float bigEndian : Bool) (bytesPerSample : Nat) (b : List Nat)
    (rng : Nat → Nat) (draws : Nat) : Outcome (List Nat × Nat) :=
  (synthLoop float bigEndian bytesPerSample b.length rng b.length 0 [] draws).map
    (fun r => (r.1.take b.length ++ b.drop r.1.length, r.2))

/-! ## The configuration -/

/-- The parsed command line, and the one platform parameter the program depends on. -/
structure Config where
  /-- The flag `--samplerate`, a positive integer. Zero gives the frame duration `+Inf`, as
  in Go; negative rates are not modelled. -/
  sampleRate : Nat
  /-- The flag `--float`. -/
  float : Bool
  /-- The flag `--bits`, after `strconv.Atoi`. -/
  bits : Nat
  /-- The flag `--encoding` compared with the string be. -/
  bigEndian : Bool
  /-- The flag `--channels`. -/
  channels : Nat
  /-- The flag `--silence-threshold`, in nanoseconds. -/
  silenceThreshold : Int
  /-- What the platform makes of a `float64` to `int64` conversion out of range. -/
  convOverflow : Int

/-- The variable `bytesPerSample := sampleBits / 8`. -/
def Config.bytesPerSample (cfg : Config) : Nat := cfg.bits / 8

/-- The variable `bytesPerFrame := *argChannels * bytesPerSample`. -/
def Config.bytesPerFrame (cfg : Config) : Nat := cfg.channels * cfg.bytesPerSample

/-- The variable `frameNanoseconds := float64(time.Second) / float64(*argSampleRate)`. -/
def Config.frameNanoseconds (cfg : Config) : F64 :=
  F64.div (F64.ofNat 1000000000) (F64.ofNat cfg.sampleRate)

/-- The five cases of the `switch` that do not panic. -/
def Supported (float : Bool) (bytesPerSample : Nat) : Prop :=
  (float = false ∧ (bytesPerSample = 1 ∨ bytesPerSample = 2 ∨ bytesPerSample = 4)) ∨
  (float = true ∧ (bytesPerSample = 4 ∨ bytesPerSample = 8))

instance (float : Bool) (bytesPerSample : Nat) : Decidable (Supported float bytesPerSample) := by
  unfold Supported; infer_instance

/-! ## The input source -/

/-- What one read of the underlying source delivers: some bytes (possibly none) without
an error, or an error other than `io.EOF` with no bytes. After the last event the source
is at its end: `os.Stdin` then returns `0, io.EOF`. -/
inductive ReadEvent where
  | data (bs : List Nat)
  | fail
  deriving DecidableEq

/-- The bytes of the whole input, in order. -/
def inputBytes : List ReadEvent → List Nat
  | [] => []
  | .data bs :: rest => bs ++ inputBytes rest
  | .fail :: rest => inputBytes rest

/-- The call `buf.Read(p)` with `len(p) = cap`: the bytes copied into `p`, whether the
error is `io.EOF`, and the source afterwards. A `bufio.Reader` hands out at most `cap`
bytes of what the source delivered and keeps the rest for the next call. For an empty
`p` (a frame size of zero) it returns `0, nil` at once and leaves the source alone. -/
def read (cap : Nat) (src : List ReadEvent) : List Nat × Bool × List ReadEvent :=
  if cap = 0 then ([], false, src)
  else
    match src with
    | [] => ([], true, [])
    | .fail :: rest => ([], false, rest)
    | .data bs :: rest =>
      if bs.length ≤ cap then (bs, false, rest)
      else (bs.take cap, false, .data (bs.drop cap) :: rest)

/-! ## The silence tracker (lines 108 to 128 of `main`) -/

/-- What the tracker carries from frame to frame, and what it has produced. -/
structure Tracker where
  /-- The variable `silentNanoseconds`. -/
  silentNanoseconds : F64
  /-- Number of calls of `rand.Intn` so far. -/
  draws : Nat
  /-- The arguments of the calls of `wbuf.Write`, in order (the writes are taken to
  succeed). -/
  out : List (List Nat)
  /-- The counter `generatedFakeSilenceByteCount`, a `uint64`. -/
  generatedFakeSilenceByteCount : Nat
  /-- For every frame processed, whether the branch at line 120 was taken. -/
  trace : List Bool
  deriving DecidableEq

/-- Lines 109 to 116: add one frame duration, then reset on the first non-zero byte. -/
def updateSilence (frameNanoseconds acc : F64) (frame : List Nat) : F64 :=
  let acc1 := acc.add frameNanoseconds
  if frame.any (fun b => b != 0) then F64.zero else acc1

/-- Lines 108 to 128 for one complete frame: the tracker afterwards and the contents of
`readBytes` afterwards. -/
def trackerStep (cfg : Config) (rng : Nat → Nat) (t : Tracker) (frame : List Nat) :
    Outcome (Tracker × List Nat) :=
  let acc := updateSilence cfg.frameNanoseconds t.silentNanoseconds frame
  if cfg.silenceThreshold ≤ toDuration cfg.convOverflow acc then
    match generateInaudibleSilence cfg.float cfg.bigEndian cfg.bytesPerSample frame rng
        t.draws with
    | .done r =>
      .done ({ silentNanoseconds := acc, draws := r.2, out := t.out ++ [r.1],
               generatedFakeSilenceByteCount :=
                 (t.generatedFakeSilenceByteCount + frame.length) % 2 ^ 64,
               trace := t.trace ++ [true] }, r.1)
    | .panic _ =>
      .panic ({ silentNanoseconds := acc, draws := t.draws, out := t.out,
                generatedFakeSilenceByteCount := t.generatedFakeSilenceByteCount,
                trace := t.trace ++ [true] }, frame)
    | .outOfFuel => .outOfFuel
  else
    .done ({ silentNanoseconds := acc, draws := t.draws, out := t.out ++ [frame],
             generatedFakeSilenceByteCount := t.generatedFakeSilenceByteCount,
             trace := t.trace ++ [false] }, frame)

/-! ## The loop of `main` (lines 94 to 132) -/

/-- The variables of the loop. -/
structure State where
  /-- What the source has still to deliver. -/
  src : List ReadEvent
  /-- The buffer `readBytes`. -/
  readBytes : List Nat
  /-- The variable `offset`. -/
  offset : Nat
  /-- The counter `readByteCount`, a `uint64`. -/
  readByteCount : Nat
  /-- The tracker. -/
  tracker : Tracker
  deriving DecidableEq

/-- The loop `for { ... }` of `main`, one iteration per unit of fuel. -/
def mainLoop (cfg : Config) (rng : Nat → Nat) : Nat → State → Outcome State
  | 0, _ => .outOfFuel
  | fuel + 1, st =>
    match read (st.readBytes.length - st.offset) st.src with
    | (_, true, _) => .done st
    | (bs, false, src1) =>
      let rb := st.readBytes.take st.offset ++ bs ++ st.readBytes.drop (st.offset + bs.length)
      let count := (st.readByteCount + bs.length) % 2 ^ 64
      if bs.length + st.offset < st.readBytes.length then
        mainLoop cfg rng fuel
          { src := src1, readBytes := rb, offset := st.offset + bs.length,
            readByteCount := count, tracker := st.tracker }
      else
        match trackerStep cfg rng st.tracker rb with
        | .done r =>
          mainLoop cfg rng fuel
            { src := src1, readBytes := r.2, offset := 0, readByteCount := count,
              tracker := r.1 }
        | .panic r =>
          .panic { src := src1, readBytes := r.2, offset := st.offset, readByteCount := count,
                   tracker := r.1 }
        | .outOfFuel => .outOfFuel

/-- The tracker before the loop: `silentNanoseconds := float64(0)`,
`generatedFakeSilenceByteCount := uint64(0)`, nothing drawn and nothing written. -/
def initTracker : Tracker :=
  { silentNanoseconds := F64.zero, draws := 0, out := [], generatedFakeSilenceByteCount := 0,
    trace := [] }

/-- The state before the loop: `readBytes := make([]byte, bytesPerFrame)`, `offset := 0`
and `readByteCount := uint64(0)`. -/
def initState (cfg : Config) (src : List ReadEvent) : State :=
  { src := src, readBytes := List.replicate cfg.bytesPerFrame 0, offset := 0,
    readByteCount := 0, tracker := initTracker }

/-- A number of iterations that the loop cannot exceed on `src` when the frame size is at
least one byte. With a frame size of zero the loop of the program never ends, and the
loop of the model runs out of fuel. -/
def sourceFuel : List ReadEvent → Nat
  | [] => 1
  | .data bs :: rest => bs.length + 1 + sourceFuel rest
  | .fail :: rest => 1 + sourceFuel rest

/-- The program on the input `src` with the random draws `rng`. -/
def run (cfg : Config) (rng : Nat → Nat) (src : List ReadEvent) : Outcome State :=
  mainLoop cfg rng (sourceFuel src) (initState cfg src)

/-! ## Notions the statements use -/

/-- The complete frames of a byte sequence: its consecutive slices of `fs` bytes. -/
def framesOf (fs : Nat) (l : List Nat) : List (List Nat) :=
  (List.range (l.length / fs)).map (fun i => (l.drop (i * fs)).take fs)

/-- Digital silence: every byte of the frame is zero. -/
def isSilent (frame : List Nat) : Bool := frame.all (fun b => b == 0)

/-- Number of consecutive silent frames at the end of a list of frames. -/
def silentRun (frames : List (List Nat)) : Nat := (frames.reverse.takeWhile isSilent).length

/-- The accumulator after `k` silent frames from a reset: `k` float additions of `f`. -/
def accK (f : F64) : Nat → F64
  | 0 => F64.zero
  | k + 1 => (accK f k).add f

/-- Whether a silent run of `k` frames reaches the threshold, as line 120 tests it. -/
def reaches (cfg : Config) (k : Nat) : Bool :=
  decide (cfg.silenceThreshold ≤ toDuration cfg.convOverflow (accK cfg.frameNanoseconds k))

/-- The frames the tracker processes one after the other, without the reader. -/
def processFrames (cfg : Config) (rng : Nat → Nat) : Tracker → List (List Nat) → Outcome Tracker
  | t, [] => .done t
  | t, frame :: rest =>
    match trackerStep cfg rng t frame with
    | .done r => processFrames cfg rng r.1 rest
    | .panic r => .panic r.1
    | .outOfFuel => .outOfFuel

/-! ## Further notions of the statements and of their proofs -/

/-- The bytes of one sample, empty where the `switch` panics. -/
def sampleBytes (fl be : Bool) (bps : Nat) (r : Int) : List Nat :=
  (encodeSample fl be bps r).getD []

/-- Number of passes of the loop over a buffer of `len` bytes from position `i`. -/
def slotCount (bps len i : Nat) : Nat := (len - i + bps - 1) / bps

/-- What holds of the tracker once it has gone through `frames`, or through the first of
them up to a panic: every decision taken is the one the length of the silent run ending
at that frame gives, and every frame written is the input frame or its replacement. -/
structure Processed (cfg : Config) (rng : Nat → Nat) (frames : List (List Nat))
    (t : Tracker) : Prop where
  trace_le : t.trace.length ≤ frames.length
  out_le : t.out.length ≤ t.trace.length
  trace_eq : ∀ i, i < t.trace.length →
    t.trace[i]? = some (reaches cfg (silentRun (frames.take (i + 1))))
  out_pass : ∀ i, i < t.out.length → t.trace[i]? = some false → t.out[i]? = frames[i]?
  out_repl : ∀ i, i < t.out.length → t.trace[i]? = some true →
    ∃ fr d r, frames[i]? = some fr ∧
      generateInaudibleSilence cfg.float cfg.bigEndian cfg.bytesPerSample fr rng d = .done r ∧
      t.out[i]? = some r.1
  out_len : ∀ i, i < t.out.length →
    (t.out[i]?).map List.length = (frames[i]?).map List.length

/-- The tracker has gone through all of `frames`. -/
structure Finished (cfg : Config) (rng : Nat → Nat) (frames : List (List Nat))
    (t : Tracker) : Prop where
  processed : Processed cfg rng frames t
  trace_length : t.trace.length = frames.length
  out_length : t.out.length = frames.length
  acc_eq : t.silentNanoseconds = accK cfg.frameNanoseconds (silentRun frames)

/-- The tracker has stopped in a panic while going through `frames`. -/
structure Panicked (cfg : Config) (rng : Nat → Nat) (frames : List (List Nat))
    (t : Tracker) : Prop where
  processed : Processed cfg rng frames t
  out_lt : t.out.length < t.trace.length
  last_true : t.trace[t.out.length]? = some true
  unsupported : ¬ Supported cfg.float cfg.bytesPerSample

/-- A value of the grid: a multiple of the step of its own binade. -/
def OnGrid (p c : Nat) : Prop := 2 ^ (ilog2 c + 1 - p) ∣ c

/-- The comparison `c ≤ x` of a number of units with a float; `+Inf` is above all. -/
def F64.GeUnits (c : Nat) (x : F64) : Prop := ∀ m, x = F64.fin m → c ≤ m

/-- The accumulator after `n` more additions of `f` units, computed with the binade
tracked from step to step: `s` is the number of excess bits of the current value. The
result is `none` when a step leaves the tracked binades. -/
def fastAcc (f : Nat) : Nat → Nat → Nat → Option Nat
  | 0, acc, _ => some acc
  | n + 1, acc, s =>
    if 2000 < s then none
    else if acc + f < 2 ^ (s + 52) then none
    else if acc + f < 2 ^ (s + 53) then fastAcc f n (rne (acc + f) (2 ^ s) * 2 ^ s) s
    else if acc + f < 2 ^ (s + 54) then
      fastAcc f n (rne (acc + f) (2 ^ (s + 1)) * 2 ^ (s + 1)) (s + 1)
    else none

/-- The quotient `1e9 / 44100` as a `float64`, in units: `0x1.624ef2a605ce1p+14`. -/
def f44100 : Nat := 6233059114376417 * 2 ^ 1036

/-- The accumulator after 44099 additions, `999977324.2634174` (`0x1.dcd38b621b7a9p+29`),
in units. -/
def v44099 : Nat := 8388417782134697 * 2 ^ 1051

/-- The accumulator after 44100 additions, `1000000000.0003788`
(`0x1.dcd6500000c6ap+29`), in units. -/
def v44100 : Nat := 8388608000003178 * 2 ^ 1051

/-- One second in units: `1e9 * 2^1074`. -/
def oneSecond : Nat := 1000000000 * f64One

/-- The value `2^63` nanoseconds in units, the first that `int64` cannot hold. -/
def int64Limit : Nat := 2 ^ 1137

/-- The default command line (44100 Hz, 16-bit little-endian integers, two channels,
threshold 1s) on a platform where a conversion out of range gives the smallest `int64`. -/
def defaultConfig : Config :=
  { sampleRate := 44100, float := false, bits := 16, bigEndian := false, channels := 2,
    silenceThreshold := 1000000000, convOverflow := -(2 ^ 63) }

/-- The draws in which `rand.Intn(2)` returns `0, 1, 0, 1, ...`. -/
def alternating : Nat → Nat := fun i => i

/-- A sample rate of 1 Hz with one channel of 8-bit integers and a threshold of 1s, on a
platform where a conversion out of range gives the smallest `int64`. -/
def slowConfig : Config :=
  { sampleRate := 1, float := false, bits := 8, bigEndian := false, channels := 1,
    silenceThreshold := 1000000000, convOverflow := -(2 ^ 63) }

/-- The function `binary.BigEndian.UintN` or `binary.LittleEndian.UintN` on the bytes of
one sample: the unsigned number they spell. -/
def readUint (bigEndian : Bool) (bs : List Nat) : Nat :=
  if bigEndian then bs.foldl (fun acc b => acc * 256 + b) 0
  else bs.foldr (fun b acc => b + 256 * acc) 0

/-- The bytes of one sample read as a signed integer of their width (two's complement). -/
def readInt (bigEndian : Bool) (bs : List Nat) : Int :=
  if readUint bigEndian bs < 2 ^ (8 * bs.length - 1) then (readUint bigEndian bs : Int)
  else (readUint bigEndian bs : Int) - 2 ^ (8 * bs.length)

/-- The sample slot number `i` of a buffer: its bytes `i * bytesPerSample` up to
`(i + 1) * bytesPerSample`. -/
def slot (bytesPerSample i : Nat) (b : List Nat) : List Nat :=
  (b.drop (i * bytesPerSample)).take bytesPerSample

/-- The draws in which `rand.Intn(2)` always returns `0`, so that every sample is `-1`. -/
def allMinusOne : Nat → Nat := fun _ => 0

/-- A 24-bit mono configuration at 1 Hz with a threshold of 2s: `--bits 24` is accepted by
the command line, and `bytesPerSample = 3` is none of the cases of the `switch`. -/
def config24 : Config :=
  { sampleRate := 1, float := false, bits := 24, bigEndian := false, channels := 1,
    silenceThreshold := 2000000000, convOverflow := -(2 ^ 63) }

/-- A 64-bit integer configuration (`--bits 64` without `--float`) at 1 Hz with a
threshold of 2s. -/
def config64 : Config :=
  { sampleRate := 1, float := false, bits := 64, bigEndian := false, channels := 1,
    silenceThreshold := 2000000000, convOverflow := -(2 ^ 63) }

/-- A 16-bit mono configuration at 1 Hz with a threshold of 1s. -/
def monoConfig : Config :=
  { sampleRate := 1, float := false, bits := 16, bigEndian := false, channels := 1,
    silenceThreshold := 1000000000, convOverflow := -(2 ^ 63) }

/-- The reads of an input without the failing ones. -/
def dropFailed : List ReadEvent → List ReadEvent
  | [] => []
  | .fail :: rest => dropFailed rest
  | .data bs :: rest => .data bs :: dropFailed rest

/-- The draws in which `rand.Intn(2)` always returns `1`, so that every sample is `0`. -/
def allZero : Nat → Nat := fun _ => 1

/-- A sample rate of 1 Hz with one channel of 8-bit integers and the threshold 0, on a
platform where a conversion out of range gives the smallest `int64`. -/
def zeroThresholdConfig : Config :=
  { sampleRate := 1, float := false, bits := 8, bigEndian := false, channels := 1,
    silenceThreshold := 0, convOverflow := -(2 ^ 63) }

/-- The default command line with `--silence-threshold 0`. -/
def defaultZeroConfig : Config :=
  { sampleRate := 44100, float := false, bits := 16, bigEndian := false, channels := 2,
    silenceThreshold := 0, convOverflow := -(2 ^ 63) }

/-- The output sink as the program sees it, through the results of the calls it makes on
`wbuf`: whether call number `i` of `wbuf.Write` returns an error, and whether the call of
`wbuf.Flush` after the loop does. -/
structure Sink where
  /-- Whether call number `i` (from 0) of `wbuf.Write` returns an error. -/
  writeFails : Nat → Bool
  /-- Whether `wbuf.Flush()` at line 134 returns an error. -/
  flushFails : Bool

/-- How the process ends. -/
inductive Ending where
  /-- The end of `main` is reached: the three lines of statistics are logged with these
  values of `readByteCount` and `generatedFakeSilenceByteCount`, exit status 0. -/
  | reported (readByteCount generatedFakeSilenceByteCount : Nat)
  /-- The call `log.Fatal(err)` of line 127: exit status 1, no statistics. -/
  | fatal
  /-- The `panic` of `generateInaudibleSilence`. -/
  | panicked
  /-- The model ran out of fuel. -/
  | outOfFuel
  deriving DecidableEq

/-- Lines 134 to 139: `wbuf.Flush()` is called as a statement, so the error it returns
is dropped; then the statistics are logged. -/
def afterLoop (sink : Sink) (st : State) : Ending :=
  let _flushErr := sink.flushFails
  .reported st.readByteCount st.tracker.generatedFakeSilenceByteCount

/-- The loop of `main` as `mainLoop`, with the result of `wbuf.Write` tested as at lines
126 to 128, followed by the lines after the loop. The number of calls of `wbuf.Write`
made so far is the length of `out`. -/
def mainFrom (cfg : Config) (rng : Nat → Nat) (sink : Sink) : Nat → State → Ending
  | 0, _ => .outOfFuel
  | fuel + 1, st =>
    match read (st.readBytes.length - st.offset) st.src with
    | (_, true, _) => afterLoop sink st
    | (bs, false, src1) =>
      let rb := st.readBytes.take st.offset ++ bs ++ st.readBytes.drop (st.offset + bs.length)
      let count := (st.readByteCount + bs.length) % 2 ^ 64
      if bs.length + st.offset < st.readBytes.length then
        mainFrom cfg rng sink fuel
          { src := src1, readBytes := rb, offset := st.offset + bs.length,
            readByteCount := count, tracker := st.tracker }
      else
        match trackerStep cfg rng st.tracker rb with
        | .done r =>
          if sink.writeFails st.tracker.out.length then .fatal
          else
            mainFrom cfg rng sink fuel
              { src := src1, readBytes := r.2, offset := 0, readByteCount := count,
                tracker := r.1 }
        | .panic _ => .panicked
        | .outOfFuel => .outOfFuel

/-- The function `main` on the input `src` with the draws `rng` and the output sink
`sink`. -/
def main (cfg : Config) (rng : Nat → Nat) (sink : Sink) (src : List ReadEvent) : Ending :=
  mainFrom cfg rng sink (sourceFuel src) (initState cfg src)

/-- A sink on which every `wbuf.Write` succeeds (the bytes stay in the buffer of `wbuf`)
and the final `wbuf.Flush` fails. -/
def flushFailingSink : Sink := { writeFails := fun _ => false, flushFails := true }

/-- A sink on which the first `wbuf.Write` fails. -/
def writeFailingSink : Sink := { writeFails := fun _ => true, flushFails := true }

/-- A 16-bit mono configuration at 1 Hz with a threshold of 2s: a silent run reaches the
threshold at its second frame. -/
def twoSecondConfig : Config :=
  { sampleRate := 1, float := false, bits := 16, bigEndian := false, channels := 1,
    silenceThreshold := 2000000000, convOverflow := -(2 ^ 63) }

/-! # Theorems -/

/-! ## Frames of a byte sequence -/

theorem framesOf_length (fs : Nat) (l : List Nat) : (framesOf fs l).length = l.length / fs := by
  simp [framesOf]

theorem framesOf_of_length_lt {fs : Nat} {l : List Nat} (h : l.length < fs) :
    framesOf fs l = [] := by
  simp [framesOf, Nat.div_eq_of_lt h]

theorem framesOf_append {fs : Nat} (hfs : 0 < fs) {f : List Nat} (hf : f.length = fs)
    (l : List Nat) : framesOf fs (f ++ l) = f :: framesOf fs l := by
  unfold framesOf
  have hlen : (f ++ l).length / fs = l.length / fs + 1 := by
    rw [List.length_append, hf, Nat.add_comm, Nat.add_div_right _ hfs]
  rw [hlen, List.range_succ_eq_map, List.map_cons, List.map_map]
  congr 1
  · simp [hf]
  · apply List.map_congr_left
    intro i _
    simp only [Function.comp]
    have : (i + 1) * fs = f.length + i * fs := by rw [hf]; ring
    rw [this, ← List.drop_drop, List.drop_left]

theorem length_of_mem_framesOf {fs : Nat} {l f : List Nat} (h : f ∈ framesOf fs l) :
    f.length = fs := by
  unfold framesOf at h
  rw [List.mem_map] at h
  obtain ⟨i, hi, rfl⟩ := h
  rw [List.mem_range] at hi
  rw [List.length_take, List.length_drop]
  have h1 : (i + 1) * fs ≤ l.length := by
    calc (i + 1) * fs ≤ (l.length / fs) * fs := Nat.mul_le_mul_right _ hi
      _ ≤ l.length := Nat.div_mul_le_self _ _
  have h2 : (i + 1) * fs = i * fs + fs := by ring
  omega

/-! ## The synthesizer -/

theorem putLittleEndian_length (n v : Nat) : (putLittleEndian n v).length = n := by
  simp [putLittleEndian]

theorem putBigEndian_length (n v : Nat) : (putBigEndian n v).length = n := by
  simp [putBigEndian]

theorem putUint_length (be : Bool) (n v : Nat) : (putUint be n v).length = n := by
  unfold putUint; split
  · exact putBigEndian_length n v
  · exact putLittleEndian_length n v

theorem encodeSample_isSome_iff (fl be : Bool) (bps : Nat) (r : Int) :
    (encodeSample fl be bps r).isSome = true ↔ Supported fl bps := by
  unfold encodeSample Supported
  split <;> simp_all

theorem encodeSample_length {fl be : Bool} {bps : Nat} {r : Int} {bs : List Nat}
    (h : encodeSample fl be bps r = some bs) : bs.length = bps := by
  unfold encodeSample at h
  split at h <;> simp at h <;> subst h <;> simp [putUint_length]

theorem encodeSample_eq_none {fl be : Bool} {bps : Nat} (h : ¬ Supported fl bps) (r : Int) :
    encodeSample fl be bps r = none := by
  have := encodeSample_isSome_iff fl be bps r
  cases hh : encodeSample fl be bps r with
  | none => rfl
  | some bs => rw [hh] at this; exact absurd (this.mp rfl) h

theorem Supported.pos {fl : Bool} {bps : Nat} (h : Supported fl bps) : 0 < bps := by
  unfold Supported at h; omega

theorem encodeSample_eq_some {fl be : Bool} {bps : Nat} (h : Supported fl bps) (r : Int) :
    encodeSample fl be bps r = some (sampleBytes fl be bps r) := by
  have := (encodeSample_isSome_iff fl be bps r).mpr h
  unfold sampleBytes
  cases hh : encodeSample fl be bps r with
  | none => rw [hh] at this; simp at this
  | some bs => rfl

theorem sampleBytes_length {fl : Bool} (be : Bool) {bps : Nat} (h : Supported fl bps) (r : Int) :
    (sampleBytes fl be bps r).length = bps :=
  encodeSample_length (encodeSample_eq_some h r)

theorem synthLoop_ne_outOfFuel (fl be : Bool) (bps len : Nat) (rng : Nat → Nat) :
    ∀ (fuel i : Nat) (buf : List Nat) (d : Nat), len ≤ i + fuel →
      synthLoop fl be bps len rng fuel i buf d ≠ .outOfFuel := by
  intro fuel
  induction fuel with
  | zero =>
    intro i buf d h
    have : ¬ i < len := by omega
    simp [synthLoop, this]
  | succ fuel ih =>
    intro i buf d h
    unfold synthLoop
    split
    · cases hh : encodeSample fl be bps (drawValue rng d) with
      | none => simp
      | some bs =>
        simp only
        apply ih
        have hs : Supported fl bps := (encodeSample_isSome_iff fl be bps _).mp (by rw [hh]; rfl)
        have := hs.pos
        omega
    · simp

theorem generateInaudibleSilence_ne_outOfFuel (fl be : Bool) (bps : Nat) (b : List Nat)
    (rng : Nat → Nat) (d : Nat) : generateInaudibleSilence fl be bps b rng d ≠ .outOfFuel := by
  unfold generateInaudibleSilence
  have := synthLoop_ne_outOfFuel fl be bps b.length rng b.length 0 [] d (by omega)
  cases hh : synthLoop fl be bps b.length rng b.length 0 [] d with
  | done s => simp [Outcome.map]
  | panic s => simp [Outcome.map]
  | outOfFuel => exact absurd hh this

theorem generateInaudibleSilence_length {fl be : Bool} {bps : Nat} {b : List Nat}
    {rng : Nat → Nat} {d : Nat} {r : List Nat × Nat}
    (h : generateInaudibleSilence fl be bps b rng d = .done r) : r.1.length = b.length := by
  unfold generateInaudibleSilence at h
  cases hh : synthLoop fl be bps b.length rng b.length 0 [] d with
  | done s =>
    rw [hh] at h
    simp only [Outcome.map, Outcome.done.injEq] at h
    subst h
    simp only [List.length_append, List.length_take, List.length_drop]
    omega
  | panic s => rw [hh] at h; simp [Outcome.map] at h
  | outOfFuel => rw [hh] at h; simp [Outcome.map] at h

theorem slotCount_step {fl : Bool} {bps : Nat} (h : Supported fl bps) {len i : Nat}
    (hi : i < len) : slotCount bps len i = slotCount bps len (i + bps) + 1 := by
  unfold slotCount
  unfold Supported at h
  rcases h with ⟨_, h | h | h⟩ | ⟨_, h | h⟩ <;> subst h <;> omega

theorem slotCount_done {bps len i : Nat} (hb : 0 < bps) (hi : ¬ i < len) :
    slotCount bps len i = 0 := by
  unfold slotCount
  have : len - i = 0 := by omega
  rw [this]
  apply Nat.div_eq_of_lt
  omega

theorem synthLoop_supported {fl be : Bool} {bps : Nat} (hs : Supported fl bps) (len : Nat)
    (rng : Nat → Nat) :
    ∀ (fuel i : Nat) (buf : List Nat) (d : Nat), len ≤ i + fuel →
      synthLoop fl be bps len rng fuel i buf d =
        .done (buf ++ ((List.range (slotCount bps len i)).map
                (fun j => sampleBytes fl be bps (drawValue rng (d + j)))).flatten,
               d + slotCount bps len i) := by
  intro fuel
  induction fuel with
  | zero =>
    intro i buf d h
    have hi : ¬ i < len := by omega
    simp [synthLoop, hi, slotCount_done hs.pos hi]
  | succ fuel ih =>
    intro i buf d h
    unfold synthLoop
    by_cases hi : i < len
    · rw [if_pos hi, encodeSample_eq_some hs]
      simp only
      rw [ih (i + bps) _ _ (by have := hs.pos; omega), slotCount_step hs hi]
      rw [List.range_succ_eq_map, List.map_cons, List.flatten_cons, List.map_map]
      simp only [Function.comp, Nat.add_zero, List.append_assoc]
      congr 2
      · congr 3
        apply List.map_congr_left
        intro j _
        simp only [Function.comp]
        congr 2
        omega
      · omega
    · rw [if_neg hi]
      simp [slotCount_done hs.pos hi]

/-! ## The tracker step -/

theorem trackerStep_ne_outOfFuel (cfg : Config) (rng : Nat → Nat) (t : Tracker)
    (frame : List Nat) : trackerStep cfg rng t frame ≠ .outOfFuel := by
  unfold trackerStep
  simp only
  split
  · have := generateInaudibleSilence_ne_outOfFuel cfg.float cfg.bigEndian cfg.bytesPerSample
      frame rng t.draws
    split <;> simp_all
  · simp

theorem trackerStep_done_length {cfg : Config} {rng : Nat → Nat} {t : Tracker}
    {frame : List Nat} {r : Tracker × List Nat} (h : trackerStep cfg rng t frame = .done r) :
    r.2.length = frame.length := by
  unfold trackerStep at h
  simp only at h
  split at h
  · split at h
    · rename_i r' hr
      simp only [Outcome.done.injEq] at h
      subst h
      exact generateInaudibleSilence_length hr
    · simp at h
    · simp at h
  · simp only [Outcome.done.injEq] at h
    subst h
    rfl

/-! ## The reader: the loop hands the tracker the frames of the input -/

theorem mainLoop_refines (cfg : Config) (rng : Nat → Nat) :
    ∀ (fuel : Nat) (st : State), sourceFuel st.src ≤ fuel → st.offset < st.readBytes.length →
      (mainLoop cfg rng fuel st).map State.tracker =
        processFrames cfg rng st.tracker
          (framesOf st.readBytes.length (st.readBytes.take st.offset ++ inputBytes st.src)) := by
  intro fuel
  induction fuel with
  | zero =>
    intro st h _
    cases hs : st.src <;> rw [hs] at h <;> simp [sourceFuel] at h
    rename_i e _; cases e <;> simp [sourceFuel] at h
  | succ fuel ih =>
    intro st hfuel hoff
    obtain ⟨src, rb, off, cnt, t⟩ := st
    simp only at hfuel hoff ⊢
    have hfs : 0 < rb.length := by omega
    have hc0 : ¬ rb.length - off = 0 := by omega
    cases src with
    | nil =>
      have hlen : (List.take off rb ++ inputBytes []).length < rb.length := by
        simp [inputBytes, List.length_take]; omega
      rw [framesOf_of_length_lt hlen]
      simp [mainLoop, read, hc0, Outcome.map, processFrames]
    | cons e rest =>
      cases e with
      | fail =>
        simp only [sourceFuel] at hfuel
        have hrb : List.take off rb ++ [] ++ List.drop (off + 0) rb = rb := by simp
        simp only [mainLoop, read, hc0, if_false, List.length_nil, Nat.zero_add, hoff, if_true,
          inputBytes]
        rw [hrb]
        have := ih { src := rest, readBytes := rb, offset := off + 0,
                     readByteCount := (cnt + 0) % 2 ^ 64, tracker := t }
          (by simp only; omega) (by simp only; omega)
        simpa using this
      | data bs =>
        simp only [sourceFuel] at hfuel
        simp only [inputBytes]
        by_cases hcap : bs.length ≤ rb.length - off
        · -- the whole event fits
          by_cases hlt : bs.length + off < rb.length
          · have hrl : (List.take off rb ++ bs ++ List.drop (off + bs.length) rb).length
                = rb.length := by
              simp only [List.length_append, List.length_take, List.length_drop]; omega
            have htk : List.take (off + bs.length)
                (List.take off rb ++ bs ++ List.drop (off + bs.length) rb)
                = List.take off rb ++ bs := by
              rw [List.take_append_of_le_length
                (by simp only [List.length_append, List.length_take]; omega)]
              rw [List.take_of_length_le
                (by simp only [List.length_append, List.length_take]; omega)]
            have := ih { src := rest,
                         readBytes := List.take off rb ++ bs ++ List.drop (off + bs.length) rb,
                         offset := off + bs.length,
                         readByteCount := (cnt + bs.length) % 2 ^ 64, tracker := t }
              (by simp only; omega) (by simp only; omega)
            simp only [hrl, htk] at this
            simp only [mainLoop, read, hc0, if_false, hcap, if_true, hlt]
            rw [this, List.append_assoc]
          · have hd : List.drop (off + bs.length) rb = [] := by
              apply List.drop_eq_nil_of_le; omega
            have hfl : (List.take off rb ++ bs).length = rb.length := by
              simp only [List.length_append, List.length_take]; omega
            simp only [mainLoop, read, hc0, hcap, if_true, hlt, if_false, hd, List.append_nil]
            rw [← List.append_assoc, framesOf_append hfs hfl]
            simp only [processFrames]
            cases hstep : trackerStep cfg rng t (List.take off rb ++ bs) with
            | done r =>
              have hr := trackerStep_done_length hstep
              have := ih { src := rest, readBytes := r.2, offset := 0,
                           readByteCount := (cnt + bs.length) % 2 ^ 64, tracker := r.1 }
                (by simp only; omega) (by simp only; omega)
              simp only [hr, hfl, List.take_zero, List.nil_append] at this
              simp only
              exact this
            | panic r => simp [Outcome.map]
            | outOfFuel => simp [Outcome.map]
        · -- only the first bytes of the event fit: the frame is complete
          have hcap' : rb.length - off < bs.length := by omega
          have htl : (List.take (rb.length - off) bs).length = rb.length - off := by
            rw [List.length_take]; omega
          have hlt : ¬ (List.take (rb.length - off) bs).length + off < rb.length := by omega
          have hd : List.drop (off + (List.take (rb.length - off) bs).length) rb = [] := by
            apply List.drop_eq_nil_of_le; omega
          have hfl : (List.take off rb ++ List.take (rb.length - off) bs).length = rb.length := by
            simp only [List.length_append, List.length_take]; omega
          simp only [mainLoop, read, hc0, hcap, if_false, hlt, hd, List.append_nil]
          have hsplit : List.take off rb ++ (bs ++ inputBytes rest)
              = (List.take off rb ++ List.take (rb.length - off) bs)
                ++ (List.drop (rb.length - off) bs ++ inputBytes rest) := by
            conv_lhs => rw [← List.take_append_drop (rb.length - off) bs]
            simp only [List.append_assoc]
          rw [hsplit, framesOf_append hfs hfl]
          simp only [processFrames]
          cases hstep : trackerStep cfg rng t
              (List.take off rb ++ List.take (rb.length - off) bs) with
          | done r =>
            have hr := trackerStep_done_length hstep
            have := ih { src := .data (List.drop (rb.length - off) bs) :: rest,
                         readBytes := r.2, offset := 0,
                         readByteCount :=
                           (cnt + (List.take (rb.length - off) bs).length) % 2 ^ 64,
                         tracker := r.1 }
              (by simp only [sourceFuel, List.length_drop]; omega) (by simp only; omega)
            simp only [hr, hfl, List.take_zero, List.nil_append, inputBytes] at this
            simp only
            exact this
          | panic r => simp [Outcome.map]
          | outOfFuel => simp [Outcome.map]

theorem run_refines (cfg : Config) (rng : Nat → Nat) (src : List ReadEvent)
    (hfs : 0 < cfg.bytesPerFrame) :
    (run cfg rng src).map State.tracker =
      processFrames cfg rng initTracker (framesOf cfg.bytesPerFrame (inputBytes src)) := by
  have := mainLoop_refines cfg rng (sourceFuel src) (initState cfg src) (le_refl _)
    (by simp [initState]; exact hfs)
  simpa [run, initState] using this

/-! ## Silent runs and the accumulator -/

theorem silentRun_nil : silentRun [] = 0 := rfl

theorem silentRun_snoc (frames : List (List Nat)) (fr : List Nat) :
    silentRun (frames ++ [fr]) = if isSilent fr then silentRun frames + 1 else 0 := by
  unfold silentRun
  rw [List.reverse_append, List.reverse_singleton, List.singleton_append, List.takeWhile_cons]
  split <;> simp

theorem any_ne_zero_eq (frame : List Nat) :
    frame.any (fun b => b != 0) = !isSilent frame := by
  unfold isSilent
  induction frame with
  | nil => rfl
  | cons b rest ih =>
    simp only [List.any_cons, List.all_cons, ih, Bool.not_and]
    cases h : (b == 0) <;> simp_all [bne]

theorem updateSilence_accK (f : F64) (k : Nat) (frame : List Nat) :
    updateSilence f (accK f k) frame = accK f (if isSilent frame then k + 1 else 0) := by
  unfold updateSilence
  simp only [any_ne_zero_eq]
  cases isSilent frame <;> simp [accK]

/-! ## The tracker over a list of frames -/

theorem processFrames_snoc (cfg : Config) (rng : Nat → Nat) (frames : List (List Nat))
    (fr : List Nat) : ∀ t : Tracker,
    processFrames cfg rng t (frames ++ [fr]) =
      match processFrames cfg rng t frames with
      | .done t1 => (trackerStep cfg rng t1 fr).map Prod.fst
      | .panic t1 => .panic t1
      | .outOfFuel => .outOfFuel := by
  induction frames with
  | nil =>
    intro t
    simp only [List.nil_append, processFrames]
    cases trackerStep cfg rng t fr <;> simp [Outcome.map, processFrames]
  | cons g rest ih =>
    intro t
    simp only [List.cons_append, processFrames]
    cases trackerStep cfg rng t g with
    | done r => simp only; exact ih r.1
    | panic r => rfl
    | outOfFuel => rfl

theorem Processed.snoc_frame {cfg : Config} {rng : Nat → Nat} {frames : List (List Nat)}
    {t : Tracker} (h : Processed cfg rng frames t) (fr : List Nat) :
    Processed cfg rng (frames ++ [fr]) t where
  trace_le := by have := h.trace_le; simp only [List.length_append, List.length_singleton]; omega
  out_le := h.out_le
  trace_eq := by
    intro i hi
    rw [h.trace_eq i hi, List.take_append_of_le_length (by have := h.trace_le; omega)]
  out_pass := by
    intro i hi ht
    rw [h.out_pass i hi ht, List.getElem?_append_left (by have := h.trace_le; have := h.out_le; omega)]
  out_repl := by
    intro i hi ht
    obtain ⟨g, d, r, h1, h2, h3⟩ := h.out_repl i hi ht
    refine ⟨g, d, r, ?_, h2, h3⟩
    rw [List.getElem?_append_left (by have := h.trace_le; have := h.out_le; omega), h1]
  out_len := by
    intro i hi
    rw [h.out_len i hi, List.getElem?_append_left (by have := h.trace_le; have := h.out_le; omega)]

theorem generateInaudibleSilence_supported {fl : Bool} (be : Bool) {bps : Nat}
    (hs : Supported fl bps)
    (b : List Nat) (rng : Nat → Nat) (d : Nat) :
    ∃ r, generateInaudibleSilence fl be bps b rng d = .done r := by
  unfold generateInaudibleSilence
  rw [synthLoop_supported hs b.length rng b.length 0 [] d (by omega)]
  exact ⟨_, rfl⟩

theorem generateInaudibleSilence_panic {fl be : Bool} {bps : Nat} {b : List Nat}
    {rng : Nat → Nat} {d : Nat} {s : List Nat × Nat}
    (h : generateInaudibleSilence fl be bps b rng d = .panic s) : ¬ Supported fl bps := by
  intro hs
  obtain ⟨r, hr⟩ := generateInaudibleSilence_supported be hs b rng d
  rw [hr] at h
  exact Outcome.noConfusion h

theorem Finished.step {cfg : Config} {rng : Nat → Nat} {frames : List (List Nat)}
    {t : Tracker} (h : Finished cfg rng frames t) (fr : List Nat) :
    (∃ r, trackerStep cfg rng t fr = .done r ∧ Finished cfg rng (frames ++ [fr]) r.1) ∨
    (∃ r, trackerStep cfg rng t fr = .panic r ∧ Panicked cfg rng (frames ++ [fr]) r.1) := by
  have hacc : updateSilence cfg.frameNanoseconds t.silentNanoseconds fr
      = accK cfg.frameNanoseconds (silentRun (frames ++ [fr])) := by
    rw [h.acc_eq, updateSilence_accK, silentRun_snoc]
  have hP := h.processed.snoc_frame fr
  have htl := h.trace_length
  have hol := h.out_length
  -- the facts about the frames before `fr` carry over to the longer trace and output
  have trace_old : ∀ (d : Bool) i, i < (t.trace ++ [d]).length →
      (t.trace ++ [d])[i]? = some (reaches cfg (silentRun ((frames ++ [fr]).take (i + 1)))) ∨
      (i = frames.length ∧ (t.trace ++ [d])[i]? = some d) := by
    intro d i hi
    simp only [List.length_append, List.length_singleton] at hi
    by_cases hlt : i < t.trace.length
    · left
      rw [List.getElem?_append_left hlt]
      exact hP.trace_eq i hlt
    · right
      have : i = t.trace.length := by omega
      subst this
      exact ⟨htl, by simp⟩
  have take_all : (frames ++ [fr]).take (frames.length + 1) = frames ++ [fr] := by
    apply List.take_of_length_le; simp
  unfold trackerStep
  simp only
  by_cases hd : cfg.silenceThreshold ≤ toDuration cfg.convOverflow
      (updateSilence cfg.frameNanoseconds t.silentNanoseconds fr)
  · have hreach : reaches cfg (silentRun (frames ++ [fr])) = true := by
      unfold reaches; rw [← hacc]; exact decide_eq_true hd
    rw [if_pos hd]
    cases hg : generateInaudibleSilence cfg.float cfg.bigEndian cfg.bytesPerSample fr rng
        t.draws with
    | done r =>
      left
      refine ⟨_, rfl, ?_⟩
      refine ⟨⟨?_, ?_, ?_, ?_, ?_, ?_⟩, ?_, ?_, hacc⟩
      · simp only [List.length_append, List.length_singleton]; omega
      · simp only [List.length_append, List.length_singleton]; omega
      · intro i hi
        rcases trace_old true i hi with h1 | ⟨h1, h2⟩
        · exact h1
        · rw [h2, h1, take_all, hreach]
      · intro i hi hti
        simp only [List.length_append, List.length_singleton] at hi
        by_cases hlt : i < t.out.length
        · rw [List.getElem?_append_left hlt]
          rw [List.getElem?_append_left (by omega)] at hti
          exact hP.out_pass i hlt hti
        · have : i = t.trace.length := by omega
          subst this
          simp at hti
      · intro i hi hti
        simp only [List.length_append, List.length_singleton] at hi
        by_cases hlt : i < t.out.length
        · rw [List.getElem?_append_left (by omega)] at hti
          obtain ⟨g, d, r', h1, h2, h3⟩ := hP.out_repl i hlt hti
          exact ⟨g, d, r', h1, h2, by rw [List.getElem?_append_left hlt]; exact h3⟩
        · have : i = t.out.length := by omega
          subst this
          refine ⟨fr, t.draws, r, ?_, hg, by simp⟩
          rw [hol]; simp
      · intro i hi
        simp only [List.length_append, List.length_singleton] at hi
        by_cases hlt : i < t.out.length
        · rw [List.getElem?_append_left hlt]
          exact hP.out_len i hlt
        · have : i = t.out.length := by omega
          subst this
          have hl := generateInaudibleSilence_length hg
          have e1 : (t.out ++ [r.1])[t.out.length]? = some r.1 := by simp
          have e2 : (frames ++ [fr])[t.out.length]? = some fr := by rw [hol]; simp
          rw [e1, e2]; simp [hl]
      · simp only [List.length_append, List.length_singleton]; omega
      · simp only [List.length_append, List.length_singleton]; omega
    | panic s =>
      right
      refine ⟨_, rfl, ?_⟩
      refine ⟨⟨?_, ?_, ?_, ?_, ?_, ?_⟩, ?_, ?_, generateInaudibleSilence_panic hg⟩
      · simp only [List.length_append, List.length_singleton]; omega
      · simp only [List.length_append, List.length_singleton]; omega
      · intro i hi
        rcases trace_old true i hi with h1 | ⟨h1, h2⟩
        · exact h1
        · rw [h2, h1, take_all, hreach]
      · intro i hi hti
        simp only at hi
        rw [List.getElem?_append_left (by omega)] at hti
        exact hP.out_pass i hi hti
      · intro i hi hti
        simp only at hi
        rw [List.getElem?_append_left (by omega)] at hti
        exact hP.out_repl i hi hti
      · intro i hi
        exact hP.out_len i hi
      · simp only [List.length_append, List.length_singleton]; omega
      · simp only; rw [hol, ← htl]; simp
    | outOfFuel =>
      exact absurd hg (generateInaudibleSilence_ne_outOfFuel _ _ _ _ _ _)
  · have hreach : reaches cfg (silentRun (frames ++ [fr])) = false := by
      unfold reaches; rw [← hacc]; exact decide_eq_false hd
    rw [if_neg hd]
    left
    refine ⟨_, rfl, ?_⟩
    refine ⟨⟨?_, ?_, ?_, ?_, ?_, ?_⟩, ?_, ?_, hacc⟩
    · simp only [List.length_append, List.length_singleton]; omega
    · simp only [List.length_append, List.length_singleton]; omega
    · intro i hi
      rcases trace_old false i hi with h1 | ⟨h1, h2⟩
      · exact h1
      · rw [h2, h1, take_all, hreach]
    · intro i hi hti
      simp only [List.length_append, List.length_singleton] at hi
      by_cases hlt : i < t.out.length
      · rw [List.getElem?_append_left hlt]
        rw [List.getElem?_append_left (by omega)] at hti
        exact hP.out_pass i hlt hti
      · have : i = t.out.length := by omega
        subst this
        have e1 : (t.out ++ [fr])[t.out.length]? = some fr := by simp
        have e2 : (frames ++ [fr])[t.out.length]? = some fr := by rw [hol]; simp
        rw [e1, e2]
    · intro i hi hti
      simp only [List.length_append, List.length_singleton] at hi
      by_cases hlt : i < t.out.length
      · rw [List.getElem?_append_left (by omega)] at hti
        obtain ⟨g, d, r', h1, h2, h3⟩ := hP.out_repl i hlt hti
        exact ⟨g, d, r', h1, h2, by rw [List.getElem?_append_left hlt]; exact h3⟩
      · have : i = t.trace.length := by omega
        subst this
        simp at hti
    · intro i hi
      simp only [List.length_append, List.length_singleton] at hi
      by_cases hlt : i < t.out.length
      · rw [List.getElem?_append_left hlt]
        exact hP.out_len i hlt
      · have : i = t.out.length := by omega
        subst this
        have e1 : (t.out ++ [fr])[t.out.length]? = some fr := by simp
        have e2 : (frames ++ [fr])[t.out.length]? = some fr := by rw [hol]; simp
        rw [e1, e2]
    · simp only [List.length_append, List.length_singleton]; omega
    · simp only [List.length_append, List.length_singleton]; omega

theorem Panicked.keep_after {cfg : Config} {rng : Nat → Nat} {frames : List (List Nat)}
    {t : Tracker} (h : Panicked cfg rng frames t) (fr : List Nat) :
    Panicked cfg rng (frames ++ [fr]) t :=
  ⟨h.processed.snoc_frame fr, h.out_lt, h.last_true, h.unsupported⟩

theorem Finished.init (cfg : Config) (rng : Nat → Nat) : Finished cfg rng [] initTracker where
  processed := by
    constructor <;> simp [initTracker]
  trace_length := rfl
  out_length := rfl
  acc_eq := rfl

/-- The tracker over any list of frames ends normally or in a panic, never out of fuel,
and the invariant holds of the result. -/
theorem processFrames_spec (cfg : Config) (rng : Nat → Nat) (frames : List (List Nat)) :
    (∃ t, processFrames cfg rng initTracker frames = .done t ∧ Finished cfg rng frames t) ∨
    (∃ t, processFrames cfg rng initTracker frames = .panic t ∧ Panicked cfg rng frames t) := by
  induction frames using List.reverseRecOn with
  | nil => left; exact ⟨initTracker, rfl, Finished.init cfg rng⟩
  | append_singleton frames fr ih =>
    rw [processFrames_snoc]
    rcases ih with ⟨t, ht, hF⟩ | ⟨t, ht, hP⟩
    · rw [ht]
      rcases hF.step fr with ⟨r, hr, hF'⟩ | ⟨r, hr, hP'⟩
      · left; exact ⟨r.1, by simp [hr, Outcome.map], hF'⟩
      · right; exact ⟨r.1, by simp [hr, Outcome.map], hP'⟩
    · rw [ht]
      right; exact ⟨t, rfl, hP.keep_after fr⟩

/-- The program on any input ends at the end of the input or in a panic, never out of
fuel, and the tracker has then gone through the frames of the input. -/
theorem run_spec (cfg : Config) (rng : Nat → Nat) (src : List ReadEvent)
    (hfs : 0 < cfg.bytesPerFrame) :
    (∃ st, run cfg rng src = .done st ∧
      Finished cfg rng (framesOf cfg.bytesPerFrame (inputBytes src)) st.tracker) ∨
    (∃ st, run cfg rng src = .panic st ∧
      Panicked cfg rng (framesOf cfg.bytesPerFrame (inputBytes src)) st.tracker) := by
  have href := run_refines cfg rng src hfs
  rcases processFrames_spec cfg rng (framesOf cfg.bytesPerFrame (inputBytes src)) with
    ⟨t, ht, hF⟩ | ⟨t, ht, hP⟩
  · left
    rw [ht] at href
    cases hr : run cfg rng src with
    | done st =>
      rw [hr] at href
      simp only [Outcome.map, Outcome.done.injEq] at href
      exact ⟨st, rfl, href ▸ hF⟩
    | panic st => rw [hr] at href; simp [Outcome.map] at href
    | outOfFuel => rw [hr] at href; simp [Outcome.map] at href
  · right
    rw [ht] at href
    cases hr : run cfg rng src with
    | done st => rw [hr] at href; simp [Outcome.map] at href
    | panic st =>
      rw [hr] at href
      simp only [Outcome.map, Outcome.panic.injEq] at href
      exact ⟨st, rfl, href ▸ hP⟩
    | outOfFuel => rw [hr] at href; simp [Outcome.map] at href

theorem run_supported (cfg : Config) (rng : Nat → Nat) (src : List ReadEvent)
    (hfs : 0 < cfg.bytesPerFrame) (hs : Supported cfg.float cfg.bytesPerSample) :
    ∃ st, run cfg rng src = .done st ∧
      Finished cfg rng (framesOf cfg.bytesPerFrame (inputBytes src)) st.tracker := by
  rcases run_spec cfg rng src hfs with h | ⟨st, _, hP⟩
  · exact h
  · exact absurd hs hP.unsupported

theorem run_done_finished {cfg : Config} {rng : Nat → Nat} {src : List ReadEvent}
    (hfs : 0 < cfg.bytesPerFrame) {st : State} (h : run cfg rng src = .done st) :
    Finished cfg rng (framesOf cfg.bytesPerFrame (inputBytes src)) st.tracker := by
  rcases run_spec cfg rng src hfs with ⟨st', h', hF⟩ | ⟨st', h', _⟩
  · rw [h] at h'; cases h'; exact hF
  · rw [h] at h'; cases h'

theorem run_processed {cfg : Config} {rng : Nat → Nat} {src : List ReadEvent}
    (hfs : 0 < cfg.bytesPerFrame) {st : State}
    (h : run cfg rng src = .done st ∨ run cfg rng src = .panic st) :
    Processed cfg rng (framesOf cfg.bytesPerFrame (inputBytes src)) st.tracker := by
  rcases run_spec cfg rng src hfs with ⟨st', h', hF⟩ | ⟨st', h', hP⟩
  · rcases h with h | h
    · rw [h] at h'; cases h'; exact hF.processed
    · rw [h] at h'; cases h'
  · rcases h with h | h
    · rw [h] at h'; cases h'
    · rw [h] at h'; cases h'; exact hP.processed

theorem run_ne_outOfFuel (cfg : Config) (rng : Nat → Nat) (src : List ReadEvent)
    (hfs : 0 < cfg.bytesPerFrame) : run cfg rng src ≠ .outOfFuel := by
  rcases run_spec cfg rng src hfs with ⟨st', h', _⟩ | ⟨st', h', _⟩ <;> rw [h'] <;> simp

/-! ## Lengths and contents of the output -/

theorem flatten_length_of_forall {fs : Nat} :
    ∀ (L : List (List Nat)), (∀ f ∈ L, f.length = fs) → L.flatten.length = L.length * fs := by
  intro L
  induction L with
  | nil => simp
  | cons f rest ih =>
    intro h
    rw [List.flatten_cons, List.length_append, ih (fun g hg => h g (List.mem_cons_of_mem _ hg)),
      h f (List.mem_cons_self _ _), List.length_cons]
    ring

theorem framesOf_flatten (fs : Nat) (hfs : 0 < fs) :
    ∀ (n : Nat) (l : List Nat), l.length / fs = n →
      (framesOf fs l).flatten = l.take (n * fs) := by
  intro n
  induction n with
  | zero =>
    intro l h
    have : l.length < fs := by
      by_contra hc
      have := Nat.div_pos (Nat.le_of_not_lt hc) hfs
      omega
    simp [framesOf_of_length_lt this]
  | succ n ih =>
    intro l h
    have hge : fs ≤ l.length := by
      by_contra hc
      rw [Nat.div_eq_of_lt (Nat.lt_of_not_le hc)] at h
      omega
    have hsplit : l = l.take fs ++ l.drop fs := (List.take_append_drop fs l).symm
    have hlt : (l.take fs).length = fs := by rw [List.length_take]; omega
    have hdiv : (l.drop fs).length / fs = n := by
      rw [List.length_drop]
      have := Nat.sub_mul_div l.length fs 1 (by simpa using hge)
      simp only [Nat.mul_one] at this
      omega
    conv_lhs => rw [hsplit, framesOf_append hfs hlt, List.flatten_cons, ih _ hdiv]
    conv_rhs => rw [Nat.succ_mul, Nat.add_comm, List.take_add]

/-! ## The leading bit -/

theorem log2Search_zero (k : Nat) : log2Search k 0 = 0 := by
  induction k with
  | zero => rfl
  | succ k ih =>
    unfold log2Search
    rw [if_pos (Nat.pos_pow_of_pos _ (by decide)), ih]

theorem log2Search_spec : ∀ (k n : Nat), 0 < n → n < 2 ^ (2 ^ k) →
    2 ^ log2Search k n ≤ n ∧ n < 2 ^ (log2Search k n + 1) := by
  intro k
  induction k with
  | zero =>
    intro n h0 h1
    simp only [Nat.pow_zero, Nat.pow_one] at h1
    have : n = 1 := by omega
    subst this
    simp [log2Search]
  | succ k ih =>
    intro n h0 h1
    unfold log2Search
    by_cases hlt : n < 2 ^ (2 ^ k)
    · rw [if_pos hlt]; exact ih n h0 hlt
    · rw [if_neg hlt]
      have hpos : 0 < 2 ^ (2 ^ k) := Nat.pos_pow_of_pos _ (by decide)
      have hq0 : 0 < n / 2 ^ (2 ^ k) := Nat.div_pos (Nat.le_of_not_lt hlt) hpos
      have hsq : (2 : Nat) ^ (2 ^ (k + 1)) = 2 ^ (2 ^ k) * 2 ^ (2 ^ k) := by
        rw [← Nat.pow_add, Nat.pow_succ]; congr 1; omega
      have hq1 : n / 2 ^ (2 ^ k) < 2 ^ (2 ^ k) := by
        rw [Nat.div_lt_iff_lt_mul hpos, ← hsq]; exact h1
      obtain ⟨hl, hu⟩ := ih _ hq0 hq1
      constructor
      · rw [Nat.pow_add]
        calc 2 ^ (2 ^ k) * 2 ^ log2Search k (n / 2 ^ (2 ^ k))
            ≤ 2 ^ (2 ^ k) * (n / 2 ^ (2 ^ k)) := Nat.mul_le_mul_left _ hl
          _ ≤ n := Nat.mul_div_le _ _
      · have : n < (n / 2 ^ (2 ^ k) + 1) * 2 ^ (2 ^ k) := by
          rw [Nat.add_mul, Nat.one_mul]
          have := Nat.div_add_mod n (2 ^ (2 ^ k))
          have := Nat.mod_lt n hpos
          nlinarith [Nat.mul_comm (2 ^ (2 ^ k)) (n / 2 ^ (2 ^ k))]
        calc n < (n / 2 ^ (2 ^ k) + 1) * 2 ^ (2 ^ k) := this
          _ ≤ 2 ^ (log2Search k (n / 2 ^ (2 ^ k)) + 1) * 2 ^ (2 ^ k) :=
              Nat.mul_le_mul_right _ hu
          _ = 2 ^ (2 ^ k + log2Search k (n / 2 ^ (2 ^ k)) + 1) := by
              rw [← Nat.pow_add]; congr 1; omega

theorem ilog2_eq_log2 (n : Nat) : ilog2 n = Nat.log2 n := by
  unfold ilog2
  split
  · rename_i h
    rcases Nat.eq_zero_or_pos n with h0 | h0
    · subst h0; rw [log2Search_zero, Nat.log2_eq_log_two]; simp
    · obtain ⟨hl, hu⟩ := log2Search_spec 12 n h0 h
      rw [Nat.log2_eq_log_two]
      symm
      rw [Nat.log_eq_iff (Or.inr ⟨by decide, by omega⟩)]
      exact ⟨hl, hu⟩
  · rfl

theorem pow_ilog2_le {n : Nat} (h : n ≠ 0) : 2 ^ ilog2 n ≤ n := by
  rw [ilog2_eq_log2]; exact Nat.log2_self_le h

theorem lt_pow_ilog2 (n : Nat) : n < 2 ^ (ilog2 n + 1) := by
  rw [ilog2_eq_log2]; exact Nat.lt_log2_self

theorem ilog2_mono {a b : Nat} (h : a ≤ b) : ilog2 a ≤ ilog2 b := by
  rw [ilog2_eq_log2, ilog2_eq_log2, Nat.log2_eq_log_two, Nat.log2_eq_log_two]
  exact Nat.log_mono_right h

theorem ilog2_lt_of_lt_pow {n k : Nat} (h : n < 2 ^ k) (hk : 0 < k) : ilog2 n < k := by
  rcases Nat.eq_zero_or_pos n with h0 | h0
  · subst h0
    have : ilog2 0 = 0 := by rw [ilog2_eq_log2, Nat.log2_eq_log_two]; simp
    omega
  · rw [ilog2_eq_log2]
    exact (Nat.log2_lt (by omega)).mpr h

/-! ## Rounding to the nearest, ties to even -/

theorem le_rne (a b : Nat) : a / b ≤ rne a b := by
  unfold rne; simp only; split <;> omega

theorem rne_le (a b : Nat) : rne a b ≤ a / b + 1 := by
  unfold rne; simp only; split <;> omega

theorem rne_cases (a b : Nat) :
    (rne a b = a / b ∧ 2 * (a % b) ≤ b) ∨ (rne a b = a / b + 1 ∧ b ≤ 2 * (a % b)) := by
  unfold rne
  simp only
  split
  · rename_i hc
    right
    exact ⟨rfl, by omega⟩
  · rename_i hc
    left
    exact ⟨rfl, by omega⟩

/-- The rounded quotient is at most half a step below the exact one. -/
theorem rne_mul_ge (a b : Nat) (hb : 0 < b) : 2 * a ≤ 2 * (rne a b * b) + b := by
  have hdm := Nat.div_add_mod a b
  have hlt := Nat.mod_lt a hb
  rw [Nat.mul_comm] at hdm
  rcases rne_cases a b with ⟨h, h2⟩ | ⟨h, h2⟩
  · rw [h]; omega
  · rw [h, Nat.add_mul]; omega

/-- The rounded quotient is at most half a step above the exact one. -/
theorem rne_mul_le (a b : Nat) : 2 * (rne a b * b) ≤ 2 * a + b := by
  have hdm := Nat.div_add_mod a b
  rw [Nat.mul_comm] at hdm
  rcases rne_cases a b with ⟨h, h2⟩ | ⟨h, h2⟩
  · rw [h]; omega
  · rw [h, Nat.add_mul]; omega

/-- Rounding does not cross a multiple of the step from below. -/
theorem rne_mul_le_of_dvd {a b c : Nat} (hb : 0 < b) (hd : b ∣ c) (h : a ≤ c) :
    rne a b * b ≤ c := by
  obtain ⟨m, rfl⟩ := hd
  rw [Nat.mul_comm]
  apply Nat.mul_le_mul_left
  have hq : a / b ≤ m := by
    rw [Nat.mul_comm] at h
    exact Nat.div_le_of_le_mul (by rw [Nat.mul_comm]; exact h)
  rcases Nat.lt_or_eq_of_le hq with hq | hq
  · have := rne_le a b; omega
  · have hdm := Nat.div_add_mod a b
    have hr : a % b = 0 := by
      rw [hq] at hdm; omega
    unfold rne
    simp only [hr]
    have hnot : ¬ (b < 2 * 0 ∨ (2 * 0 = b ∧ a / b % 2 = 1)) := by omega
    rw [if_neg hnot]; exact hq.le

/-- Rounding does not cross a multiple of the step from above. -/
theorem le_rne_mul_of_dvd {a b c : Nat} (hb : 0 < b) (hd : b ∣ c) (h : c ≤ a) :
    c ≤ rne a b * b := by
  obtain ⟨m, rfl⟩ := hd
  rw [Nat.mul_comm]
  apply Nat.mul_le_mul_right
  calc m ≤ a / b := (Nat.le_div_iff_mul_le hb).mpr (by rw [Nat.mul_comm]; exact h)
    _ ≤ rne a b := le_rne a b

/-! ## Rounding to a significand of `p` bits -/

theorem roundTo_one (p a : Nat) :
    roundTo p a 1 = rne a (2 ^ (ilog2 a + 1 - p)) * 2 ^ (ilog2 a + 1 - p) := by
  unfold roundTo
  simp only [Nat.div_one, Nat.one_mul]

theorem ilog2_two_pow (e : Nat) : ilog2 (2 ^ e) = e := by
  rw [ilog2_eq_log2, Nat.log2_eq_log_two, Nat.log_pow (by decide)]

theorem onGrid_two_pow {p : Nat} (hp : 1 ≤ p) (e : Nat) : OnGrid p (2 ^ e) := by
  unfold OnGrid
  rw [ilog2_two_pow]
  exact Nat.pow_dvd_pow 2 (by omega)

/-- Rounding is monotone at the values of the grid, from above. -/
theorem roundTo_ge_of_grid {p a c : Nat} (hp : 1 ≤ p) (hc : OnGrid p c) (h : c ≤ a) :
    c ≤ roundTo p a 1 := by
  rw [roundTo_one]
  have hpos : 0 < 2 ^ (ilog2 a + 1 - p) := Nat.pos_pow_of_pos _ (by decide)
  have hmono := ilog2_mono h
  rcases Nat.lt_or_eq_of_le hmono with hlt | heq
  · -- `a` lies in a higher binade than `c`
    have ha : a ≠ 0 := by
      intro h0; subst h0
      have : ilog2 0 = 0 := by rw [ilog2_eq_log2, Nat.log2_eq_log_two]; simp
      omega
    have h1 : 2 ^ ilog2 a ≤ rne a (2 ^ (ilog2 a + 1 - p)) * 2 ^ (ilog2 a + 1 - p) :=
      le_rne_mul_of_dvd hpos (Nat.pow_dvd_pow 2 (by omega)) (pow_ilog2_le ha)
    have h2 : c < 2 ^ (ilog2 c + 1) := lt_pow_ilog2 c
    have h3 : 2 ^ (ilog2 c + 1) ≤ 2 ^ ilog2 a := Nat.pow_le_pow_right (by decide) hlt
    omega
  · rw [← heq]
    rw [← heq] at hpos
    exact le_rne_mul_of_dvd hpos hc h

/-- Rounding is monotone at the values of the grid, from below. -/
theorem roundTo_le_of_grid {p a c : Nat} (hc : OnGrid p c) (h : a ≤ c) :
    roundTo p a 1 ≤ c := by
  rw [roundTo_one]
  have hpos : 0 < 2 ^ (ilog2 a + 1 - p) := Nat.pos_pow_of_pos _ (by decide)
  have hmono := ilog2_mono h
  exact rne_mul_le_of_dvd hpos
    (Nat.dvd_trans (Nat.pow_dvd_pow 2 (by omega)) hc) h

theorem roundTo_pos {p a b : Nat} (hp : 1 ≤ p) (hb : 0 < b) (h : b ≤ a) :
    0 < roundTo p a b := by
  unfold roundTo
  simp only
  have hq : a / b ≠ 0 := by
    have := Nat.div_pos h hb; omega
  have h1 : 2 ^ (ilog2 (a / b) + 1 - p) ≤ a / b :=
    Nat.le_trans (Nat.pow_le_pow_right (by decide) (by omega)) (pow_ilog2_le hq)
  have hpos : 0 < 2 ^ (ilog2 (a / b) + 1 - p) := Nat.pos_pow_of_pos _ (by decide)
  have h2 : 1 ≤ a / (b * 2 ^ (ilog2 (a / b) + 1 - p)) := by
    rw [← Nat.div_div_eq_div_mul]
    exact (Nat.le_div_iff_mul_le hpos).mpr (by rw [Nat.one_mul]; exact h1)
  have h3 := le_rne a (b * 2 ^ (ilog2 (a / b) + 1 - p))
  exact Nat.mul_pos (by omega) hpos

/-! ## float64 values -/

theorem F64.geUnits_fin (c m : Nat) : (F64.fin m).GeUnits c ↔ c ≤ m := by
  unfold F64.GeUnits
  constructor
  · intro h; exact h m rfl
  · intro h n hn; injection hn with hn; omega

theorem F64.geUnits_inf (c : Nat) : F64.inf.GeUnits c := by
  intro m hm; cases hm

theorem F64.round_geUnits {a c : Nat} (hc : OnGrid 53 c) (h : c ≤ a) :
    (F64.round a 1).GeUnits c := by
  unfold F64.round
  simp only
  split
  · exact (F64.geUnits_fin _ _).mpr (roundTo_ge_of_grid (by decide) hc h)
  · exact F64.geUnits_inf c

theorem F64.add_geUnits {c : Nat} (hc : OnGrid 53 c) {x : F64} (h : x.GeUnits c) (y : F64) :
    (x.add y).GeUnits c := by
  cases x with
  | inf => cases y <;> exact F64.geUnits_inf c
  | fin m =>
    cases y with
    | inf => exact F64.geUnits_inf c
    | fin n =>
      exact F64.round_geUnits hc (Nat.le_trans ((F64.geUnits_fin _ _).mp h) (Nat.le_add_right m n))

theorem accK_geUnits {c : Nat} (hc : OnGrid 53 c) (f : F64) {k : Nat}
    (h : (accK f k).GeUnits c) : ∀ j, k ≤ j → (accK f j).GeUnits c := by
  intro j hj
  induction j with
  | zero =>
    have : k = 0 := by omega
    subst this; exact h
  | succ j ih =>
    rcases Nat.lt_or_eq_of_le hj with hlt | heq
    · exact F64.add_geUnits hc (ih (by omega)) f
    · subst heq; exact h

theorem F64.round_ne_zero {a b : Nat} (hb : 0 < b) (h : b ≤ a) : F64.round a b ≠ F64.zero := by
  unfold F64.round F64.zero
  simp only
  have := roundTo_pos (p := 53) (by decide) hb h
  split
  · intro hc
    injection hc with hc
    omega
  · intro hc; cases hc

theorem F64.add_ne_zero (x : F64) {y : F64} (hy : y ≠ F64.zero) : x.add y ≠ F64.zero := by
  cases x with
  | inf => cases y <;> simp [F64.add, F64.zero]
  | fin m =>
    cases y with
    | inf => simp [F64.add, F64.zero]
    | fin n =>
      have hn : 0 < n := by
        rcases Nat.eq_zero_or_pos n with h0 | h0
        · subst h0; exact absurd rfl hy
        · exact h0
      exact F64.round_ne_zero (by decide) (by omega)

theorem F64.intLe_fin (t : Int) (m : Nat) :
    (F64.fin m).IntLe t ↔ t * (f64One : Int) ≤ (m : Int) := by
  unfold F64.IntLe
  constructor
  · intro h; exact h m rfl
  · intro h n hn; injection hn with hn; subst hn; exact h

theorem F64.inInt64_fin (m : Nat) : (F64.fin m).InInt64 ↔ m / f64One < 2 ^ 63 := by
  unfold F64.InInt64
  constructor
  · rintro ⟨n, hn, h⟩; injection hn with hn; subst hn; exact h
  · intro h; exact ⟨m, rfl, h⟩

/-- The conversion to `time.Duration` and the exact comparison agree in the range of
`int64`. -/
theorem toDuration_le_iff (ovf t : Int) {x : F64} (hx : x.InInt64) :
    t ≤ toDuration ovf x ↔ F64.IntLe t x := by
  obtain ⟨m, rfl, hm⟩ := hx
  rw [F64.intLe_fin]
  simp only [toDuration, hm, if_true]
  rw [Int.natCast_div]
  have hU : (0 : Int) < ((f64One : Nat) : Int) := by
    have : 0 < f64One := Nat.pos_pow_of_pos _ (by decide)
    exact_mod_cast this
  exact Int.le_ediv_iff_mul_le hU

/-! ## Float addition inside a known binade -/

theorem ilog2_eq_of_bounds {a e : Nat} (h1 : 2 ^ e ≤ a) (h2 : a < 2 ^ (e + 1)) :
    ilog2 a = e := by
  have ha : a ≠ 0 := by
    have : 0 < 2 ^ e := Nat.pos_pow_of_pos _ (by decide)
    omega
  rw [ilog2_eq_log2, Nat.log2_eq_log_two, Nat.log_eq_iff (Or.inr ⟨by decide, ha⟩)]
  exact ⟨h1, h2⟩

theorem F64.round_of_binade {a s : Nat} (hs : s ≤ 2001) (h1 : 2 ^ (s + 52) ≤ a)
    (h2 : a < 2 ^ (s + 53)) : F64.round a 1 = F64.fin (rne a (2 ^ s) * 2 ^ s) := by
  have hl : ilog2 a = s + 52 := ilog2_eq_of_bounds h1 h2
  have hsh : ilog2 a + 1 - 53 = s := by omega
  unfold F64.round
  simp only
  rw [roundTo_one, hsh]
  have hpos : 0 < 2 ^ s := Nat.pos_pow_of_pos _ (by decide)
  have hle : rne a (2 ^ s) * 2 ^ s ≤ 2 ^ (s + 53) :=
    rne_mul_le_of_dvd hpos (Nat.pow_dvd_pow 2 (by omega)) h2.le
  have hlt : (2 : Nat) ^ (s + 53) < 2 ^ 2098 := Nat.pow_lt_pow_right (by decide) (by omega)
  rw [if_pos (by omega)]

theorem accK_add_succ (f : F64) (k n : Nat) : accK f (k + (n + 1)) = accK f (k + 1 + n) := by
  congr 1; omega

theorem fastAcc_sound (f : Nat) : ∀ (n k acc s m : Nat), accK (F64.fin f) k = F64.fin acc →
    fastAcc f n acc s = some m → accK (F64.fin f) (k + n) = F64.fin m := by
  intro n
  induction n with
  | zero =>
    intro k acc s m hk h
    simp only [fastAcc, Option.some.injEq] at h
    subst h; exact hk
  | succ n ih =>
    intro k acc s m hk h
    rw [accK_add_succ]
    unfold fastAcc at h
    have hstep : accK (F64.fin f) (k + 1) = F64.round (acc + f) 1 := by
      simp only [accK, hk, F64.add]
    split at h
    · cases h
    · rename_i hs
      split at h
      · cases h
      · rename_i h1
        split at h
        · rename_i h2
          refine ih (k + 1) _ s m ?_ h
          rw [hstep, F64.round_of_binade (by omega) (by omega) h2]
        · rename_i h2
          split at h
          · rename_i h3
            refine ih (k + 1) _ (s + 1) m ?_ h
            rw [hstep, F64.round_of_binade (s := s + 1) (by omega)
              (by rw [show s + 1 + 52 = s + 53 by omega]; omega)
              (by rw [show s + 1 + 53 = s + 54 by omega]; exact h3)]
          · cases h

/-! ## The accumulator at 44100 Hz -/

theorem frameNanoseconds_44100 {cfg : Config} (h : cfg.sampleRate = 44100) :
    cfg.frameNanoseconds = F64.fin f44100 := by
  unfold Config.frameNanoseconds
  rw [h]
  decide!

set_option maxRecDepth 1000000 in
theorem fastAcc_44099 : fastAcc f44100 44099 0 1036 = some v44099 := by decide!

/-- After 44099 additions the accumulator is `999977324.2634174`. -/
theorem accK_44099 : accK (F64.fin f44100) 44099 = F64.fin v44099 := by
  have := fastAcc_sound f44100 44099 0 0 1036 _ rfl fastAcc_44099
  simpa using this

/-- After 44100 additions the accumulator is `1000000000.0003788`. -/
theorem accK_44100 : accK (F64.fin f44100) 44100 = F64.fin v44100 :=
  fastAcc_sound f44100 1 44099 v44099 1051 v44100 accK_44099 (by decide!)

theorem onGrid_oneSecond : OnGrid 53 oneSecond := by
  unfold OnGrid
  have h : ilog2 oneSecond = 1103 := by decide!
  rw [h]
  decide!

theorem v44099_lt : v44099 < oneSecond := by decide!

theorem v44100_ge : oneSecond ≤ v44100 := by decide!

theorem accK_44100_lt {k : Nat} (hk : k < 44100) :
    ∃ m, accK (F64.fin f44100) k = F64.fin m ∧ m < oneSecond := by
  have hno : ¬ (accK (F64.fin f44100) k).GeUnits oneSecond := by
    intro hge
    have := accK_geUnits onGrid_oneSecond (F64.fin f44100) hge 44099 (by omega)
    rw [accK_44099, F64.geUnits_fin] at this
    exact Nat.lt_irrefl _ (Nat.lt_of_lt_of_le v44099_lt this)
  cases hx : accK (F64.fin f44100) k with
  | inf => rw [hx] at hno; exact absurd (F64.geUnits_inf _) hno
  | fin m =>
    rw [hx, F64.geUnits_fin] at hno
    exact ⟨m, rfl, Nat.lt_of_not_le hno⟩

theorem accK_44100_ge {k : Nat} (hk : 44100 ≤ k) :
    (accK (F64.fin f44100) k).GeUnits oneSecond :=
  accK_geUnits onGrid_oneSecond (F64.fin f44100) (k := 44100)
    (by rw [accK_44100, F64.geUnits_fin]; exact v44100_ge) k hk

/-! ## How fast the accumulator grows below `2^63` nanoseconds -/

theorem int64Limit_eq : int64Limit = 2 ^ 63 * f64One := by
  unfold int64Limit f64One; rw [← Nat.pow_add]

theorem onGrid_int64Limit : OnGrid 53 int64Limit := onGrid_two_pow (by decide) 1137

theorem F64.GeUnits.mono {c c' : Nat} {x : F64} (h : x.GeUnits c) (hc : c' ≤ c) :
    x.GeUnits c' := fun m hm => Nat.le_trans hc (h m hm)

/-- Below `2^63` ns the step of the grid is at most `2^10` ns, so a rounding moves the
sum by at most `2^9` ns. -/
theorem roundTo_near {a : Nat} (h : a < int64Limit) :
    a ≤ roundTo 53 a 1 + 2 ^ 1083 ∧ roundTo 53 a 1 ≤ a + 2 ^ 1083 := by
  rw [roundTo_one]
  have hl : ilog2 a < 1137 := ilog2_lt_of_lt_pow h (by decide)
  have hpos : 0 < 2 ^ (ilog2 a + 1 - 53) := Nat.pos_pow_of_pos _ (by decide)
  have hs : 2 ^ (ilog2 a + 1 - 53) ≤ 2 ^ 1084 := Nat.pow_le_pow_right (by decide) (by omega)
  have h2 : (2 : Nat) ^ 1084 = 2 * 2 ^ 1083 := by rw [← Nat.pow_succ']
  have hge := rne_mul_ge a (2 ^ (ilog2 a + 1 - 53)) hpos
  have hle := rne_mul_le a (2 ^ (ilog2 a + 1 - 53))
  generalize rne a (2 ^ (ilog2 a + 1 - 53)) * 2 ^ (ilog2 a + 1 - 53) = r at hge hle ⊢
  generalize (2 : Nat) ^ (ilog2 a + 1 - 53) = b at hs hge hle
  generalize (2 : Nat) ^ 1083 = P at h2 ⊢
  generalize (2 : Nat) ^ 1084 = Q at h2 hs
  omega

theorem accK_lower (f d : Nat) (hd : d + 2 ^ 1083 ≤ f) :
    ∀ k, (accK (F64.fin f) k).GeUnits (min (k * d) int64Limit) := by
  intro k
  induction k with
  | zero => simp only [accK, F64.zero, Nat.zero_mul]; exact (F64.geUnits_fin _ _).mpr (by simp)
  | succ k ih =>
    simp only [accK]
    cases hx : accK (F64.fin f) k with
    | inf => exact F64.geUnits_inf _
    | fin m =>
      rw [hx, F64.geUnits_fin] at ih
      simp only [F64.add]
      by_cases hB : int64Limit ≤ m + f
      · exact (F64.round_geUnits onGrid_int64Limit hB).mono (Nat.min_le_right _ _)
      · have hlt : m + f < int64Limit := Nat.lt_of_not_le hB
        have hkd : k * d ≤ m := by
          rcases Nat.le_total (k * d) int64Limit with h | h
          · rw [Nat.min_eq_left h] at ih; exact ih
          · rw [Nat.min_eq_right h] at ih; omega
        obtain ⟨hnear, _⟩ := roundTo_near hlt
        have hr : (k + 1) * d ≤ roundTo 53 (m + f) 1 := by
          rw [Nat.add_mul, Nat.one_mul]
          generalize (2 : Nat) ^ 1083 = P at hd hnear
          omega
        unfold F64.round
        simp only
        split
        · exact (F64.geUnits_fin _ _).mpr (Nat.le_trans (Nat.min_le_left _ _) hr)
        · exact F64.geUnits_inf _

theorem accK_upper (f g : Nat) (hg : f + 2 ^ 1083 ≤ g) :
    ∀ k, k * g ≤ int64Limit → ∃ m, accK (F64.fin f) k = F64.fin m ∧ m ≤ k * g := by
  intro k
  induction k with
  | zero => intro _; exact ⟨0, rfl, by simp⟩
  | succ k ih =>
    intro hk
    rw [Nat.add_mul, Nat.one_mul] at hk
    obtain ⟨m, hm, hle⟩ := ih (by omega)
    have hP : 0 < 2 ^ 1083 := Nat.pos_pow_of_pos _ (by decide)
    have hlt : m + f < int64Limit := by
      generalize (2 : Nat) ^ 1083 = P at hg hP
      omega
    obtain ⟨_, hnear⟩ := roundTo_near hlt
    have hr : roundTo 53 (m + f) 1 ≤ (k + 1) * g := by
      rw [Nat.add_mul, Nat.one_mul]
      generalize (2 : Nat) ^ 1083 = P at hg hnear
      omega
    have hbig : int64Limit < 2 ^ 2098 := by
      unfold int64Limit; exact Nat.pow_lt_pow_right (by decide) (by decide)
    refine ⟨roundTo 53 (m + f) 1, ?_, hr⟩
    simp only [accK, hm, F64.add, F64.round]
    rw [if_pos]
    rw [Nat.add_mul, Nat.one_mul] at hr
    omega

theorem toDuration_of_geUnits (ovf : Int) {x : F64} (h : x.GeUnits int64Limit) :
    toDuration ovf x = ovf := by
  cases x with
  | inf => rfl
  | fin m =>
    rw [F64.geUnits_fin, int64Limit_eq] at h
    have hU : 0 < f64One := Nat.pos_pow_of_pos _ (by decide)
    have : ¬ m / f64One < 2 ^ 63 := by
      rw [Nat.div_lt_iff_lt_mul hU]; omega
    simp only [toDuration, this, if_false]

theorem inInt64_of_lt {m : Nat} (h : m < int64Limit) : (F64.fin m).InInt64 := by
  rw [F64.inInt64_fin]
  have hU : 0 < f64One := Nat.pos_pow_of_pos _ (by decide)
  rw [Nat.div_lt_iff_lt_mul hU, ← int64Limit_eq]
  exact h

/-! ## Auxiliary facts for the statements -/

theorem silentRun_take_succ {frames : List (List Nat)} {i : Nat} {fr : List Nat}
    (h : frames[i]? = some fr) :
    silentRun (frames.take (i + 1)) = if isSilent fr then silentRun (frames.take i) + 1 else 0 := by
  rw [List.take_succ, h, Option.toList_some, silentRun_snoc]

theorem isSilent_eq_true_iff (frame : List Nat) : isSilent frame = true ↔ ∀ b ∈ frame, b = 0 := by
  unfold isSilent
  simp [List.all_eq_true]

theorem isSilent_eq_false_iff (frame : List Nat) :
    isSilent frame = false ↔ ∃ b ∈ frame, b ≠ 0 := by
  rw [← Bool.not_eq_true, isSilent_eq_true_iff]
  push_neg
  rfl

theorem toDuration_zero (ovf : Int) : toDuration ovf F64.zero = 0 := by
  have h : (0 : Nat) / f64One < 2 ^ 63 := by
    rw [Nat.zero_div]; exact Nat.pos_pow_of_pos _ (by decide)
  simp only [toDuration, F64.zero, h, if_true, Nat.zero_div]
  rfl

theorem reaches_zero {cfg : Config} (hT : 0 < cfg.silenceThreshold) : reaches cfg 0 = false := by
  unfold reaches
  simp only [accK, toDuration_zero]
  exact decide_eq_false (by omega)

theorem updateSilence_of_not_silent (f a : F64) {frame : List Nat} (h : isSilent frame = false) :
    updateSilence f a frame = F64.zero := by
  unfold updateSilence
  simp only [any_ne_zero_eq, h]
  rfl

theorem updateSilence_of_silent (f a : F64) {frame : List Nat} (h : isSilent frame = true) :
    updateSilence f a frame = a.add f := by
  unfold updateSilence
  simp only [any_ne_zero_eq, h]
  rfl

theorem trackerStep_of_not_silent (cfg : Config) (rng : Nat → Nat) (t : Tracker)
    {frame : List Nat} (hT : 0 < cfg.silenceThreshold) (h : isSilent frame = false) :
    trackerStep cfg rng t frame =
      .done ({ silentNanoseconds := F64.zero, draws := t.draws, out := t.out ++ [frame],
               generatedFakeSilenceByteCount := t.generatedFakeSilenceByteCount,
               trace := t.trace ++ [false] }, frame) := by
  unfold trackerStep
  simp only [updateSilence_of_not_silent _ _ h, toDuration_zero]
  rw [if_neg (by omega)]

theorem mem_out_length {cfg : Config} {rng : Nat → Nat} {l : List Nat} {fs : Nat}
    {t : Tracker} (h : Processed cfg rng (framesOf fs l) t) :
    ∀ f ∈ t.out, f.length = fs := by
  intro f hf
  obtain ⟨i, hi, hget⟩ := List.getElem_of_mem hf
  have hlen := h.out_len i hi
  have hi2 : i < (framesOf fs l).length := by
    have := h.out_le; have := h.trace_le; omega
  rw [List.getElem?_eq_getElem hi, List.getElem?_eq_getElem hi2] at hlen
  simp only [Option.map_some', Option.some.injEq] at hlen
  rw [← hget, hlen]
  exact length_of_mem_framesOf (List.getElem_mem _)

/-! ## Configurations and inputs of the examples -/

theorem silentRun_replicate {z : List Nat} (hz : isSilent z = true) (n : Nat) :
    silentRun (List.replicate n z) = n := by
  induction n with
  | zero => rfl
  | succ n ih =>
    rw [List.replicate_succ', silentRun_snoc, hz, if_pos rfl, ih]

theorem silentRun_append_replicate {z nz : List Nat} (hz : isSilent z = true)
    (hnz : isSilent nz = false) (pre : List (List Nat)) (n : Nat) :
    silentRun (pre ++ nz :: List.replicate n z) = n := by
  induction n with
  | zero =>
    rw [List.replicate_zero, silentRun_snoc, hnz]
    rfl
  | succ n ih =>
    rw [List.replicate_succ', ← List.cons_append, ← List.append_assoc, silentRun_snoc, hz,
      if_pos rfl, ih]

theorem ofNat_oneSecond : F64.ofNat 1000000000 = F64.fin oneSecond := by decide!

theorem frameNanoseconds_ne_zero {cfg : Config} (h : cfg.sampleRate < 2 ^ 63) :
    cfg.frameNanoseconds ≠ F64.zero := by
  unfold Config.frameNanoseconds
  rw [ofNat_oneSecond]
  have hle : cfg.sampleRate * f64One ≤ int64Limit := by
    rw [int64Limit_eq]; exact Nat.mul_le_mul_right _ h.le
  have hr := roundTo_le_of_grid onGrid_int64Limit hle
  have hbig : int64Limit < 2 ^ 2098 := by
    unfold int64Limit; exact Nat.pow_lt_pow_right (by decide) (by decide)
  have hof : F64.ofNat cfg.sampleRate = F64.fin (roundTo 53 (cfg.sampleRate * f64One) 1) := by
    unfold F64.ofNat F64.round
    simp only
    rw [if_pos (by omega)]
  rw [hof]
  simp only [F64.div]
  split
  · intro hc; cases hc
  · rename_i hne
    apply F64.round_ne_zero (Nat.pos_of_ne_zero hne)
    have : int64Limit ≤ oneSecond * f64One := by decide!
    omega

/-! ## Inputs that are one long silence -/

theorem inputBytes_single (l : List Nat) : inputBytes [.data l] = l := by
  simp [inputBytes]

theorem framesOf_replicate_zero {fs : Nat} (hfs : 0 < fs) (n : Nat) :
    framesOf fs (List.replicate (n * fs) 0) = List.replicate n (List.replicate fs 0) := by
  induction n with
  | zero => simp [framesOf]
  | succ n ih =>
    rw [Nat.succ_mul, Nat.add_comm, List.replicate_add,
      framesOf_append hfs (List.length_replicate _ _), ih, List.replicate_succ]

theorem isSilent_replicate_zero (fs : Nat) : isSilent (List.replicate fs 0) = true := by
  rw [isSilent_eq_true_iff]
  intro b hb
  exact List.eq_of_mem_replicate hb

/-- The run on `n` silent frames delivered in one read, with a supported format: the last
decision is the one for a silent run of `n` frames. -/
theorem run_silence (cfg : Config) (rng : Nat → Nat) {n : Nat} (hfs : 0 < cfg.bytesPerFrame)
    (hs : Supported cfg.float cfg.bytesPerSample) (hn : 1 ≤ n) :
    ∃ st, run cfg rng [.data (List.replicate (n * cfg.bytesPerFrame) 0)] = .done st ∧
      st.tracker.trace.length = n ∧
      st.tracker.trace.getLast? = some (reaches cfg n) ∧
      st.tracker.silentNanoseconds = accK cfg.frameNanoseconds n ∧
      (reaches cfg n = false →
        st.tracker.out.getLast? = some (List.replicate cfg.bytesPerFrame 0)) := by
  obtain ⟨st, hst, hF⟩ := run_supported cfg rng
    [.data (List.replicate (n * cfg.bytesPerFrame) 0)] hfs hs
  rw [inputBytes_single, framesOf_replicate_zero hfs] at hF
  have hsil := isSilent_replicate_zero cfg.bytesPerFrame
  have htl : st.tracker.trace.length = n := by rw [hF.trace_length, List.length_replicate]
  have hol : st.tracker.out.length = n := by rw [hF.out_length, List.length_replicate]
  have hlast : st.tracker.trace[n - 1]? = some (reaches cfg n) := by
    rw [hF.processed.trace_eq (n - 1) (by omega), show n - 1 + 1 = n by omega,
      List.take_replicate, Nat.min_self, silentRun_replicate hsil]
  refine ⟨st, hst, htl, ?_, ?_, ?_⟩
  · rw [List.getLast?_eq_getElem?, htl]; exact hlast
  · rw [hF.acc_eq, silentRun_replicate hsil]
  · intro hr
    rw [hr] at hlast
    rw [List.getLast?_eq_getElem?, hol, hF.processed.out_pass (n - 1) (by omega) hlast,
      List.getElem?_replicate]
    rw [if_pos (by omega)]

/-! ## Beyond the range of `int64` -/

theorem reaches_of_overflow (cfg : Config) {f d k : Nat} (hf : cfg.frameNanoseconds = F64.fin f)
    (hd : d + 2 ^ 1083 ≤ f) (hk : int64Limit ≤ k * d)
    (hovf : cfg.convOverflow < cfg.silenceThreshold) :
    reaches cfg k = false ∧
    ∀ t : Int, t ≤ 2 ^ 63 → (accK cfg.frameNanoseconds k).IntLe t := by
  have hge : (accK (F64.fin f) k).GeUnits int64Limit := by
    have := accK_lower f d hd k
    rwa [Nat.min_eq_right hk] at this
  rw [hf]
  constructor
  · unfold reaches
    rw [hf, toDuration_of_geUnits _ hge]
    exact decide_eq_false (by omega)
  · intro t ht m hm
    have h1 := hge m hm
    rw [int64Limit_eq] at h1
    have h2 : ((2 ^ 63 * f64One : Nat) : Int) ≤ (m : Int) := by exact_mod_cast h1
    have hU : (0 : Int) ≤ ((f64One : Nat) : Int) := Int.natCast_nonneg _
    have h3 : t * ((f64One : Nat) : Int) ≤ 2 ^ 63 * ((f64One : Nat) : Int) :=
      Int.mul_le_mul_of_nonneg_right ht hU
    push_cast at h2
    omega

theorem frameNanoseconds_slow : slowConfig.frameNanoseconds = F64.fin oneSecond := by decide!

theorem reaches_44100_lt {cfg : Config} (hrate : cfg.sampleRate = 44100)
    (hT : cfg.silenceThreshold = 1000000000) {k : Nat} (hk : k < 44100) :
    reaches cfg k = false := by
  obtain ⟨m, hm, hlt⟩ := accK_44100_lt hk
  unfold reaches
  rw [frameNanoseconds_44100 hrate, hm, hT]
  have hU : 0 < f64One := Nat.pos_pow_of_pos _ (by decide)
  have h1 : m / f64One < 1000000000 := by
    rw [Nat.div_lt_iff_lt_mul hU]; exact hlt
  have h2 : m / f64One < 2 ^ 63 := Nat.lt_trans h1 (by decide)
  simp only [toDuration, h2, if_true]
  exact decide_eq_false (by omega)

theorem reaches_44100_ge {cfg : Config} (hrate : cfg.sampleRate = 44100)
    (hT : cfg.silenceThreshold = 1000000000) {k : Nat} (hk : 44100 ≤ k)
    (hr : (accK cfg.frameNanoseconds k).InInt64) : reaches cfg k = true := by
  have hge := accK_44100_ge hk
  rw [frameNanoseconds_44100 hrate] at hr
  obtain ⟨m, hm, h2⟩ := hr
  unfold reaches
  rw [frameNanoseconds_44100 hrate, hm, hT]
  rw [hm, F64.geUnits_fin] at hge
  have hU : 0 < f64One := Nat.pos_pow_of_pos _ (by decide)
  have h1 : 1000000000 ≤ m / f64One := (Nat.le_div_iff_mul_le hU).mpr hge
  simp only [toDuration, h2, if_true]
  exact decide_eq_true (by omega)

/-- At 44100 Hz the accumulator stays in the range of `int64` for `3 * 10^14` frames,
more than two hundred years of silence. -/
theorem inInt64_44100 {cfg : Config} (hrate : cfg.sampleRate = 44100) {k : Nat}
    (hk : k ≤ 3 * 10 ^ 14) : (accK cfg.frameNanoseconds k).InInt64 := by
  rw [frameNanoseconds_44100 hrate]
  have hb : 3 * 10 ^ 14 * (f44100 + 2 ^ 1083) < int64Limit := by decide!
  have hkg : k * (f44100 + 2 ^ 1083) ≤ 3 * 10 ^ 14 * (f44100 + 2 ^ 1083) :=
    Nat.mul_le_mul_right _ hk
  obtain ⟨m, hm, hle⟩ := accK_upper f44100 (f44100 + 2 ^ 1083) (le_refl _) k (by omega)
  rw [hm]
  exact inInt64_of_lt (by omega)

/-! ## The synthesizer on whole samples -/

theorem slot_flatten {m : Nat} : ∀ (L : List (List Nat)) (i : Nat),
    (∀ l ∈ L, l.length = m) → i < L.length → slot m i L.flatten = L.getD i [] := by
  intro L
  induction L with
  | nil => intro i _ hi; simp at hi
  | cons l rest ih =>
    intro i hL hi
    have hl : l.length = m := hL l (List.mem_cons_self _ _)
    cases i with
    | zero =>
      unfold slot
      simp only [Nat.zero_mul, List.drop_zero, List.flatten_cons, List.getD_cons_zero]
      rw [List.take_append_of_le_length (by omega), List.take_of_length_le (by omega)]
    | succ i =>
      have := ih i (fun l' hl' => hL l' (List.mem_cons_of_mem _ hl'))
        (by simpa using hi)
      unfold slot at this ⊢
      simp only [List.flatten_cons, List.getD_cons_succ]
      rw [show (i + 1) * m = l.length + i * m by rw [hl]; ring, ← List.drop_drop,
        List.drop_left, this]

theorem flatten_map_length {m n : Nat} (g : Nat → List Nat) (hg : ∀ j, (g j).length = m) :
    ((List.range n).map g).flatten.length = n * m := by
  rw [@flatten_length_of_forall m]
  · simp
  · intro f hf
    rw [List.mem_map] at hf
    obtain ⟨j, _, rfl⟩ := hf
    exact hg j

theorem slotCount_of_dvd {bps len : Nat} (hb : 0 < bps) (h : bps ∣ len) :
    slotCount bps len 0 = len / bps := by
  obtain ⟨q, rfl⟩ := h
  unfold slotCount
  rw [Nat.sub_zero, Nat.mul_div_cancel_left q hb]
  rw [show bps * q + bps - 1 = (bps - 1) + bps * q by
    have : 0 < bps * q + bps := by omega
    omega]
  rw [Nat.add_mul_div_left _ _ hb, Nat.div_eq_of_lt (by omega), Nat.zero_add]

/-- With a supported format and a buffer of whole samples the synthesizer ends normally:
slot `j` holds the bytes of draw number `draws + j`, and one draw is made per slot. -/
theorem generateInaudibleSilence_eq {fl : Bool} (be : Bool) {bps : Nat} (hs : Supported fl bps)
    {b : List Nat} (hdvd : bps ∣ b.length) (rng : Nat → Nat) (d : Nat) :
    generateInaudibleSilence fl be bps b rng d =
      .done (((List.range (b.length / bps)).map
                (fun j => sampleBytes fl be bps (drawValue rng (d + j)))).flatten,
             d + b.length / bps) := by
  unfold generateInaudibleSilence
  rw [synthLoop_supported hs b.length rng b.length 0 [] d (by omega),
    slotCount_of_dvd hs.pos hdvd]
  simp only [Outcome.map, List.nil_append]
  have hlen := flatten_map_length (n := b.length / bps)
    (fun j => sampleBytes fl be bps (drawValue rng (d + j)))
    (fun j => sampleBytes_length be hs _)
  rw [Nat.div_mul_cancel hdvd] at hlen
  rw [List.take_of_length_le (by omega), List.drop_eq_nil_of_le (by omega), List.append_nil]

theorem slot_generateInaudibleSilence {fl : Bool} (be : Bool) {bps : Nat}
    (hs : Supported fl bps) {b : List Nat} (hdvd : bps ∣ b.length) (rng : Nat → Nat) (d : Nat)
    {r : List Nat × Nat} (hr : generateInaudibleSilence fl be bps b rng d = .done r)
    {i : Nat} (hi : i < b.length / bps) :
    slot bps i r.1 = sampleBytes fl be bps (drawValue rng (d + i)) := by
  rw [generateInaudibleSilence_eq be hs hdvd] at hr
  cases hr
  simp only
  rw [slot_flatten _ i _ (by simpa using hi)]
  · rw [List.getD_eq_getElem?_getD, List.getElem?_map, List.getElem?_range hi]
    rfl
  · intro l hl
    rw [List.mem_map] at hl
    obtain ⟨j, _, rfl⟩ := hl
    exact sampleBytes_length be hs _

theorem drawValue_cases (rng : Nat → Nat) (d : Nat) :
    drawValue rng d = -1 ∨ drawValue rng d = 0 := by
  unfold drawValue
  rcases Nat.mod_two_eq_zero_or_one (rng d) with h | h <;> rw [h]
  · left; rfl
  · right; rfl

theorem readInt_sampleBytes_int (be : Bool) {bps : Nat} (hb : bps = 1 ∨ bps = 2 ∨ bps = 4)
    {r : Int} (hr : r = -1 ∨ r = 0) :
    readInt be (sampleBytes false be bps r) = r ∧
    (sampleBytes false be bps r = List.replicate bps 0 ∨
      sampleBytes false be bps r = List.replicate bps 255) := by
  rcases hb with rfl | rfl | rfl <;> rcases hr with rfl | rfl <;> cases be <;> decide

theorem putBigEndian_eq_reverse (n v : Nat) :
    putBigEndian n v = (putLittleEndian n v).reverse := by
  have hrev : (List.range n).reverse = (List.range n).map (fun x => n - 1 - x) := by
    have := List.reverse_range' 0 n
    simpa [← List.range_eq_range'] using this
  unfold putBigEndian putLittleEndian
  rw [← List.map_reverse, hrev, List.map_map]
  rfl

theorem sampleBytes_bigEndian (fl : Bool) (bps : Nat) (r : Int) :
    sampleBytes fl true bps r = (sampleBytes fl false bps r).reverse := by
  unfold sampleBytes encodeSample
  split <;> simp [putUint, putBigEndian_eq_reverse]

/-! ## When the synthesizer panics -/

theorem generateInaudibleSilence_nil (fl be : Bool) (bps : Nat) (rng : Nat → Nat) (d : Nat) :
    generateInaudibleSilence fl be bps [] rng d = .done ([], d) := by
  simp [generateInaudibleSilence, synthLoop, Outcome.map]

theorem generateInaudibleSilence_unsupported {fl : Bool} (be : Bool) {bps : Nat}
    (hs : ¬ Supported fl bps) {b : List Nat} (hb : b ≠ []) (rng : Nat → Nat) (d : Nat) :
    generateInaudibleSilence fl be bps b rng d = .panic (b, d) := by
  unfold generateInaudibleSilence
  have hpos : 0 < b.length := List.length_pos.mpr hb
  obtain ⟨n, hn⟩ : ∃ n, b.length = n + 1 := ⟨b.length - 1, by omega⟩
  rw [hn]
  unfold synthLoop
  rw [if_pos (by omega), encodeSample_eq_none hs]
  simp [Outcome.map]

theorem generateInaudibleSilence_panic_iff (fl be : Bool) (bps : Nat) (b : List Nat)
    (rng : Nat → Nat) (d : Nat) :
    (∃ s, generateInaudibleSilence fl be bps b rng d = .panic s) ↔
      (b ≠ [] ∧ ¬ Supported fl bps) := by
  constructor
  · rintro ⟨s, hs⟩
    refine ⟨?_, generateInaudibleSilence_panic hs⟩
    rintro rfl
    rw [generateInaudibleSilence_nil] at hs
    cases hs
  · rintro ⟨hb, hs⟩
    exact ⟨_, generateInaudibleSilence_unsupported be hs hb rng d⟩

/-! ## Inputs that differ in their reads only -/

theorem inputBytes_dropFailed (src : List ReadEvent) :
    inputBytes (dropFailed src) = inputBytes src := by
  induction src with
  | nil => rfl
  | cons e rest ih =>
    cases e with
    | fail => simp only [dropFailed, inputBytes, ih]
    | data bs => simp only [dropFailed, inputBytes, ih]

theorem run_congr (cfg : Config) (rng : Nat → Nat) {src src2 : List ReadEvent}
    (hfs : 0 < cfg.bytesPerFrame) (h : inputBytes src2 = inputBytes src) :
    (run cfg rng src2).map State.tracker = (run cfg rng src).map State.tracker := by
  rw [run_refines cfg rng src2 hfs, run_refines cfg rng src hfs, h]

/-- Without a silent run that reaches the threshold the program reaches the end of the
input and has written the complete frames of the input, whatever the sample format. -/
theorem run_of_no_reach (cfg : Config) (rng : Nat → Nat) (src : List ReadEvent)
    (hfs : 0 < cfg.bytesPerFrame)
    (hno : ∀ i, i < (framesOf cfg.bytesPerFrame (inputBytes src)).length →
      reaches cfg (silentRun ((framesOf cfg.bytesPerFrame (inputBytes src)).take (i + 1)))
        = false) :
    ∃ st, run cfg rng src = .done st ∧
      st.tracker.out = framesOf cfg.bytesPerFrame (inputBytes src) := by
  rcases run_spec cfg rng src hfs with ⟨st, hst, hF⟩ | ⟨st, hst, hP⟩
  · refine ⟨st, hst, ?_⟩
    apply List.ext_getElem?
    intro i
    by_cases hi : i < st.tracker.out.length
    · have hit : i < st.tracker.trace.length := by
        rw [hF.trace_length, ← hF.out_length]; exact hi
      have htr : st.tracker.trace[i]? = some false := by
        rw [hF.processed.trace_eq i hit, hno i (by rw [← hF.out_length]; exact hi)]
      exact hF.processed.out_pass i hi htr
    · rw [List.getElem?_eq_none (by omega),
        List.getElem?_eq_none (by rw [← hF.out_length]; omega)]
  · exfalso
    have h1 := hP.last_true
    have hlt := hP.out_lt
    have hle := hP.processed.trace_le
    rw [hP.processed.trace_eq _ hlt, hno _ (by omega)] at h1
    cases h1

/-! ## The synthesizer on any buffer -/

theorem flatten_map_const (l : List Nat) (n : Nat) :
    ((List.range n).map (fun _ => l)).flatten = (List.replicate n l).flatten := by
  rw [List.map_const', List.length_range]

theorem flatten_replicate_replicate (m n : Nat) (a : Nat) :
    (List.replicate n (List.replicate m a)).flatten = List.replicate (n * m) a := by
  induction n with
  | zero => simp
  | succ n ih =>
    rw [List.replicate_succ, List.flatten_cons, ih, Nat.succ_mul, Nat.add_comm (n * m) m,
      List.replicate_add]

theorem le_slotCount_mul {fl : Bool} {bps : Nat} (hs : Supported fl bps) (len : Nat) :
    len ≤ slotCount bps len 0 * bps := by
  unfold slotCount
  unfold Supported at hs
  rcases hs with ⟨_, h | h | h⟩ | ⟨_, h | h⟩ <;> subst h <;> omega

theorem sampleBytes_zero {fl : Bool} (be : Bool) {bps : Nat} (hs : Supported fl bps) :
    sampleBytes fl be bps 0 = List.replicate bps 0 := by
  unfold Supported at hs
  rcases hs with ⟨rfl, rfl | rfl | rfl⟩ | ⟨rfl, rfl | rfl⟩ <;> cases be <;> decide!

theorem drawValue_allZero (d : Nat) : drawValue allZero d = 0 := by
  simp [drawValue, allZero]

theorem synthLoop_congr {fl fl2 be be2 : Bool} {bps len : Nat} {rng : Nat → Nat}
    (h : ∀ d, encodeSample fl be bps (drawValue rng d)
      = encodeSample fl2 be2 bps (drawValue rng d)) :
    ∀ (fuel i : Nat) (buf : List Nat) (d : Nat),
      synthLoop fl be bps len rng fuel i buf d = synthLoop fl2 be2 bps len rng fuel i buf d := by
  intro fuel
  induction fuel with
  | zero => intro i buf d; simp [synthLoop]
  | succ fuel ih =>
    intro i buf d
    unfold synthLoop
    rw [h d]
    split
    · split
      · rfl
      · exact ih _ _ _
    · rfl

theorem encodeSample_int_order (bps : Nat) {r : Int} (hr : r = -1 ∨ r = 0) :
    encodeSample false true bps r = encodeSample false false bps r := by
  by_cases hs : Supported false bps
  · unfold Supported at hs
    rcases hs with ⟨_, rfl | rfl | rfl⟩ | ⟨h, _⟩
    · rcases hr with rfl | rfl <;> decide
    · rcases hr with rfl | rfl <;> decide
    · rcases hr with rfl | rfl <;> decide
    · cases h
  · rw [encodeSample_eq_none hs, encodeSample_eq_none hs]

theorem eq_replicate_of_isSilent {b : List Nat} (h : isSilent b = true) :
    b = List.replicate b.length 0 := by
  rw [isSilent_eq_true_iff] at h
  exact List.eq_replicate_iff.mpr ⟨rfl, h⟩

/-- With every draw `0` the synthesizer fills the buffer with zero bytes, for every
supported format and every buffer. -/
theorem generateInaudibleSilence_allZero {fl : Bool} (be : Bool) {bps : Nat}
    (hs : Supported fl bps) (b : List Nat) (d : Nat) :
    generateInaudibleSilence fl be bps b allZero d =
      .done (List.replicate b.length 0, d + slotCount bps b.length 0) := by
  unfold generateInaudibleSilence
  rw [synthLoop_supported hs b.length allZero b.length 0 [] d (by omega)]
  simp only [Outcome.map, List.nil_append, drawValue_allZero, sampleBytes_zero be hs]
  rw [flatten_map_const, flatten_replicate_replicate]
  have hle := le_slotCount_mul hs b.length
  rw [List.length_replicate, List.drop_eq_nil_of_le hle, List.append_nil, List.take_replicate,
    Nat.min_eq_left hle]

/-- With integer samples the synthesizer does the same whatever the byte order. -/
theorem generateInaudibleSilence_int_order (bps : Nat) (b : List Nat) (rng : Nat → Nat)
    (d : Nat) :
    generateInaudibleSilence false true bps b rng d
      = generateInaudibleSilence false false bps b rng d := by
  unfold generateInaudibleSilence
  rw [synthLoop_congr (fun d => encodeSample_int_order bps (drawValue_cases rng d))]

/-! ## A threshold of zero or less -/

theorem frameNanoseconds_zeroThreshold :
    zeroThresholdConfig.frameNanoseconds = F64.fin oneSecond := by decide!

theorem toDuration_nonneg_of_inInt64 (ovf : Int) {x : F64} (hx : x.InInt64) :
    0 ≤ toDuration ovf x := by
  obtain ⟨m, rfl, hm⟩ := hx
  simp only [toDuration, hm, if_true]
  exact Int.natCast_nonneg _

theorem toDuration_cases (ovf : Int) (x : F64) : 0 ≤ toDuration ovf x ∨ toDuration ovf x = ovf := by
  cases x with
  | inf => right; rfl
  | fin m =>
    by_cases hm : m / f64One < 2 ^ 63
    · left; simp only [toDuration, hm, if_true]; exact Int.natCast_nonneg _
    · right; simp only [toDuration, hm, if_false]

/-- With a threshold of zero or less a silent run of `k` frames reaches the threshold when
the accumulator is in the range of `int64`, or when the platform gives for a conversion
out of range a value that is not below the threshold. -/
theorem reaches_of_nonpos {cfg : Config} (hT : cfg.silenceThreshold ≤ 0) {k : Nat}
    (h : (accK cfg.frameNanoseconds k).InInt64 ∨ cfg.silenceThreshold ≤ cfg.convOverflow) :
    reaches cfg k = true := by
  unfold reaches
  apply decide_eq_true
  rcases h with h | h
  · have := toDuration_nonneg_of_inInt64 cfg.convOverflow h
    omega
  · rcases toDuration_cases cfg.convOverflow (accK cfg.frameNanoseconds k) with h0 | h0
    · omega
    · rw [h0]; exact h

theorem accK_zero_inInt64 (f : F64) : (accK f 0).InInt64 :=
  ⟨0, rfl, by simp⟩

theorem silentRun_of_not_silent {frames : List (List Nat)} {i : Nat} {fr : List Nat}
    (h : frames[i]? = some fr) (hns : isSilent fr = false) :
    silentRun (frames.take (i + 1)) = 0 := by
  rw [silentRun_take_succ h, hns]
  rfl

theorem silentRun_le_length (frames : List (List Nat)) : silentRun frames ≤ frames.length := by
  unfold silentRun
  have h := (List.takeWhile_prefix isSilent (l := frames.reverse)).length_le
  rwa [List.length_reverse] at h

/-! ## The sink -/

theorem trackerStep_out_length {cfg : Config} {rng : Nat → Nat} {t : Tracker}
    {frame : List Nat} {r : Tracker × List Nat} (h : trackerStep cfg rng t frame = .done r) :
    r.1.out.length = t.out.length + 1 := by
  unfold trackerStep at h
  simp only at h
  split at h
  · split at h
    · simp only [Outcome.done.injEq] at h
      subst h
      simp
    · simp at h
    · simp at h
  · simp only [Outcome.done.injEq] at h
    subst h
    simp

theorem mainLoop_out_length_le (cfg : Config) (rng : Nat → Nat) :
    ∀ (fuel : Nat) (st st2 : State), mainLoop cfg rng fuel st = .done st2 →
      st.tracker.out.length ≤ st2.tracker.out.length := by
  intro fuel
  induction fuel with
  | zero => intro st st2 h; simp [mainLoop] at h
  | succ fuel ih =>
    intro st st2 h
    unfold mainLoop at h
    rcases hread : read (st.readBytes.length - st.offset) st.src with ⟨bs, eof, src1⟩
    rw [hread] at h
    cases eof with
    | true =>
      simp only [Outcome.done.injEq] at h
      subst h
      exact le_refl _
    | false =>
      simp only at h
      split at h
      · have h1 := ih _ _ h
        exact h1
      · split at h
        · rename_i r hr
          have h1 := ih _ _ h
          have h2 := trackerStep_out_length hr
          simp only at h1
          omega
        · simp at h
        · simp at h

/-- When no call of `wbuf.Write` fails, `main` ends as the loop does, whatever
`wbuf.Flush` returns; when one fails, `main` ends in `log.Fatal`. -/
theorem mainFrom_of_done (cfg : Config) (rng : Nat → Nat) (sink : Sink) :
    ∀ (fuel : Nat) (st st2 : State), mainLoop cfg rng fuel st = .done st2 →
      ((∀ i, st.tracker.out.length ≤ i → i < st2.tracker.out.length →
          sink.writeFails i = false) →
        mainFrom cfg rng sink fuel st
          = .reported st2.readByteCount st2.tracker.generatedFakeSilenceByteCount) ∧
      ((∃ i, st.tracker.out.length ≤ i ∧ i < st2.tracker.out.length ∧
          sink.writeFails i = true) →
        mainFrom cfg rng sink fuel st = .fatal) := by
  intro fuel
  induction fuel with
  | zero => intro st st2 h; simp [mainLoop] at h
  | succ fuel ih =>
    intro st st2 h
    unfold mainLoop at h
    unfold mainFrom
    rcases hread : read (st.readBytes.length - st.offset) st.src with ⟨bs, eof, src1⟩
    rw [hread] at h
    cases eof with
    | true =>
      simp only [Outcome.done.injEq] at h
      subst h
      refine ⟨fun _ => rfl, ?_⟩
      rintro ⟨i, h1, h2, _⟩
      omega
    | false =>
      simp only at h ⊢
      split at h
      · rename_i hlt
        rw [if_pos hlt]
        have h1 := ih _ _ h
        exact h1
      · rename_i hlt
        rw [if_neg hlt]
        split at h
        · rename_i r hr
          have hlen := trackerStep_out_length hr
          have hmono := mainLoop_out_length_le cfg rng _ _ _ h
          simp only at hmono
          obtain ⟨ih1, ih2⟩ := ih _ _ h
          simp only at ih1 ih2
          constructor
          · intro hno
            rw [if_neg (by rw [hno _ (le_refl _) (by omega)]; simp)]
            exact ih1 (fun i hi1 hi2 => hno i (by omega) hi2)
          · rintro ⟨i, hi1, hi2, hi3⟩
            by_cases hw : sink.writeFails st.tracker.out.length = true
            · rw [if_pos hw]
            · rw [if_neg hw]
              apply ih2
              refine ⟨i, ?_, hi2, hi3⟩
              by_contra hc
              have : i = st.tracker.out.length := by omega
              rw [this] at hi3
              exact hw hi3
        · simp at h
        · simp at h

theorem mainFrom_of_panic (cfg : Config) (rng : Nat → Nat) (sink : Sink) :
    ∀ (fuel : Nat) (st st2 : State), mainLoop cfg rng fuel st = .panic st2 →
      (∀ i, sink.writeFails i = false) → mainFrom cfg rng sink fuel st = .panicked := by
  intro fuel
  induction fuel with
  | zero => intro st st2 h; simp [mainLoop] at h
  | succ fuel ih =>
    intro st st2 h hno
    unfold mainLoop at h
    unfold mainFrom
    rcases hread : read (st.readBytes.length - st.offset) st.src with ⟨bs, eof, src1⟩
    rw [hread] at h
    cases eof with
    | true => simp at h
    | false =>
      simp only at h ⊢
      split at h
      · rename_i hlt
        rw [if_pos hlt]
        have h1 := ih _ _ h hno
        exact h1
      · rename_i hlt
        rw [if_neg hlt]
        split at h
        · rename_i r hr
          rw [if_neg (by rw [hno]; simp)]
          have h1 := ih _ _ h hno
          exact h1
        · rename_i r hr
          rfl
        · simp at h

theorem main_flush_irrelevant (cfg : Config) (rng : Nat → Nat) (w : Nat → Bool) (f1 f2 : Bool)
    (src : List ReadEvent) :
    main cfg rng { writeFails := w, flushFails := f1 } src
      = main cfg rng { writeFails := w, flushFails := f2 } src := by
  unfold main
  generalize sourceFuel src = fuel
  generalize initState cfg src = st
  induction fuel generalizing st with
  | zero => rfl
  | succ fuel ih =>
    unfold mainFrom
    rcases hread : read (st.readBytes.length - st.offset) st.src with ⟨bs, eof, src1⟩
    cases eof with
    | true => rfl
    | false =>
      simp only
      split
      · exact ih _
      · split
        · split
          · rfl
          · exact ih _
        · rfl
        · rfl

/-! ## A frame size of zero -/

theorem trackerStep_nil (cfg : Config) (rng : Nat → Nat) (t : Tracker) :
    ∃ r, trackerStep cfg rng t [] = .done r ∧ r.2 = [] := by
  unfold trackerStep
  simp only
  split
  · rw [generateInaudibleSilence_nil]
    exact ⟨_, rfl, rfl⟩
  · exact ⟨_, rfl, rfl⟩

/-- With a frame size of zero `buf.Read` never reports the end of the stream and the loop
never ends: the model runs out of fuel, whatever the fuel. -/
theorem mainLoop_zero_frame (cfg : Config) (rng : Nat → Nat) :
    ∀ (fuel : Nat) (st : State), st.readBytes = [] →
      mainLoop cfg rng fuel st = .outOfFuel := by
  intro fuel
  induction fuel with
  | zero => intro st _; rfl
  | succ fuel ih =>
    intro st h
    obtain ⟨r, hr, hr2⟩ := trackerStep_nil cfg rng st.tracker
    unfold mainLoop
    simp only [h, List.length_nil, Nat.zero_sub, read, if_true, List.take_nil, List.drop_nil,
      List.append_nil, Nat.add_zero, Nat.zero_add, Nat.not_lt_zero, if_false, hr]
    exact ih _ hr2

theorem run_zero_frame (cfg : Config) (rng : Nat → Nat) (src : List ReadEvent)
    (h : cfg.bytesPerFrame = 0) : run cfg rng src = .outOfFuel := by
  unfold run
  apply mainLoop_zero_frame
  simp [initState, h]

/-! ## Whole runs -/

theorem out_flatten_length {cfg : Config} {rng : Nat → Nat} {l : List Nat} {fs : Nat}
    {t : Tracker} (h : Processed cfg rng (framesOf fs l) t) :
    t.out.flatten.length = t.out.length * fs :=
  flatten_length_of_forall _ (mem_out_length h)

/-- A run that panics has written fewer frames than the input holds. -/
theorem run_panic_short {cfg : Config} {rng : Nat → Nat} {src : List ReadEvent}
    (hfs : 0 < cfg.bytesPerFrame) {st : State} (h : run cfg rng src = .panic st) :
    ¬ Supported cfg.float cfg.bytesPerSample ∧
    st.tracker.out.flatten.length
      < (inputBytes src).length / cfg.bytesPerFrame * cfg.bytesPerFrame := by
  rcases run_spec cfg rng src hfs with ⟨st2, h2, _⟩ | ⟨st2, h2, hP⟩
  · rw [h] at h2; cases h2
  · rw [h] at h2
    cases h2
    refine ⟨hP.unsupported, ?_⟩
    rw [out_flatten_length hP.processed, ← framesOf_length]
    have h1 := hP.out_lt
    have h2 := hP.processed.trace_le
    exact Nat.mul_lt_mul_of_pos_right (by omega) hfs

/-- Where no silent frame passes the test of line 120 and the threshold is positive, no
frame does. -/
theorem no_reach_of_silent {cfg : Config} (hT : 0 < cfg.silenceThreshold)
    {frames : List (List Nat)}
    (hno : ∀ (i : Nat) (fr : List Nat), frames[i]? = some fr → (∀ b ∈ fr, b = 0) →
      reaches cfg (silentRun (frames.take (i + 1))) = false) :
    ∀ i, i < frames.length → reaches cfg (silentRun (frames.take (i + 1))) = false := by
  intro i hi
  have hfr : frames[i]? = some frames[i] := List.getElem?_eq_getElem hi
  by_cases hs : isSilent frames[i] = true
  · exact hno i _ hfr ((isSilent_eq_true_iff _).mp hs)
  · rw [silentRun_of_not_silent hfr (by simpa using hs)]
    exact reaches_zero hT

/-- Every run ends normally or in a panic, and the tracker has then handled the frames of
the input up to there; with a supported format it ends normally. -/
theorem run_ends (cfg : Config) (rng : Nat → Nat) (src : List ReadEvent)
    (hfs : 0 < cfg.bytesPerFrame) :
    ∃ st, (run cfg rng src = .done st ∨ run cfg rng src = .panic st) ∧
      Processed cfg rng (framesOf cfg.bytesPerFrame (inputBytes src)) st.tracker ∧
      (run cfg rng src = .done st →
        Finished cfg rng (framesOf cfg.bytesPerFrame (inputBytes src)) st.tracker) ∧
      (Supported cfg.float cfg.bytesPerSample → run cfg rng src = .done st) := by
  rcases run_spec cfg rng src hfs with ⟨st, hst, hF⟩ | ⟨st, hst, hP⟩
  · exact ⟨st, Or.inl hst, hF.processed, fun _ => hF, fun _ => hst⟩
  · refine ⟨st, Or.inr hst, hP.processed, ?_, fun hs => absurd hs hP.unsupported⟩
    intro h
    rw [hst] at h
    cases h

/-- The decision for the `k`-th silent frame after a frame with a non-zero byte. -/
theorem trace_after_reset {cfg : Config} {rng : Nat → Nat} {frames : List (List Nat)}
    {t : Tracker} (hP : Processed cfg rng frames t) {pre : List (List Nat)} {nz z : List Nat}
    {n k : Nat} (hfr : frames = pre ++ nz :: List.replicate n z)
    (hnz : isSilent nz = false) (hz : isSilent z = true) (hkn : k ≤ n)
    (hi : pre.length + k < t.trace.length) :
    t.trace[pre.length + k]? = some (reaches cfg k) := by
  rw [hP.trace_eq _ hi, hfr]
  congr 2
  have : (pre ++ nz :: List.replicate n z).take (pre.length + k + 1)
      = pre ++ nz :: List.replicate k z := by
    rw [List.take_append_eq_append_take, List.take_of_length_le (by omega)]
    congr 1
    rw [show pre.length + k + 1 - pre.length = k + 1 by omega, List.take_succ_cons,
      List.take_replicate, Nat.min_eq_left hkn]
  rw [this, silentRun_append_replicate hz hnz]

/-- The decision for the `k`-th frame of a silent run that starts the stream. -/
theorem trace_from_start {cfg : Config} {rng : Nat → Nat} {frames : List (List Nat)}
    {t : Tracker} (hP : Processed cfg rng frames t) {z : List Nat} {n k : Nat}
    (hfr : frames = List.replicate n z) (hz : isSilent z = true) (hk1 : 1 ≤ k) (hkn : k ≤ n)
    (hi : k - 1 < t.trace.length) :
    t.trace[k - 1]? = some (reaches cfg k) := by
  rw [hP.trace_eq _ hi, hfr]
  congr 2
  rw [show k - 1 + 1 = k by omega, List.take_replicate, Nat.min_eq_left hkn,
    silentRun_replicate hz]

/-! # The claims -/

/-! ## C1 -/

/-- C1 as stated fails: with `--bits 24` the frame size is 3; at 1 Hz with the threshold
2s, on six zero bytes the first frame is written and the program panics at the second,
so 3 bytes are written where the input length rounded down to a multiple of the frame
size is 6. -/
theorem C1_counterexample :
    1 ≤ config24.bytesPerFrame ∧
    (inputBytes [.data [0, 0, 0, 0, 0, 0]]).length / config24.bytesPerFrame
      * config24.bytesPerFrame = 6 ∧
    (run config24 alternating [.data [0, 0, 0, 0, 0, 0]]).map
        (fun st => st.tracker.out.flatten.length) = .panic 3 := by
  refine ⟨by decide, by decide, by decide!⟩

/-- C1 (frame integrity), amended: for every input, every splitting of it into reads and
every frame size of at least one byte, with a supported sample format the program reaches
the end of the input, and what it has written are `len / frameSize` frames of `frameSize`
bytes each: the input length rounded down to a multiple of the frame size. Whatever the
format, the program never runs out of fuel, every run that reaches the end of the input
has written that number of bytes, and a run that does not has panicked on an unsupported
format, having written fewer. -/
theorem C1_frame_integrity (cfg : Config) (rng : Nat → Nat) (src : List ReadEvent)
    (hfs : 1 ≤ cfg.bytesPerFrame) :
    (Supported cfg.float cfg.bytesPerSample →
      ∃ st, run cfg rng src = .done st ∧
        st.tracker.out.flatten.length
          = (inputBytes src).length / cfg.bytesPerFrame * cfg.bytesPerFrame ∧
        st.tracker.out.length = (inputBytes src).length / cfg.bytesPerFrame ∧
        ∀ fr ∈ st.tracker.out, fr.length = cfg.bytesPerFrame) ∧
    (∀ st, run cfg rng src = .done st →
      st.tracker.out.flatten.length
        = (inputBytes src).length / cfg.bytesPerFrame * cfg.bytesPerFrame) ∧
    (∀ st, run cfg rng src = .panic st →
      ¬ Supported cfg.float cfg.bytesPerSample ∧
      st.tracker.out.flatten.length
        < (inputBytes src).length / cfg.bytesPerFrame * cfg.bytesPerFrame) ∧
    run cfg rng src ≠ .outOfFuel := by
  have hlen : ∀ st, run cfg rng src = .done st →
      st.tracker.out.flatten.length
        = (inputBytes src).length / cfg.bytesPerFrame * cfg.bytesPerFrame := by
    intro st hst
    have hF := run_done_finished hfs hst
    rw [out_flatten_length hF.processed, hF.out_length, framesOf_length]
  refine ⟨?_, hlen, fun st hst => run_panic_short hfs hst, run_ne_outOfFuel cfg rng src hfs⟩
  intro hs
  obtain ⟨st, hst, hF⟩ := run_supported cfg rng src hfs hs
  refine ⟨st, hst, hlen st hst, ?_, mem_out_length hF.processed⟩
  rw [hF.out_length, framesOf_length]

/-- C1 at the default configuration on nine bytes read as three and six: two frames of
four bytes are written. -/
theorem C1_frame_integrity_witness :
    (1 ≤ defaultConfig.bytesPerFrame ∧
      Supported defaultConfig.float defaultConfig.bytesPerSample) ∧
    (∃ st, run defaultConfig alternating [.data [1, 2, 3], .data [4, 5, 6, 7, 8, 9]] = .done st ∧
      st.tracker.out.flatten.length
        = (inputBytes [.data [1, 2, 3], .data [4, 5, 6, 7, 8, 9]]).length
            / defaultConfig.bytesPerFrame * defaultConfig.bytesPerFrame ∧
      st.tracker.out.length
        = (inputBytes [.data [1, 2, 3], .data [4, 5, 6, 7, 8, 9]]).length
            / defaultConfig.bytesPerFrame ∧
      ∀ fr ∈ st.tracker.out, fr.length = defaultConfig.bytesPerFrame) ∧
    (run defaultConfig alternating [.data [1, 2, 3], .data [4, 5, 6, 7, 8, 9]]).map
        (fun st => st.tracker.out) = .done [[1, 2, 3, 4], [5, 6, 7, 8]] :=
  ⟨⟨by decide, by decide⟩,
    (C1_frame_integrity defaultConfig alternating [.data [1, 2, 3], .data [4, 5, 6, 7, 8, 9]]
      (by decide)).1 (by decide),
    by decide!⟩

/-! ## C2 -/

/-- C2 (non-silent audio is never altered): with a positive threshold, the tracker writes
a frame that has a non-zero byte unchanged and resets the accumulator; in every run each
frame written in the place of an input frame with a non-zero byte is that frame, byte for
byte, only silent frames are ever replaced, and with a supported format every complete
frame of the input is written. -/
theorem C2_nonsilent_unaltered (cfg : Config) (rng : Nat → Nat) (src : List ReadEvent)
    (hfs : 1 ≤ cfg.bytesPerFrame) (hT : 0 < cfg.silenceThreshold) :
    (∀ (t : Tracker) (frame : List Nat), (∃ b ∈ frame, b ≠ 0) →
      trackerStep cfg rng t frame =
        .done ({ silentNanoseconds := F64.zero, draws := t.draws, out := t.out ++ [frame],
                 generatedFakeSilenceByteCount := t.generatedFakeSilenceByteCount,
                 trace := t.trace ++ [false] }, frame)) ∧
    (∀ st, run cfg rng src = .done st ∨ run cfg rng src = .panic st →
      ∀ (i : Nat) (fr : List Nat), i < st.tracker.out.length →
        (framesOf cfg.bytesPerFrame (inputBytes src))[i]? = some fr →
        (∃ b ∈ fr, b ≠ 0) → st.tracker.out[i]? = some fr) ∧
    (∀ st, run cfg rng src = .done st ∨ run cfg rng src = .panic st →
      ∀ (i : Nat) (fr : List Nat), st.tracker.trace[i]? = some true →
        (framesOf cfg.bytesPerFrame (inputBytes src))[i]? = some fr → ∀ b ∈ fr, b = 0) ∧
    (Supported cfg.float cfg.bytesPerSample →
      ∃ st, run cfg rng src = .done st ∧
        st.tracker.out.length = (framesOf cfg.bytesPerFrame (inputBytes src)).length) := by
  have key : ∀ st, run cfg rng src = .done st ∨ run cfg rng src = .panic st →
      ∀ (i : Nat) (fr : List Nat), i < st.tracker.trace.length →
        (framesOf cfg.bytesPerFrame (inputBytes src))[i]? = some fr →
        isSilent fr = false → st.tracker.trace[i]? = some false := by
    intro st hst i fr hi hfr hns
    have hP := run_processed hfs hst
    rw [hP.trace_eq i hi, silentRun_take_succ hfr, hns]
    simp only [Bool.false_eq_true, if_false]
    rw [reaches_zero hT]
  refine ⟨?_, ?_, ?_, ?_⟩
  · intro t frame hnz
    exact trackerStep_of_not_silent cfg rng t hT ((isSilent_eq_false_iff frame).mpr hnz)
  · intro st hst i fr hi hfr hnz
    have hP := run_processed hfs hst
    have htr := key st hst i fr (by have := hP.out_le; omega) hfr
      ((isSilent_eq_false_iff fr).mpr hnz)
    rw [hP.out_pass i hi htr, hfr]
  · intro st hst i fr htr hfr
    rw [← isSilent_eq_true_iff]
    by_contra hc
    have hi : i < st.tracker.trace.length := by
      by_contra hge
      rw [List.getElem?_eq_none (by omega)] at htr
      cases htr
    have := key st hst i fr hi hfr (by simpa using hc)
    rw [this] at htr
    cases htr
  · intro hs
    obtain ⟨st, hst, hF⟩ := run_supported cfg rng src hfs hs
    exact ⟨st, hst, hF.out_length⟩

/-- C2 at the default configuration on two frames, the first with a non-zero byte: it is
written as it was read. -/
theorem C2_nonsilent_unaltered_witness :
    1 ≤ defaultConfig.bytesPerFrame ∧ 0 < defaultConfig.silenceThreshold ∧
    trackerStep defaultConfig alternating initTracker [0, 7, 0, 0] =
      .done ({ silentNanoseconds := F64.zero, draws := 0, out := [[0, 7, 0, 0]],
               generatedFakeSilenceByteCount := 0, trace := [false] }, [0, 7, 0, 0]) :=
  ⟨by decide, by decide,
    (C2_nonsilent_unaltered defaultConfig alternating [.data [0, 7, 0, 0, 0, 0], .data [0, 0]]
      (by decide) (by decide)).1 initTracker [0, 7, 0, 0] ⟨7, by decide, by decide⟩⟩

/-! ## C3 -/

/-- C3 as stated fails: at 1 Hz, with the threshold 1s, the accumulator after `2^34`
silent frames (about 17 GB of 8-bit mono input) is at least `2^63` ns, far above the
threshold, yet the conversion to `time.Duration` leaves the range of `int64`, the test
at line 120 fails where it gives the smallest `int64`, and the last frame is written
unchanged. -/
theorem C3_counterexample :
    ∃ st, run slowConfig alternating [.data (List.replicate (2 ^ 34 * slowConfig.bytesPerFrame) 0)]
        = .done st ∧
      st.tracker.silentNanoseconds.IntLe slowConfig.silenceThreshold ∧
      st.tracker.trace.getLast? = some false ∧
      st.tracker.out.getLast? = some [0] := by
  have hov := reaches_of_overflow slowConfig (f := oneSecond)
    (d := oneSecond - 2 ^ 1083) (k := 2 ^ 34) frameNanoseconds_slow (by decide!) (by decide!)
    (by decide)
  obtain ⟨st, hst, _, hlast, hacc, hout⟩ :=
    run_silence slowConfig alternating (n := 2 ^ 34) (by decide) (by decide) (by decide)
  refine ⟨st, hst, ?_, ?_, ?_⟩
  · rw [hacc]; exact hov.2 _ (by decide)
  · rw [hlast, hov.1]
  · rw [hout hov.1]; rfl

/-- C3 (replacement decision rule), amended: for every complete frame, with a supported
sample format, with `acc` the accumulator after the increment and the possible reset, and
provided `acc` is below `2^63` ns (the range of `time.Duration`): the test of line 120 on
the truncated value holds exactly when `acc`, untruncated, is at least the threshold;
when it is, the synthesizer ends normally, the frame is overwritten with its output and
that is what is written; when it is not, the frame is written unchanged. -/
theorem C3_replacement_rule (cfg : Config) (rng : Nat → Nat) (t : Tracker) (frame : List Nat)
    (hs : Supported cfg.float cfg.bytesPerSample)
    (hr : (updateSilence cfg.frameNanoseconds t.silentNanoseconds frame).InInt64) :
    (cfg.silenceThreshold ≤ toDuration cfg.convOverflow
        (updateSilence cfg.frameNanoseconds t.silentNanoseconds frame) ↔
      (updateSilence cfg.frameNanoseconds t.silentNanoseconds frame).IntLe
        cfg.silenceThreshold) ∧
    ((updateSilence cfg.frameNanoseconds t.silentNanoseconds frame).IntLe cfg.silenceThreshold →
      ∃ r, generateInaudibleSilence cfg.float cfg.bigEndian cfg.bytesPerSample frame rng t.draws
          = .done r ∧
        trackerStep cfg rng t frame =
          .done ({ silentNanoseconds :=
                     updateSilence cfg.frameNanoseconds t.silentNanoseconds frame,
                   draws := r.2, out := t.out ++ [r.1],
                   generatedFakeSilenceByteCount :=
                     (t.generatedFakeSilenceByteCount + frame.length) % 2 ^ 64,
                   trace := t.trace ++ [true] }, r.1)) ∧
    (¬ (updateSilence cfg.frameNanoseconds t.silentNanoseconds frame).IntLe
        cfg.silenceThreshold →
      trackerStep cfg rng t frame =
        .done ({ silentNanoseconds :=
                   updateSilence cfg.frameNanoseconds t.silentNanoseconds frame,
                 draws := t.draws, out := t.out ++ [frame],
                 generatedFakeSilenceByteCount := t.generatedFakeSilenceByteCount,
                 trace := t.trace ++ [false] },
               frame)) := by
  have hiff := toDuration_le_iff cfg.convOverflow cfg.silenceThreshold hr
  refine ⟨hiff, ?_, ?_⟩
  · intro hle
    obtain ⟨r, hg⟩ := generateInaudibleSilence_supported cfg.bigEndian hs frame rng t.draws
    refine ⟨r, hg, ?_⟩
    unfold trackerStep
    simp only
    rw [if_pos (hiff.mpr hle), hg]
  · intro hnle
    unfold trackerStep
    simp only
    rw [if_neg (fun h => hnle (hiff.mp h))]

/-- C3 at 1 Hz, 16-bit mono, threshold 1s: the first frame of the stream is silent, the
accumulator is then one second, the threshold is reached, and the frame `00 00` is
replaced by `FF FF` (the draw is `-1`). -/
theorem C3_replacement_rule_witness :
    (Supported monoConfig.float monoConfig.bytesPerSample ∧
      (updateSilence monoConfig.frameNanoseconds initTracker.silentNanoseconds [0, 0]).InInt64 ∧
      (updateSilence monoConfig.frameNanoseconds initTracker.silentNanoseconds [0, 0]).IntLe
        monoConfig.silenceThreshold) ∧
    (∃ r, generateInaudibleSilence monoConfig.float monoConfig.bigEndian
          monoConfig.bytesPerSample [0, 0] alternating initTracker.draws = .done r ∧
      trackerStep monoConfig alternating initTracker [0, 0] =
        .done ({ silentNanoseconds :=
                   updateSilence monoConfig.frameNanoseconds initTracker.silentNanoseconds
                     [0, 0],
                 draws := r.2, out := initTracker.out ++ [r.1],
                 generatedFakeSilenceByteCount :=
                   (initTracker.generatedFakeSilenceByteCount + [0, 0].length) % 2 ^ 64,
                 trace := initTracker.trace ++ [true] }, r.1)) ∧
    generateInaudibleSilence monoConfig.float monoConfig.bigEndian
        monoConfig.bytesPerSample [0, 0] alternating initTracker.draws
      = .done ([255, 255], 1) :=
  have hacc : updateSilence monoConfig.frameNanoseconds initTracker.silentNanoseconds [0, 0]
      = F64.fin oneSecond := by decide!
  have hin : (updateSilence monoConfig.frameNanoseconds initTracker.silentNanoseconds
      [0, 0]).InInt64 := ⟨oneSecond, hacc, by decide!⟩
  have hle : (updateSilence monoConfig.frameNanoseconds initTracker.silentNanoseconds
      [0, 0]).IntLe monoConfig.silenceThreshold := by
    rw [hacc, F64.intLe_fin]
    decide!
  ⟨⟨by decide, hin, hle⟩,
    (C3_replacement_rule monoConfig alternating initTracker [0, 0] (by decide) hin).2.1 hle,
    by decide⟩

/-! ## C4 -/

/-- C4 as stated fails: at 44100 Hz with the threshold 1s, frame number `2^49` of a silent
run that starts the stream is not replaced where a conversion out of range gives the
smallest `int64`: the accumulator has then passed `2^63` ns. -/
theorem C4_counterexample :
    ∃ st, run defaultConfig alternating
        [.data (List.replicate (2 ^ 49 * defaultConfig.bytesPerFrame) 0)] = .done st ∧
      st.tracker.trace.length = 2 ^ 49 ∧
      st.tracker.trace.getLast? = some false ∧
      st.tracker.out.getLast? = some [0, 0, 0, 0] := by
  have hov := reaches_of_overflow defaultConfig (f := f44100)
    (d := f44100 - 2 ^ 1083) (k := 2 ^ 49) (frameNanoseconds_44100 rfl) (by decide!)
    (by decide!) (by decide)
  obtain ⟨st, hst, hlen, hlast, _, hout⟩ :=
    run_silence defaultConfig alternating (n := 2 ^ 49) (by decide) (by decide) (by decide)
  refine ⟨st, hst, hlen, ?_, ?_⟩
  · rw [hlast, hov.1]
  · rw [hout hov.1]; rfl

/-- C4 (threshold timing), amended: with the sample rate 44100, the threshold 1s and a
supported sample format, the frame duration is the float `1e9 / 44100`, the accumulator
after `k` silent frames is `k` float additions of it (below one second after 44099, above
after 44100), and a silent run of `k` frames passes the threshold test for no `k` below
44100 and for every `k` from 44100 on as long as the accumulator stays below `2^63` ns,
which it does at least up to `k = 3 * 10^14`. Every run ends normally having handled and
written every complete frame of the input; a silent frame that is number `k < 44100` of
its silent run (counted from the start of the stream or from the last frame with a
non-zero byte) is written unchanged, as zero bytes, and one that is number `k ≥ 44100` is
replaced by the output of the synthesizer as long as the accumulator is below `2^63` ns.
So a silent run of 44099 frames is passed through in full. -/
theorem C4_threshold_timing (cfg : Config) (rng : Nat → Nat) (src : List ReadEvent)
    (hfs : 1 ≤ cfg.bytesPerFrame) (hs : Supported cfg.float cfg.bytesPerSample)
    (hrate : cfg.sampleRate = 44100) (hT : cfg.silenceThreshold = 1000000000) :
    cfg.frameNanoseconds = F64.fin f44100 ∧
    accK cfg.frameNanoseconds 44099 = F64.fin v44099 ∧
    accK cfg.frameNanoseconds 44100 = F64.fin v44100 ∧
    v44099 < oneSecond ∧ oneSecond ≤ v44100 ∧
    (∀ k, k < 44100 → reaches cfg k = false) ∧
    (∀ k, 44100 ≤ k → (accK cfg.frameNanoseconds k).InInt64 → reaches cfg k = true) ∧
    (∀ k, k ≤ 3 * 10 ^ 14 → (accK cfg.frameNanoseconds k).InInt64) ∧
    (∃ st, run cfg rng src = .done st ∧
      st.tracker.out.length = (framesOf cfg.bytesPerFrame (inputBytes src)).length ∧
      st.tracker.trace.length = (framesOf cfg.bytesPerFrame (inputBytes src)).length ∧
      ∀ (i : Nat) (fr : List Nat),
        (framesOf cfg.bytesPerFrame (inputBytes src))[i]? = some fr → (∀ b ∈ fr, b = 0) →
        (silentRun ((framesOf cfg.bytesPerFrame (inputBytes src)).take (i + 1)) < 44100 →
          st.tracker.trace[i]? = some false ∧ st.tracker.out[i]? = some fr) ∧
        (44100 ≤ silentRun ((framesOf cfg.bytesPerFrame (inputBytes src)).take (i + 1)) →
          (accK cfg.frameNanoseconds
            (silentRun ((framesOf cfg.bytesPerFrame (inputBytes src)).take (i + 1)))).InInt64 →
          st.tracker.trace[i]? = some true ∧
          ∃ d r, generateInaudibleSilence cfg.float cfg.bigEndian cfg.bytesPerSample fr rng d
              = .done r ∧ st.tracker.out[i]? = some r.1)) := by
  have hf := frameNanoseconds_44100 hrate
  refine ⟨hf, by rw [hf]; exact accK_44099, by rw [hf]; exact accK_44100, v44099_lt,
    v44100_ge, fun k hk => reaches_44100_lt hrate hT hk,
    fun k hk hr => reaches_44100_ge hrate hT hk hr, fun k hk => inInt64_44100 hrate hk, ?_⟩
  obtain ⟨st, hst, hF⟩ := run_supported cfg rng src hfs hs
  refine ⟨st, hst, hF.out_length, hF.trace_length, ?_⟩
  intro i fr hfr _
  have hi : i < (framesOf cfg.bytesPerFrame (inputBytes src)).length := by
    by_contra hc
    rw [List.getElem?_eq_none (by omega)] at hfr
    cases hfr
  have hio : i < st.tracker.out.length := by rw [hF.out_length]; exact hi
  have hit : i < st.tracker.trace.length := by rw [hF.trace_length]; exact hi
  constructor
  · intro hk
    have htr : st.tracker.trace[i]? = some false := by
      rw [hF.processed.trace_eq i hit, reaches_44100_lt hrate hT hk]
    exact ⟨htr, by rw [hF.processed.out_pass i hio htr, hfr]⟩
  · intro hk hk2
    have htr : st.tracker.trace[i]? = some true := by
      rw [hF.processed.trace_eq i hit, reaches_44100_ge hrate hT hk hk2]
    refine ⟨htr, ?_⟩
    obtain ⟨g, d, r, h1, h2, h3⟩ := hF.processed.out_repl i hio htr
    rw [hfr] at h1
    cases h1
    exact ⟨d, r, h2, h3⟩

/-- C4 at the default configuration on 44100 silent frames: all are written, frame number
44099 unchanged and frame number 44100 replaced. -/
theorem C4_threshold_timing_witness :
    (1 ≤ defaultConfig.bytesPerFrame ∧
      Supported defaultConfig.float defaultConfig.bytesPerSample ∧
      defaultConfig.sampleRate = 44100 ∧ defaultConfig.silenceThreshold = 1000000000) ∧
    ∃ st, run defaultConfig alternating
        [.data (List.replicate (44100 * defaultConfig.bytesPerFrame) 0)] = .done st ∧
      st.tracker.out.length = 44100 ∧
      st.tracker.trace[44098]? = some false ∧
      st.tracker.out[44098]? = some (List.replicate defaultConfig.bytesPerFrame 0) ∧
      st.tracker.trace[44099]? = some true ∧
      ∃ d r, generateInaudibleSilence defaultConfig.float defaultConfig.bigEndian
          defaultConfig.bytesPerSample (List.replicate defaultConfig.bytesPerFrame 0)
          alternating d = .done r ∧
        st.tracker.out[44099]? = some r.1 := by
  refine ⟨⟨by decide, by decide, rfl, rfl⟩, ?_⟩
  have hfr : framesOf defaultConfig.bytesPerFrame
      (inputBytes [.data (List.replicate (44100 * defaultConfig.bytesPerFrame) 0)])
      = List.replicate 44100 (List.replicate defaultConfig.bytesPerFrame 0) := by
    rw [inputBytes_single, framesOf_replicate_zero (by decide)]
  have hsil := isSilent_replicate_zero defaultConfig.bytesPerFrame
  have hz : ∀ b ∈ List.replicate defaultConfig.bytesPerFrame 0, b = 0 :=
    fun b hb => List.eq_of_mem_replicate hb
  obtain ⟨_, _, _, _, _, _, _, hin, st, hst, hol, _, h⟩ :=
    C4_threshold_timing defaultConfig alternating
      [.data (List.replicate (44100 * defaultConfig.bytesPerFrame) 0)]
      (by decide) (by decide) rfl rfl
  rw [hfr] at h hol
  rw [List.length_replicate] at hol
  have hk1 : silentRun ((List.replicate 44100
      (List.replicate defaultConfig.bytesPerFrame 0)).take (44098 + 1)) = 44099 := by
    rw [List.take_replicate, silentRun_replicate hsil]
    decide
  have hk2 : silentRun ((List.replicate 44100
      (List.replicate defaultConfig.bytesPerFrame 0)).take (44099 + 1)) = 44100 := by
    rw [List.take_replicate, silentRun_replicate hsil]
    decide
  have h1 := (h 44098 _ (by rw [List.getElem?_replicate, if_pos (by decide)]) hz).1
    (by rw [hk1]; decide)
  have h2 := (h 44099 _ (by rw [List.getElem?_replicate, if_pos (by decide)]) hz).2
    (by rw [hk2]) (by rw [hk2]; exact hin 44100 (by decide))
  exact ⟨st, hst, hol, h1.1, h1.2, h2.1, h2.2⟩

/-! ## C5 -/

/-- C5 (accumulator reset): every run ends, normally or (only with an unsupported format)
in a panic, and for every frame the tracker has handled, all frames of the input in a run
that ends normally, the decision whether to replace it is the one that `k` gives, the
number of consecutive silent frames ending at it (zero for a frame with a non-zero byte),
whatever came before; the frame is written unchanged when the decision is no and replaced
by the output of the synthesizer when it is yes. So when the frames of one input are any
frames, one frame with a non-zero byte and then `n` silent frames, and the frames of
another input are `n` silent frames, the decision for the `k`-th silent frame after the
non-silent one and the decision for the `k`-th frame of the other input are both the one
for a silent run of `k` frames: with a supported format both frames are handled and one
is replaced exactly when the other is. -/
theorem C5_accumulator_reset (cfg : Config) (rng : Nat → Nat) (src : List ReadEvent)
    (hfs : 1 ≤ cfg.bytesPerFrame) :
    (∃ st, (run cfg rng src = .done st ∨ run cfg rng src = .panic st) ∧
      (Supported cfg.float cfg.bytesPerSample → run cfg rng src = .done st) ∧
      (run cfg rng src = .done st →
        st.tracker.trace.length = (framesOf cfg.bytesPerFrame (inputBytes src)).length ∧
        st.tracker.out.length = (framesOf cfg.bytesPerFrame (inputBytes src)).length) ∧
      (∀ (i : Nat), i < st.tracker.trace.length →
        st.tracker.trace[i]? = some (reaches cfg
          (silentRun ((framesOf cfg.bytesPerFrame (inputBytes src)).take (i + 1))))) ∧
      (∀ (i : Nat), i < st.tracker.out.length →
        reaches cfg (silentRun ((framesOf cfg.bytesPerFrame (inputBytes src)).take (i + 1)))
          = false →
        st.tracker.out[i]? = (framesOf cfg.bytesPerFrame (inputBytes src))[i]?) ∧
      (∀ (i : Nat), i < st.tracker.out.length →
        reaches cfg (silentRun ((framesOf cfg.bytesPerFrame (inputBytes src)).take (i + 1)))
          = true →
        ∃ fr d r, (framesOf cfg.bytesPerFrame (inputBytes src))[i]? = some fr ∧
          generateInaudibleSilence cfg.float cfg.bigEndian cfg.bytesPerSample fr rng d
            = .done r ∧
          st.tracker.out[i]? = some r.1)) ∧
    (∀ (src2 : List ReadEvent) (pre : List (List Nat)) (nz z : List Nat) (n k : Nat),
      framesOf cfg.bytesPerFrame (inputBytes src) = pre ++ nz :: List.replicate n z →
      framesOf cfg.bytesPerFrame (inputBytes src2) = List.replicate n z →
      (∃ b ∈ nz, b ≠ 0) → (∀ b ∈ z, b = 0) → 1 ≤ k → k ≤ n →
      ∃ st st2, (run cfg rng src = .done st ∨ run cfg rng src = .panic st) ∧
        (run cfg rng src2 = .done st2 ∨ run cfg rng src2 = .panic st2) ∧
        (pre.length + k < st.tracker.trace.length →
          st.tracker.trace[pre.length + k]? = some (reaches cfg k)) ∧
        (k - 1 < st2.tracker.trace.length →
          st2.tracker.trace[k - 1]? = some (reaches cfg k)) ∧
        (Supported cfg.float cfg.bytesPerSample →
          run cfg rng src = .done st ∧ run cfg rng src2 = .done st2 ∧
          st.tracker.trace[pre.length + k]? = some (reaches cfg k) ∧
          st2.tracker.trace[k - 1]? = some (reaches cfg k))) := by
  constructor
  · obtain ⟨st, hst, hP, hF, hS⟩ := run_ends cfg rng src hfs
    refine ⟨st, hst, hS, fun h => ⟨(hF h).trace_length, (hF h).out_length⟩, hP.trace_eq, ?_, ?_⟩
    · intro i hi hr
      have hit : i < st.tracker.trace.length := by have := hP.out_le; omega
      exact hP.out_pass i hi (by rw [hP.trace_eq i hit, hr])
    · intro i hi hr
      have hit : i < st.tracker.trace.length := by have := hP.out_le; omega
      exact hP.out_repl i hi (by rw [hP.trace_eq i hit, hr])
  · intro src2 pre nz z n k hfr hfr2 hnz hz hk1 hkn
    obtain ⟨st, hst, hP, hF, hS⟩ := run_ends cfg rng src hfs
    obtain ⟨st2, hst2, hP2, hF2, hS2⟩ := run_ends cfg rng src2 hfs
    have hz' := (isSilent_eq_true_iff z).mpr hz
    have hnz' := (isSilent_eq_false_iff nz).mpr hnz
    refine ⟨st, st2, hst, hst2, fun hi => trace_after_reset hP hfr hnz' hz' hkn hi,
      fun hi => trace_from_start hP2 hfr2 hz' hk1 hkn hi, ?_⟩
    intro hs
    have hi : pre.length + k < st.tracker.trace.length := by
      rw [(hF (hS hs)).trace_length, hfr]
      simp only [List.length_append, List.length_cons, List.length_replicate]
      omega
    have hi2 : k - 1 < st2.tracker.trace.length := by
      rw [(hF2 (hS2 hs)).trace_length, hfr2, List.length_replicate]
      omega
    exact ⟨hS hs, hS2 hs, trace_after_reset hP hfr hnz' hz' hkn hi,
      trace_from_start hP2 hfr2 hz' hk1 hkn hi2⟩

/-- C5 at 1 Hz, 16-bit mono, threshold 2s: two silent frames (the second is replaced), a
frame with a non-zero byte, and two silent frames again: the first of them is not
replaced, the second is, exactly as for the two silent frames that start a stream (all
draws are `-1`, a replaced frame is `FF FF`). -/
theorem C5_accumulator_reset_witness :
    (1 ≤ twoSecondConfig.bytesPerFrame ∧
      framesOf twoSecondConfig.bytesPerFrame (inputBytes [.data [0, 0, 0, 0, 1, 0, 0, 0, 0, 0]])
        = [[0, 0], [0, 0]] ++ [1, 0] :: List.replicate 2 [0, 0] ∧
      framesOf twoSecondConfig.bytesPerFrame (inputBytes [.data [0, 0, 0, 0]])
        = List.replicate 2 [0, 0] ∧
      (∃ b ∈ [1, 0], b ≠ 0) ∧ (∀ b ∈ [0, 0], b = 0) ∧ 1 ≤ 2 ∧ 2 ≤ 2 ∧
      Supported twoSecondConfig.float twoSecondConfig.bytesPerSample) ∧
    (∃ st st2,
      run twoSecondConfig allMinusOne [.data [0, 0, 0, 0, 1, 0, 0, 0, 0, 0]] = .done st ∧
      run twoSecondConfig allMinusOne [.data [0, 0, 0, 0]] = .done st2 ∧
      st.tracker.trace[[[0, 0], [0, 0]].length + 2]? = some (reaches twoSecondConfig 2) ∧
      st2.tracker.trace[2 - 1]? = some (reaches twoSecondConfig 2)) ∧
    reaches twoSecondConfig 1 = false ∧ reaches twoSecondConfig 2 = true ∧
    (run twoSecondConfig allMinusOne [.data [0, 0, 0, 0, 1, 0, 0, 0, 0, 0]]).map
        (fun st => (st.tracker.trace, st.tracker.out))
      = .done ([false, true, false, false, true],
          [[0, 0], [255, 255], [1, 0], [0, 0], [255, 255]]) ∧
    (run twoSecondConfig allMinusOne [.data [0, 0, 0, 0]]).map
        (fun st => (st.tracker.trace, st.tracker.out))
      = .done ([false, true], [[0, 0], [255, 255]]) :=
  ⟨⟨by decide, by decide, by decide, by decide, by decide, by decide, by decide, by decide⟩,
    ((C5_accumulator_reset twoSecondConfig allMinusOne
        [.data [0, 0, 0, 0, 1, 0, 0, 0, 0, 0]] (by decide)).2 [.data [0, 0, 0, 0]]
        [[0, 0], [0, 0]] [1, 0] [0, 0] 2 2 (by decide) (by decide) (by decide) (by decide)
        (by decide) (by decide)).imp
      (fun _ h => h.imp (fun _ h2 => h2.2.2.2.2 (by decide))),
    by decide!, by decide!, by decide!, by decide!⟩

/-! ## C6 -/

/-- C6 (silence detection step): for every frame and every prior value `a` of the
accumulator, the update gives `0` when some byte of the frame, at whatever position, is
not zero, and gives the float sum `a + frameNanoseconds` if and only if every byte is
zero; the tracker stores exactly that value; and the update is the same for all
configurations of one sample rate, whatever their sample format and byte order. The
sample rate is a Go `int`, below `2^63`. -/
theorem C6_silence_detection (cfg : Config) (a : F64) (frame : List Nat)
    (hrate : cfg.sampleRate < 2 ^ 63) :
    ((∃ b ∈ frame, b ≠ 0) → updateSilence cfg.frameNanoseconds a frame = F64.zero) ∧
    (updateSilence cfg.frameNanoseconds a frame = a.add cfg.frameNanoseconds ↔
      ∀ b ∈ frame, b = 0) ∧
    (∀ (rng : Nat → Nat) (t : Tracker) (r : Tracker × List Nat),
      t.silentNanoseconds = a →
      trackerStep cfg rng t frame = .done r ∨ trackerStep cfg rng t frame = .panic r →
      r.1.silentNanoseconds = updateSilence cfg.frameNanoseconds a frame) ∧
    (∀ cfg2 : Config, cfg2.sampleRate = cfg.sampleRate →
      updateSilence cfg2.frameNanoseconds a frame
        = updateSilence cfg.frameNanoseconds a frame) := by
  refine ⟨?_, ?_, ?_, ?_⟩
  · intro hnz
    exact updateSilence_of_not_silent _ _ ((isSilent_eq_false_iff frame).mpr hnz)
  · rw [← isSilent_eq_true_iff]
    constructor
    · intro h
      by_contra hc
      rw [updateSilence_of_not_silent _ _ (by simpa using hc)] at h
      exact F64.add_ne_zero a (frameNanoseconds_ne_zero hrate) h.symm
    · intro h
      exact updateSilence_of_silent _ _ h
  · intro rng t r ha hr
    subst ha
    unfold trackerStep at hr
    simp only at hr
    split at hr
    · split at hr
      · rcases hr with hr | hr
        · cases hr; rfl
        · cases hr
      · rcases hr with hr | hr
        · cases hr
        · cases hr; rfl
      · rcases hr with hr | hr <;> cases hr
    · rcases hr with hr | hr
      · cases hr; rfl
      · cases hr
  · intro cfg2 h
    unfold Config.frameNanoseconds
    rw [h]

/-- C6 at the default configuration, for a frame whose last byte is not zero. -/
theorem C6_silence_detection_witness :
    defaultConfig.sampleRate < 2 ^ 63 ∧
    ((∃ b ∈ [0, 0, 0, 3], b ≠ 0) →
      updateSilence defaultConfig.frameNanoseconds (F64.fin oneSecond) [0, 0, 0, 3]
        = F64.zero) :=
  ⟨by decide, (C6_silence_detection defaultConfig (F64.fin oneSecond) [0, 0, 0, 3]
    (by decide)).1⟩

/-! ## C7 -/

/-- C7 as stated fails: one byte of input at two 16-bit channels contains no silent run
at all, and nothing is written. -/
theorem C7_counterexample :
    framesOf defaultConfig.bytesPerFrame (inputBytes [.data [1]]) = [] ∧
    inputBytes [.data [1]] = [1] ∧
    (run defaultConfig alternating [.data [1]]).map (fun st => st.tracker.out.flatten)
      = .done [] := by
  refine ⟨by decide, by decide, by decide⟩

/-- C7 (pass-through), amended: with a positive threshold, when no all-zero frame of the
input ends a silent run that passes the threshold test of line 120, the run reaches the
end of the input, whatever the sample format, and the frames written are the complete
frames of the input, unchanged and in order: the output is the input cut down to whole
frames, and it is the input itself exactly when the input length is a multiple of the
frame size. -/
theorem C7_pass_through (cfg : Config) (rng : Nat → Nat) (src : List ReadEvent)
    (hfs : 1 ≤ cfg.bytesPerFrame) (hT : 0 < cfg.silenceThreshold)
    (hno : ∀ (i : Nat) (fr : List Nat),
      (framesOf cfg.bytesPerFrame (inputBytes src))[i]? = some fr → (∀ b ∈ fr, b = 0) →
      reaches cfg (silentRun ((framesOf cfg.bytesPerFrame (inputBytes src)).take (i + 1)))
        = false) :
    ∃ st, run cfg rng src = .done st ∧
      st.tracker.out = framesOf cfg.bytesPerFrame (inputBytes src) ∧
      st.tracker.out.flatten
        = (inputBytes src).take ((inputBytes src).length / cfg.bytesPerFrame
            * cfg.bytesPerFrame) ∧
      (st.tracker.out.flatten = inputBytes src ↔
        cfg.bytesPerFrame ∣ (inputBytes src).length) := by
  obtain ⟨st, hst, hout⟩ := run_of_no_reach cfg rng src hfs (no_reach_of_silent hT hno)
  have hflat := framesOf_flatten cfg.bytesPerFrame hfs _ (inputBytes src) rfl
  refine ⟨st, hst, hout, ?_, ?_⟩
  · rw [hout, hflat]
  · rw [hout, hflat]
    constructor
    · intro h
      have hl := congrArg List.length h
      rw [List.length_take] at hl
      have hle := Nat.div_mul_le_self (inputBytes src).length cfg.bytesPerFrame
      rw [Nat.min_eq_left hle] at hl
      exact ⟨(inputBytes src).length / cfg.bytesPerFrame, by rw [Nat.mul_comm]; exact hl.symm⟩
    · intro hdvd
      rw [Nat.div_mul_cancel hdvd, List.take_length]

/-- C7 at the default configuration: a frame with a non-zero byte, a silent frame (a
silent run of one frame, far below one second) and one more byte, read in two pieces; the
two frames are written unchanged and the odd byte is dropped. -/
theorem C7_pass_through_witness :
    (1 ≤ defaultConfig.bytesPerFrame ∧ 0 < defaultConfig.silenceThreshold ∧
      ∀ (i : Nat) (fr : List Nat),
        (framesOf defaultConfig.bytesPerFrame
          (inputBytes [.data [1, 0, 0, 0, 0, 0], .data [0, 0, 7]]))[i]? = some fr →
        (∀ b ∈ fr, b = 0) →
        reaches defaultConfig (silentRun ((framesOf defaultConfig.bytesPerFrame
          (inputBytes [.data [1, 0, 0, 0, 0, 0], .data [0, 0, 7]])).take (i + 1))) = false) ∧
    ∃ st, run defaultConfig alternating [.data [1, 0, 0, 0, 0, 0], .data [0, 0, 7]] = .done st ∧
      st.tracker.out = [[1, 0, 0, 0], [0, 0, 0, 0]] :=
  have hno : ∀ (i : Nat) (fr : List Nat),
      (framesOf defaultConfig.bytesPerFrame
        (inputBytes [.data [1, 0, 0, 0, 0, 0], .data [0, 0, 7]]))[i]? = some fr →
      (∀ b ∈ fr, b = 0) →
      reaches defaultConfig (silentRun ((framesOf defaultConfig.bytesPerFrame
        (inputBytes [.data [1, 0, 0, 0, 0, 0], .data [0, 0, 7]])).take (i + 1))) = false :=
    fun i _ _ _ => reaches_44100_lt rfl rfl
      (lt_of_le_of_lt (silentRun_le_length _)
        (lt_of_le_of_lt (List.take_sublist _ _).length_le (by decide)))
  ⟨⟨by decide, by decide, hno⟩,
    (C7_pass_through defaultConfig alternating [.data [1, 0, 0, 0, 0, 0], .data [0, 0, 7]]
      (by decide) (by decide) hno).imp (fun _ h => ⟨h.1, h.2.1.trans (by decide)⟩)⟩

/-! ## C8 -/

/-- C8 (integer format correctness): with `float = false`, `bytesPerSample` one of 1, 2, 4,
either byte order, a buffer of whole samples and any draws, the synthesizer ends normally,
keeps the length of the buffer, and every sample slot read back in the configured byte
order as a signed integer of that width is the drawn value, `0` or `-1`; its bytes are
all `00` or all `FF` (for two bytes: `00 00` or `FF FF`). -/
theorem C8_integer_format (bigEndian : Bool) (bytesPerSample : Nat) (b : List Nat)
    (rng : Nat → Nat) (draws : Nat)
    (hb : bytesPerSample = 1 ∨ bytesPerSample = 2 ∨ bytesPerSample = 4)
    (hdvd : bytesPerSample ∣ b.length) :
    ∃ r, generateInaudibleSilence false bigEndian bytesPerSample b rng draws = .done r ∧
      r.1.length = b.length ∧
      ∀ i, i < b.length / bytesPerSample →
        readInt bigEndian (slot bytesPerSample i r.1) = drawValue rng (draws + i) ∧
        (readInt bigEndian (slot bytesPerSample i r.1) = 0 ∨
          readInt bigEndian (slot bytesPerSample i r.1) = -1) ∧
        (slot bytesPerSample i r.1 = List.replicate bytesPerSample 0 ∨
          slot bytesPerSample i r.1 = List.replicate bytesPerSample 255) := by
  have hs : Supported false bytesPerSample := Or.inl ⟨rfl, hb⟩
  obtain ⟨r, hr⟩ := generateInaudibleSilence_supported bigEndian hs b rng draws
  refine ⟨r, hr, generateInaudibleSilence_length hr, ?_⟩
  intro i hi
  rw [slot_generateInaudibleSilence bigEndian hs hdvd rng draws hr hi]
  have hd := drawValue_cases rng (draws + i)
  obtain ⟨h1, h2⟩ := readInt_sampleBytes_int bigEndian hb hd
  refine ⟨h1, ?_, h2⟩
  rw [h1]
  rcases hd with h | h <;> rw [h] <;> simp

/-- C8 for 16-bit little-endian samples: a buffer of two samples, draws `-1` then `0`. -/
theorem C8_integer_format_witness :
    ((2 = 1 ∨ 2 = 2 ∨ 2 = 4) ∧ 2 ∣ [9, 9, 9, 9].length) ∧
    ∃ r, generateInaudibleSilence false false 2 [9, 9, 9, 9] alternating 0 = .done r ∧
      r.1.length = [9, 9, 9, 9].length ∧
      ∀ i, i < [9, 9, 9, 9].length / 2 →
        readInt false (slot 2 i r.1) = drawValue alternating (0 + i) ∧
        (readInt false (slot 2 i r.1) = 0 ∨ readInt false (slot 2 i r.1) = -1) ∧
        (slot 2 i r.1 = List.replicate 2 0 ∨ slot 2 i r.1 = List.replicate 2 255) :=
  ⟨⟨by decide, by decide⟩,
    C8_integer_format false 2 [9, 9, 9, 9] alternating 0 (by decide) (by decide)⟩

/-! ## C9 -/

/-- C9 (float format correctness) fails on the code: the constants, rounded to their
width, are the subnormals `0x007FFFFD` (three steps below `2^-126`) and
`0x000FFFFFFFFFFFFF` (one step below `2^-1022`), not the smallest normal numbers
`0x00800000` and `0x0010000000000000`; a sample drawn as `-1` is written as
`FD FF 7F 80` (32-bit little-endian) and `FF FF FF FF FF FF 0F 80` (64-bit), where the
negated smallest normal would be `00 00 80 80` and `00 00 00 00 00 00 10 80`. -/
theorem C9_float_constants :
    tiniestPositiveFloat32 = 2 ^ 23 - 3 ∧
    tiniestPositiveFloat64 = 2 ^ 52 - 1 ∧
    floatBits 24 32 false tiniestPositiveFloat32 = 0x007FFFFD ∧
    floatBits 53 64 false tiniestPositiveFloat64 = 0x000FFFFFFFFFFFFF ∧
    floatBits 24 32 false (2 ^ 23) = 0x00800000 ∧
    floatBits 53 64 false (2 ^ 52) = 0x0010000000000000 ∧
    generateInaudibleSilence true false 4 [0, 0, 0, 0] allMinusOne 0
      = .done ([0xFD, 0xFF, 0x7F, 0x80], 1) ∧
    generateInaudibleSilence true false 8 [0, 0, 0, 0, 0, 0, 0, 0] allMinusOne 0
      = .done ([0xFF, 0xFF, 0xFF, 0xFF, 0xFF, 0xFF, 0x0F, 0x80], 1) ∧
    putUint false 4 (floatBits 24 32 true (2 ^ 23)) = [0x00, 0x00, 0x80, 0x80] ∧
    putUint false 8 (floatBits 53 64 true (2 ^ 52))
      = [0x00, 0x00, 0x00, 0x00, 0x00, 0x00, 0x10, 0x80] := by
  refine ⟨?_, ?_, ?_, ?_, ?_, ?_, ?_, ?_, ?_, ?_⟩ <;> decide!

/-! ## C10 -/

/-- C10 (byte-order sensitivity): for every value and width the bytes `binary.Write` puts
with the big-endian order are the bytes it puts with the little-endian order, reversed;
so for every supported format and every buffer of whole samples each sample slot written
with `bigEndian = true` is the reversal of the slot written with `bigEndian = false`
under the same draws, a 16-bit `-1` being `FF FF` either way and an 8-bit sample being
the same byte. -/
theorem C10_byte_order (float : Bool) (bytesPerSample : Nat) (b : List Nat)
    (rng : Nat → Nat) (draws : Nat) (hs : Supported float bytesPerSample)
    (hdvd : bytesPerSample ∣ b.length) :
    (∀ n v, putUint true n v = (putUint false n v).reverse) ∧
    (∀ r, encodeSample float true bytesPerSample r
        = (encodeSample float false bytesPerSample r).map List.reverse) ∧
    (∃ rbe rle,
      generateInaudibleSilence float true bytesPerSample b rng draws = .done rbe ∧
      generateInaudibleSilence float false bytesPerSample b rng draws = .done rle ∧
      ∀ i, i < b.length / bytesPerSample →
        slot bytesPerSample i rbe.1 = (slot bytesPerSample i rle.1).reverse) ∧
    putUint true 2 (toUint 16 (-1)) = [0xFF, 0xFF] ∧
    putUint false 2 (toUint 16 (-1)) = [0xFF, 0xFF] ∧
    putUint true 2 0x1234 = [0x12, 0x34] ∧ putUint false 2 0x1234 = [0x34, 0x12] := by
  refine ⟨?_, ?_, ?_, by decide, by decide, by decide, by decide⟩
  · intro n v
    simp [putUint, putBigEndian_eq_reverse]
  · intro r
    rw [encodeSample_eq_some hs, encodeSample_eq_some hs, Option.map_some',
      sampleBytes_bigEndian]
  · obtain ⟨rbe, hbe⟩ := generateInaudibleSilence_supported true hs b rng draws
    obtain ⟨rle, hle⟩ := generateInaudibleSilence_supported false hs b rng draws
    refine ⟨rbe, rle, hbe, hle, ?_⟩
    intro i hi
    rw [slot_generateInaudibleSilence true hs hdvd rng draws hbe hi,
      slot_generateInaudibleSilence false hs hdvd rng draws hle hi, sampleBytes_bigEndian]

/-- C10 for 32-bit floats: the two byte orders on one sample drawn as `-1`. -/
theorem C10_byte_order_witness :
    (Supported true 4 ∧ 4 ∣ [0, 0, 0, 0].length) ∧
    ∃ rbe rle,
      generateInaudibleSilence true true 4 [0, 0, 0, 0] allMinusOne 0 = .done rbe ∧
      generateInaudibleSilence true false 4 [0, 0, 0, 0] allMinusOne 0 = .done rle ∧
      ∀ i, i < [0, 0, 0, 0].length / 4 → slot 4 i rbe.1 = (slot 4 i rle.1).reverse :=
  ⟨⟨by decide, by decide⟩,
    (C10_byte_order true 4 [0, 0, 0, 0] allMinusOne 0 (by decide) (by decide)).2.2.1⟩

/-! ## C11 -/

/-- C11 (configuration rejection) fails on the code: nothing checks the combination of
`--float` and `--bits` before the loop. With `--bits 24` and an input of one frame with a
non-zero byte the program processes the frame, writes it and ends normally; with
`--bits 24` or with `--bits 64` without `--float` and two silent frames at a threshold of
two frame durations, the first frame is processed and written and the program panics at
the second, in the middle of the stream. For every unsupported combination an input
without a silent run that reaches the threshold is processed to its end. -/
theorem C11_unsupported_not_rejected :
    ¬ Supported config24.float config24.bytesPerSample ∧
    ¬ Supported config64.float config64.bytesPerSample ∧
    (run config24 alternating [.data [1, 2, 3]]).map (fun st => st.tracker.out)
      = .done [[1, 2, 3]] ∧
    (run config24 alternating [.data [0, 0, 0, 0, 0, 0]]).map
        (fun st => (st.tracker.out, st.tracker.trace))
      = .panic ([[0, 0, 0]], [false, true]) ∧
    (run config64 alternating [.data [0, 0, 0, 0, 0, 0, 0, 0, 0, 0, 0, 0, 0, 0, 0, 0]]).map
        (fun st => (st.tracker.out, st.tracker.trace))
      = .panic ([[0, 0, 0, 0, 0, 0, 0, 0]], [false, true]) ∧
    (∀ (cfg : Config) (rng : Nat → Nat) (src : List ReadEvent), 1 ≤ cfg.bytesPerFrame →
      ¬ Supported cfg.float cfg.bytesPerSample →
      (∀ i, i < (framesOf cfg.bytesPerFrame (inputBytes src)).length →
        reaches cfg (silentRun ((framesOf cfg.bytesPerFrame (inputBytes src)).take (i + 1)))
          = false) →
      ∃ st, run cfg rng src = .done st ∧
        st.tracker.out = framesOf cfg.bytesPerFrame (inputBytes src)) := by
  refine ⟨by decide, by decide, by decide!, by decide!, by decide!, ?_⟩
  intro cfg rng src hfs _ hno
  exact run_of_no_reach cfg rng src hfs hno

/-! ## C12 -/

/-- C12 (read errors are fatal) fails on the code: the loop compares the error of a read
with `io.EOF` only. A read that returns another error is treated as a read of no bytes:
on the reads `1 2`, error, `3 4` at four bytes a frame the loop reads on after the error,
completes the frame, processes it and writes it; in general the run is the run on the
same reads with the failing ones left out. -/
theorem C12_read_error_ignored :
    (run defaultConfig alternating [.data [1, 2], .fail, .data [3, 4]]).map
        (fun st => (st.tracker.out, st.readByteCount))
      = .done ([[1, 2, 3, 4]], 4) ∧
    mainLoop defaultConfig alternating 3
        { src := [.fail, .data [3, 4]], readBytes := [1, 2, 0, 0], offset := 2,
          readByteCount := 2, tracker := initTracker }
      = mainLoop defaultConfig alternating 2
        { src := [.data [3, 4]], readBytes := [1, 2, 0, 0], offset := 2,
          readByteCount := 2, tracker := initTracker } ∧
    (∀ (cfg : Config) (rng : Nat → Nat) (src : List ReadEvent), 1 ≤ cfg.bytesPerFrame →
      (run cfg rng src).map State.tracker
        = (run cfg rng (dropFailed src)).map State.tracker) := by
  refine ⟨by decide, by decide, ?_⟩
  intro cfg rng src hfs
  exact (run_congr cfg rng hfs (inputBytes_dropFailed src)).symm

/-! ## C13 -/

/-- C13 (write errors are fatal) fails on the code for the final `wbuf.Flush`: its result
is dropped at line 134, so how `main` ends never depends on it, and on a sink whose
`wbuf.Write` calls all succeed and whose `wbuf.Flush` fails every run that reaches the
end of the stream completes normally and logs its statistics (4 bytes of input at the
default settings: `.reported 4 0`). The part about `wbuf.Write` holds: in a run that
would write `n` frames, an error from any of the first `n` calls of `wbuf.Write` ends
`main` in `log.Fatal`, with no statistics. -/
theorem C13_flush_error_ignored :
    (∀ (cfg : Config) (rng : Nat → Nat) (w : Nat → Bool) (src : List ReadEvent),
      main cfg rng { writeFails := w, flushFails := true } src
        = main cfg rng { writeFails := w, flushFails := false } src) ∧
    (∀ (cfg : Config) (rng : Nat → Nat) (src : List ReadEvent) (st : State),
      run cfg rng src = .done st →
      main cfg rng flushFailingSink src
        = .reported st.readByteCount st.tracker.generatedFakeSilenceByteCount) ∧
    flushFailingSink.flushFails = true ∧
    main defaultConfig alternating flushFailingSink [.data [1, 2, 3, 4]] = .reported 4 0 ∧
    (∀ (cfg : Config) (rng : Nat → Nat) (sink : Sink) (src : List ReadEvent) (st : State),
      run cfg rng src = .done st →
      (∃ i, i < st.tracker.out.length ∧ sink.writeFails i = true) →
      main cfg rng sink src = .fatal) ∧
    main defaultConfig alternating writeFailingSink [.data [1, 2, 3, 4]] = .fatal := by
  refine ⟨fun cfg rng w src => main_flush_irrelevant cfg rng w true false src, ?_, rfl,
    by decide, ?_, by decide⟩
  · intro cfg rng src st h
    exact (mainFrom_of_done cfg rng flushFailingSink _ _ _ h).1 (fun _ _ _ => rfl)
  · rintro cfg rng sink src st h ⟨i, hi, hw⟩
    exact (mainFrom_of_done cfg rng sink _ _ _ h).2 ⟨i, Nat.zero_le _, hi, hw⟩

/-! ## C14 -/

/-- C14 (frame re-assembly is independent of read chunking): for every input and every
frame size of at least one byte the loop is the tracker applied, one after the other and
in order, to the consecutive slices of frame size of the concatenated input, however the
input is split into reads (reads of no bytes, failing reads and reads shorter than the
rest of the frame included); so two inputs with the same bytes give the same tracker at
the end, the same writes above all, under the same draws. -/
theorem C14_chunking_independent (cfg : Config) (rng : Nat → Nat) (src : List ReadEvent)
    (hfs : 1 ≤ cfg.bytesPerFrame) :
    (run cfg rng src).map State.tracker
      = processFrames cfg rng initTracker (framesOf cfg.bytesPerFrame (inputBytes src)) ∧
    (∀ src2, inputBytes src2 = inputBytes src →
      (run cfg rng src2).map State.tracker = (run cfg rng src).map State.tracker ∧
      (run cfg rng src2).map (fun st => st.tracker.out)
        = (run cfg rng src).map (fun st => st.tracker.out)) := by
  refine ⟨run_refines cfg rng src hfs, ?_⟩
  intro src2 h
  have hc := run_congr cfg rng hfs h
  refine ⟨hc, ?_⟩
  cases h1 : run cfg rng src <;> cases h2 : run cfg rng src2 <;>
    simp_all [Outcome.map]

/-- C14 at 16-bit mono, 1 Hz, threshold 1s: four silent bytes read as two, none, one and
one. The first frame is replaced by `FF FF`; the second is tested on its own bytes, found
silent and replaced, as when the four bytes come in one read. -/
theorem C14_chunking_independent_witness :
    1 ≤ monoConfig.bytesPerFrame ∧
    inputBytes [.data [0, 0], .data [], .data [0], .data [0]] = inputBytes [.data [0, 0, 0, 0]] ∧
    (run monoConfig alternating [.data [0, 0], .data [], .data [0], .data [0]]).map
        (fun st => st.tracker.out)
      = (run monoConfig alternating [.data [0, 0, 0, 0]]).map (fun st => st.tracker.out) ∧
    (run monoConfig alternating [.data [0, 0, 0, 0]]).map
        (fun st => (st.tracker.out, st.tracker.trace))
      = .done ([[255, 255], [0, 0]], [true, true]) :=
  ⟨by decide, by decide,
    ((C14_chunking_independent monoConfig alternating [.data [0, 0, 0, 0]] (by decide)).2
      [.data [0, 0], .data [], .data [0], .data [0]] (by decide)).2,
    by decide!⟩

/-! ## C15 -/

/-- C15 (synthesis is total exactly on the supported table): for every float flag, byte
order, `bytesPerSample`, buffer and draws, `generateInaudibleSilence` panics if and only
if the buffer is not empty and `(float, bytesPerSample)` is none of `(false, 1)`,
`(false, 2)`, `(false, 4)`, `(true, 4)`, `(true, 8)`; for those five it ends normally, and
it never runs out of fuel. -/
theorem C15_synthesis_total (float bigEndian : Bool) (bytesPerSample : Nat) (b : List Nat)
    (rng : Nat → Nat) (draws : Nat) :
    ((∃ s, generateInaudibleSilence float bigEndian bytesPerSample b rng draws = .panic s) ↔
      (b ≠ [] ∧ ¬ ((float = false ∧ (bytesPerSample = 1 ∨ bytesPerSample = 2 ∨
          bytesPerSample = 4)) ∨ (float = true ∧ (bytesPerSample = 4 ∨ bytesPerSample = 8))))) ∧
    (((float = false ∧ (bytesPerSample = 1 ∨ bytesPerSample = 2 ∨ bytesPerSample = 4)) ∨
        (float = true ∧ (bytesPerSample = 4 ∨ bytesPerSample = 8))) →
      ∃ r, generateInaudibleSilence float bigEndian bytesPerSample b rng draws = .done r) ∧
    generateInaudibleSilence float bigEndian bytesPerSample b rng draws ≠ .outOfFuel :=
  ⟨generateInaudibleSilence_panic_iff float bigEndian bytesPerSample b rng draws,
    fun hs => generateInaudibleSilence_supported bigEndian hs b rng draws,
    generateInaudibleSilence_ne_outOfFuel float bigEndian bytesPerSample b rng draws⟩

/-! ## C16 -/

/-- C16 (one draw per sample slot, whole frame overwritten): for every supported format,
either byte order, any draws and every buffer `b` whose length is a multiple of
`bytesPerSample`, `generateInaudibleSilence` ends normally; it has then made
`len(b)/bytesPerSample` further draws (for a frame of `channels` samples: `channels`
draws), the buffer has the length it had, slot `i` holds exactly the bytes the `switch`
writes for draw number `draws + i`, the buffer is these slots one after the other, and
the same result comes out of every other buffer of the same length. -/
theorem C16_one_draw_per_slot (float bigEndian : Bool) (bytesPerSample : Nat) (b : List Nat)
    (rng : Nat → Nat) (draws : Nat) (hs : Supported float bytesPerSample)
    (hdvd : bytesPerSample ∣ b.length) :
    ∃ r, generateInaudibleSilence float bigEndian bytesPerSample b rng draws = .done r ∧
      r.2 = draws + b.length / bytesPerSample ∧
      (∀ channels, b.length = channels * bytesPerSample → r.2 = draws + channels) ∧
      r.1.length = b.length ∧
      (∀ i, i < b.length / bytesPerSample →
        encodeSample float bigEndian bytesPerSample (drawValue rng (draws + i))
          = some (slot bytesPerSample i r.1)) ∧
      r.1 = ((List.range (b.length / bytesPerSample)).map
              (fun i => slot bytesPerSample i r.1)).flatten ∧
      ∀ b2 : List Nat, b2.length = b.length →
        generateInaudibleSilence float bigEndian bytesPerSample b2 rng draws = .done r := by
  have heq := generateInaudibleSilence_eq bigEndian hs hdvd rng draws
  have hslot : ∀ i, i < b.length / bytesPerSample →
      slot bytesPerSample i
        ((List.range (b.length / bytesPerSample)).map
          (fun j => sampleBytes float bigEndian bytesPerSample
            (drawValue rng (draws + j)))).flatten
        = sampleBytes float bigEndian bytesPerSample (drawValue rng (draws + i)) :=
    fun i hi => slot_generateInaudibleSilence bigEndian hs hdvd rng draws heq hi
  refine ⟨_, heq, rfl, ?_, generateInaudibleSilence_length heq, ?_, ?_, ?_⟩
  · intro channels hc
    simp only
    rw [hc, Nat.mul_div_cancel _ hs.pos]
  · intro i hi
    simp only
    rw [hslot i hi, encodeSample_eq_some hs]
  · simp only
    congr 1
    apply List.map_congr_left
    intro i hi
    exact (hslot i (List.mem_range.mp hi)).symm
  · intro b2 h2
    have := generateInaudibleSilence_eq bigEndian hs (b := b2) (by rw [h2]; exact hdvd) rng draws
    rw [h2] at this
    exact this

/-- C16 for a stereo frame of 16-bit little-endian samples: two draws, `-1` then `0`, and
nothing of the old contents is left. -/
theorem C16_one_draw_per_slot_witness :
    (Supported false 2 ∧ 2 ∣ [1, 2, 3, 4].length) ∧
    ∃ r, generateInaudibleSilence false false 2 [1, 2, 3, 4] alternating 0 = .done r ∧
      r.2 = 0 + [1, 2, 3, 4].length / 2 ∧
      (∀ channels, [1, 2, 3, 4].length = channels * 2 → r.2 = 0 + channels) ∧
      r.1.length = [1, 2, 3, 4].length ∧
      (∀ i, i < [1, 2, 3, 4].length / 2 →
        encodeSample false false 2 (drawValue alternating (0 + i)) = some (slot 2 i r.1)) ∧
      r.1 = ((List.range ([1, 2, 3, 4].length / 2)).map (fun i => slot 2 i r.1)).flatten ∧
      ∀ b2 : List Nat, b2.length = [1, 2, 3, 4].length →
        generateInaudibleSilence false false 2 b2 alternating 0 = .done r :=
  ⟨⟨by decide, by decide⟩,
    C16_one_draw_per_slot false false 2 [1, 2, 3, 4] alternating 0 (by decide) (by decide)⟩

/-! ## C17 -/

/-- C17 as stated fails: at 1 Hz with the threshold 0 and 8-bit mono samples (a supported
format), the accumulator after `2^34` silent frames is `2^63` ns or more, the conversion
to `time.Duration` leaves the range of `int64`, the test at line 120 fails where the
conversion gives the smallest `int64`, and the last frame is written unchanged. -/
theorem C17_counterexample :
    zeroThresholdConfig.silenceThreshold ≤ 0 ∧
    Supported zeroThresholdConfig.float zeroThresholdConfig.bytesPerSample ∧
    ∃ st, run zeroThresholdConfig alternating
        [.data (List.replicate (2 ^ 34 * zeroThresholdConfig.bytesPerFrame) 0)] = .done st ∧
      st.tracker.trace.length = 2 ^ 34 ∧
      st.tracker.trace.getLast? = some false ∧
      st.tracker.out.getLast? = some [0] := by
  have hov := reaches_of_overflow zeroThresholdConfig (f := oneSecond)
    (d := oneSecond - 2 ^ 1083) (k := 2 ^ 34) frameNanoseconds_zeroThreshold (by decide!)
    (by decide!) (by decide)
  obtain ⟨st, hst, hlen, hlast, _, hout⟩ :=
    run_silence zeroThresholdConfig alternating (n := 2 ^ 34) (by decide) (by decide)
      (by decide)
  refine ⟨by decide, by decide, st, hst, hlen, ?_, ?_⟩
  · rw [hlast, hov.1]
  · rw [hout hov.1]; rfl

/-- C17 (a threshold of zero or less replaces everything), amended: with a threshold of
zero or less, a supported format and frames of at least one byte, the run ends normally
having handled every complete frame of the input, and frame `i` is replaced by the output
of the synthesizer whenever the accumulator at that frame (the float sum of the frame
durations of the silent run ending there) is below `2^63` ns, or the platform gives for a
conversion out of range a value that is not below the threshold. That is so for every
frame with a non-zero byte, whose accumulator is 0, and at 44100 Hz for every frame of an
input of up to `3 * 10^14` frames: then every frame is replaced. -/
theorem C17_zero_threshold (cfg : Config) (rng : Nat → Nat) (src : List ReadEvent)
    (hfs : 1 ≤ cfg.bytesPerFrame) (hs : Supported cfg.float cfg.bytesPerSample)
    (hT : cfg.silenceThreshold ≤ 0) :
    ∃ st, run cfg rng src = .done st ∧
      st.tracker.trace.length = (framesOf cfg.bytesPerFrame (inputBytes src)).length ∧
      st.tracker.out.length = (framesOf cfg.bytesPerFrame (inputBytes src)).length ∧
      (∀ (i : Nat) (fr : List Nat),
        (framesOf cfg.bytesPerFrame (inputBytes src))[i]? = some fr →
        ((accK cfg.frameNanoseconds
            (silentRun ((framesOf cfg.bytesPerFrame (inputBytes src)).take (i + 1)))).InInt64 ∨
          cfg.silenceThreshold ≤ cfg.convOverflow) →
        st.tracker.trace[i]? = some true ∧
        ∃ d r, generateInaudibleSilence cfg.float cfg.bigEndian cfg.bytesPerSample fr rng d
            = .done r ∧ st.tracker.out[i]? = some r.1) ∧
      (∀ (i : Nat) (fr : List Nat),
        (framesOf cfg.bytesPerFrame (inputBytes src))[i]? = some fr → (∃ b ∈ fr, b ≠ 0) →
        st.tracker.trace[i]? = some true ∧
        ∃ d r, generateInaudibleSilence cfg.float cfg.bigEndian cfg.bytesPerSample fr rng d
            = .done r ∧ st.tracker.out[i]? = some r.1) ∧
      (cfg.sampleRate = 44100 →
        (framesOf cfg.bytesPerFrame (inputBytes src)).length ≤ 3 * 10 ^ 14 →
        ∀ (i : Nat) (fr : List Nat),
          (framesOf cfg.bytesPerFrame (inputBytes src))[i]? = some fr →
          st.tracker.trace[i]? = some true ∧
          ∃ d r, generateInaudibleSilence cfg.float cfg.bigEndian cfg.bytesPerSample fr rng d
              = .done r ∧ st.tracker.out[i]? = some r.1) := by
  obtain ⟨st, hst, hF⟩ := run_supported cfg rng src hfs hs
  have hmain : ∀ (i : Nat) (fr : List Nat),
      (framesOf cfg.bytesPerFrame (inputBytes src))[i]? = some fr →
      ((accK cfg.frameNanoseconds
          (silentRun ((framesOf cfg.bytesPerFrame (inputBytes src)).take (i + 1)))).InInt64 ∨
        cfg.silenceThreshold ≤ cfg.convOverflow) →
      st.tracker.trace[i]? = some true ∧
      ∃ d r, generateInaudibleSilence cfg.float cfg.bigEndian cfg.bytesPerSample fr rng d
          = .done r ∧ st.tracker.out[i]? = some r.1 := by
    intro i fr hfr hin
    have hi : i < (framesOf cfg.bytesPerFrame (inputBytes src)).length := by
      by_contra hc
      rw [List.getElem?_eq_none (by omega)] at hfr
      cases hfr
    have htr : st.tracker.trace[i]? = some true := by
      rw [hF.processed.trace_eq i (by rw [hF.trace_length]; exact hi),
        reaches_of_nonpos hT hin]
    refine ⟨htr, ?_⟩
    obtain ⟨g, d, r, h1, h2, h3⟩ :=
      hF.processed.out_repl i (by rw [hF.out_length]; exact hi) htr
    rw [hfr] at h1
    cases h1
    exact ⟨d, r, h2, h3⟩
  refine ⟨st, hst, hF.trace_length, hF.out_length, hmain, ?_, ?_⟩
  · intro i fr hfr hnz
    apply hmain i fr hfr
    left
    rw [silentRun_of_not_silent hfr ((isSilent_eq_false_iff fr).mpr hnz)]
    exact accK_zero_inInt64 _
  · intro hrate hlen i fr hfr
    apply hmain i fr hfr
    left
    apply inInt64_44100 hrate
    have h1 : silentRun ((framesOf cfg.bytesPerFrame (inputBytes src)).take (i + 1))
        ≤ ((framesOf cfg.bytesPerFrame (inputBytes src)).take (i + 1)).length :=
      silentRun_le_length _
    have h2 := (List.take_sublist (i + 1)
      (framesOf cfg.bytesPerFrame (inputBytes src))).length_le
    exact le_trans h1 (le_trans h2 hlen)

/-- C17 at the default format with the threshold 0: a frame with a non-zero byte and a
silent frame, both replaced, draws `-1, 0, -1, 0`. -/
theorem C17_zero_threshold_witness :
    (1 ≤ defaultZeroConfig.bytesPerFrame ∧
      Supported defaultZeroConfig.float defaultZeroConfig.bytesPerSample ∧
      defaultZeroConfig.silenceThreshold ≤ 0) ∧
    (∃ st, run defaultZeroConfig alternating [.data [1, 2, 3, 4, 0, 0, 0, 0]] = .done st ∧
      st.tracker.trace.length
        = (framesOf defaultZeroConfig.bytesPerFrame
            (inputBytes [.data [1, 2, 3, 4, 0, 0, 0, 0]])).length) ∧
    (run defaultZeroConfig alternating [.data [1, 2, 3, 4, 0, 0, 0, 0]]).map
        (fun st => (st.tracker.out, st.tracker.trace))
      = .done ([[255, 255, 0, 0], [255, 255, 0, 0]], [true, true]) :=
  ⟨⟨by decide, by decide, by decide⟩,
    (C17_zero_threshold defaultZeroConfig alternating [.data [1, 2, 3, 4, 0, 0, 0, 0]]
      (by decide) (by decide) (by decide)).imp (fun _ h => ⟨h.1, h.2.1⟩),
    by decide!⟩

/-! ## C18 -/

/-- C18 (replacement can still be digital silence): for every supported format, either
byte order and every buffer, under the draws in which `rand.Intn(2)` always returns `1`
every sample value is `0` and `generateInaudibleSilence` ends normally with a buffer of
the same length in which every byte is zero; a buffer that was all zero comes out
unchanged. -/
theorem C18_all_zero_draws (float bigEndian : Bool) (bytesPerSample : Nat) (b : List Nat)
    (draws : Nat) (hs : Supported float bytesPerSample) :
    (∀ d, allZero d % 2 = 1 ∧ drawValue allZero d = 0) ∧
    ∃ r, generateInaudibleSilence float bigEndian bytesPerSample b allZero draws = .done r ∧
      r.1 = List.replicate b.length 0 ∧ isSilent r.1 = true ∧
      (isSilent b = true → r.1 = b) := by
  refine ⟨fun d => ⟨rfl, drawValue_allZero d⟩, _,
    generateInaudibleSilence_allZero bigEndian hs b draws, rfl, ?_, ?_⟩
  · exact isSilent_replicate_zero _
  · intro h
    exact (eq_replicate_of_isSilent h).symm

/-- C18 for a silent stereo frame of 32-bit big-endian floats: the replacement is the
frame itself. -/
theorem C18_all_zero_draws_witness :
    Supported true 4 ∧
    ((∀ d, allZero d % 2 = 1 ∧ drawValue allZero d = 0) ∧
    ∃ r, generateInaudibleSilence true true 4 [0, 0, 0, 0, 0, 0, 0, 0] allZero 0 = .done r ∧
      r.1 = List.replicate [0, 0, 0, 0, 0, 0, 0, 0].length 0 ∧ isSilent r.1 = true ∧
      (isSilent [0, 0, 0, 0, 0, 0, 0, 0] = true → r.1 = [0, 0, 0, 0, 0, 0, 0, 0])) :=
  ⟨by decide, C18_all_zero_draws true true 4 [0, 0, 0, 0, 0, 0, 0, 0] 0 (by decide)⟩

/-! ## C19 -/

/-- C19 (integer output ignores byte order): with `float = false`, `bytesPerSample` one of
1, 2, 4, every buffer and all draws, `generateInaudibleSilence` gives the same result with
`bigEndian = true` as with `bigEndian = false`, every sample being written as
`bytesPerSample` bytes `00` or `bytesPerSample` bytes `FF` in either order; whenever the
two byte orders give different results the format is a float format, and for 32-bit
floats they do differ. -/
theorem C19_integer_ignores_order (bytesPerSample : Nat) (b : List Nat) (rng : Nat → Nat)
    (draws : Nat) (hb : bytesPerSample = 1 ∨ bytesPerSample = 2 ∨ bytesPerSample = 4) :
    generateInaudibleSilence false true bytesPerSample b rng draws
      = generateInaudibleSilence false false bytesPerSample b rng draws ∧
    (∃ r, generateInaudibleSilence false true bytesPerSample b rng draws = .done r) ∧
    (∀ (bigEndian : Bool) (d : Nat),
      encodeSample false bigEndian bytesPerSample (drawValue rng d)
          = some (List.replicate bytesPerSample 0) ∨
      encodeSample false bigEndian bytesPerSample (drawValue rng d)
          = some (List.replicate bytesPerSample 255)) ∧
    (∀ (float : Bool) (bps : Nat) (b2 : List Nat) (rng2 : Nat → Nat) (d : Nat),
      generateInaudibleSilence float true bps b2 rng2 d
        ≠ generateInaudibleSilence float false bps b2 rng2 d → float = true) ∧
    generateInaudibleSilence true true 4 [0, 0, 0, 0] allMinusOne 0
      = .done ([0x80, 0x7F, 0xFF, 0xFD], 1) ∧
    generateInaudibleSilence true false 4 [0, 0, 0, 0] allMinusOne 0
      = .done ([0xFD, 0xFF, 0x7F, 0x80], 1) := by
  have hs : Supported false bytesPerSample := Or.inl ⟨rfl, hb⟩
  refine ⟨generateInaudibleSilence_int_order _ _ _ _,
    generateInaudibleSilence_supported true hs b rng draws, ?_, ?_, by decide!, by decide!⟩
  · intro bigEndian d
    rw [encodeSample_eq_some hs]
    rcases (readInt_sampleBytes_int bigEndian hb (drawValue_cases rng d)).2 with h | h
    · left; rw [h]
    · right; rw [h]
  · intro float bps b2 rng2 d h
    cases float with
    | true => rfl
    | false => exact absurd (generateInaudibleSilence_int_order bps b2 rng2 d) h

/-- C19 for 16-bit samples: one frame of two samples, draws `-1` then `0`. -/
theorem C19_integer_ignores_order_witness :
    (2 = 1 ∨ 2 = 2 ∨ 2 = 4) ∧
    generateInaudibleSilence false true 2 [1, 2, 3, 4] alternating 0
      = generateInaudibleSilence false false 2 [1, 2, 3, 4] alternating 0 ∧
    generateInaudibleSilence false true 2 [1, 2, 3, 4] alternating 0
      = .done ([255, 255, 0, 0], 2) :=
  ⟨by decide,
    (C19_integer_ignores_order 2 [1, 2, 3, 4] alternating 0 (by decide)).1, by decide⟩

end Fakesilence
